import Mathlib

/-!
Verification of the biogo/store data-structure library against its
natural-language specification.

The development shallowly embeds the four engines of the repository:

* `Llrb`   — the left-leaning red-black tree (package llrb, latest
  generation: the `Tree` with `Root`/`Count` fields, operating in BU23
  mode, which is the compile-time constant `Mode` of the source), plus
  the older generation's direction-swapping `DoRange`.
* `Step`   — the run-length encoded step vector (package step), built on
  the llrb tree exactly as the source builds it.
* `Ivl`    — the generic interval tree (package interval) instantiated,
  as in the repository's own examples, at integer endpoints with the
  half-open overlap predicate.
* `Kd`     — the k-d tree (package kdtree), with points modelled as
  lists of rationals (the source uses float64 slices) and the squared
  Euclidean `Distance` of the source's `Point` type.

Go `nil` pointers become dedicated `nil` constructors; in-place pointer
mutation becomes explicit state passing; machine integers are `Int`;
`panic` becomes an explicit outcome constructor.  Element `Compare`
callbacks are passed as explicit comparison functions, mirroring the
interface dispatch of the source.
-/

namespace Llrb

/-- Color of a node, as in the source: a boolean with `false = Red` and
`true = Black` (`Red Color = false`, `Black Color = true`). -/
abbrev Color := Bool

/-- Source: `Red Color = false`. -/
def Red : Color := false

/-- Source: `Black Color = true`. -/
def Black : Color := true

/-- A node of the LLRB tree (source `type Node struct { Elem; Left, Right
*Node; Color }`).  A nil pointer is the `nil` constructor. -/
inductive Node (α : Type) where
  | nil  : Node α
  | node (elem : α) (left right : Node α) (color : Color) : Node α
deriving DecidableEq, Repr

namespace Node

variable {α : Type}

/-- Left child; `nil` for a nil node (Go would not dereference it). -/
def left : Node α → Node α
  | .nil => .nil
  | .node _ l _ _ => l

/-- Right child; `nil` for a nil node. -/
def right : Node α → Node α
  | .nil => .nil
  | .node _ _ r _ => r

/-- Whether the pointer is nil. -/
def isNil : Node α → Bool
  | .nil => true
  | .node _ _ _ _ => false

/-- Element of a node, with a default supplied for the (unreachable in the
source) nil case. -/
def elemOr (d : α) : Node α → α
  | .nil => d
  | .node e _ _ _ => e

/-- Source `func (self *Node) color() Color`: the effective color of a
node; a nil node is black. -/
def color : Node α → Color
  | .nil => Black
  | .node _ _ _ c => c

/-- Number of nodes; used as the termination measure of the deletion
functions (which the source runs by pointer surgery). -/
def size : Node α → Nat
  | .nil => 0
  | .node _ l r _ => size l + size r + 1

/-- Replace the left child (Go `self.Left = x`). -/
def withLeft : Node α → Node α → Node α
  | .nil, _ => .nil
  | .node e _ r c, x => .node e x r c

/-- Replace the right child (Go `self.Right = x`). -/
def withRight : Node α → Node α → Node α
  | .nil, _ => .nil
  | .node e l _ c, x => .node e l x c

/-- Replace the element (Go `self.Elem = e`). -/
def withElem : Node α → α → Node α
  | .nil, _ => .nil
  | .node _ l r c, e => .node e l r c

/-- Source `rotateLeft`: `(a,c)b -rotL-> ((a,)b,)c`; the promoted child
takes the old root's color and the old root becomes red.  The source
assumes `self.Right != nil`; on other shapes the function is never called
and we return the node unchanged. -/
def rotateLeft : Node α → Node α
  | .node e l (.node re rl rr _) c => .node re (.node e l rl Red) rr c
  | n => n

/-- Source `rotateRight`: `(a,c)b -rotR-> (,(,c)b)a`.  The source assumes
`self.Left != nil`. -/
def rotateRight : Node α → Node α
  | .node e (.node le ll lr _) r c => .node le ll (.node e lr r Red) c
  | n => n

/-- Source `flipColors`: toggles the colors of a node and its two
children.  The source assumes both children exist. -/
def flipColors : Node α → Node α
  | .node e (.node le ll lr lc) (.node re rl rr rc) c =>
      .node e (.node le ll lr (!lc)) (.node re rl rr (!rc)) (!c)
  | n => n

/-- Source `fixUp` with `Mode == BU23` (the compile-time constant of the
source): left-rotate a red right link, right-rotate two consecutive red
left links, and split a 4-node by a color flip. -/
def fixUp (n : Node α) : Node α :=
  let n := if color n.right = Red then rotateLeft n else n
  let n := if color n.left = Red ∧ color n.left.left = Red then rotateRight n else n
  let n := if color n.left = Red ∧ color n.right = Red then flipColors n else n
  n

/-- Source `moveRedLeft` with `Mode == BU23`. -/
def moveRedLeft (n : Node α) : Node α :=
  let n := flipColors n
  if color n.right.left = Red then
    flipColors (rotateLeft (n.withRight (rotateRight n.right)))
  else n

/-- Source `moveRedRight`. -/
def moveRedRight (n : Node α) : Node α :=
  let n := flipColors n
  if color n.left.left = Red then
    flipColors (rotateRight n)
  else n

@[simp] theorem size_nil : (Node.nil : Node α).size = 0 := rfl

@[simp] theorem size_node (e : α) (l r : Node α) (c : Color) :
    (Node.node e l r c).size = l.size + r.size + 1 := rfl

@[simp] theorem size_rotateLeft (n : Node α) : n.rotateLeft.size = n.size := by
  cases n with
  | nil => rfl
  | node e l r c => cases r <;> simp [rotateLeft] <;> omega

@[simp] theorem size_rotateRight (n : Node α) : n.rotateRight.size = n.size := by
  cases n with
  | nil => rfl
  | node e l r c => cases l <;> simp [rotateRight] <;> omega

@[simp] theorem size_flipColors (n : Node α) : n.flipColors.size = n.size := by
  cases n with
  | nil => rfl
  | node e l r c => cases l <;> cases r <;> simp [flipColors]

@[simp] theorem size_withRight (n x : Node α) :
    (n.withRight x).size = if n.isNil then 0 else n.left.size + x.size + 1 := by
  cases n <;> simp [withRight, isNil, left]

@[simp] theorem size_withLeft (n x : Node α) :
    (n.withLeft x).size = if n.isNil then 0 else x.size + n.right.size + 1 := by
  cases n <;> simp [withLeft, isNil, right]

theorem size_left_le (n : Node α) : n.left.size ≤ n.size := by
  cases n <;> simp [left] <;> omega

theorem size_right_le (n : Node α) : n.right.size ≤ n.size := by
  cases n <;> simp [right] <;> omega

theorem isNil_flipColors (n : Node α) : n.flipColors.isNil = n.isNil := by
  cases n with
  | nil => rfl
  | node e l r c => cases l <;> cases r <;> simp [flipColors, isNil]

theorem isNil_rotateLeft (n : Node α) : n.rotateLeft.isNil = n.isNil := by
  cases n with
  | nil => rfl
  | node e l r c => cases r <;> simp [rotateLeft, isNil]

theorem isNil_rotateRight (n : Node α) : n.rotateRight.isNil = n.isNil := by
  cases n with
  | nil => rfl
  | node e l r c => cases l <;> simp [rotateRight, isNil]

theorem isNil_withRight (n x : Node α) : (n.withRight x).isNil = n.isNil := by
  cases n <;> simp [withRight, isNil]

theorem isNil_withLeft (n x : Node α) : (n.withLeft x).isNil = n.isNil := by
  cases n <;> simp [withLeft, isNil]

theorem isNil_moveRedLeft (n : Node α) : n.moveRedLeft.isNil = n.isNil := by
  unfold moveRedLeft
  by_cases h : color (flipColors n).right.left = Red <;>
    simp [h, isNil_flipColors, isNil_rotateLeft, isNil_withRight]

theorem isNil_moveRedRight (n : Node α) : n.moveRedRight.isNil = n.isNil := by
  unfold moveRedRight
  by_cases h : color (flipColors n).left.left = Red <;>
    simp [h, isNil_flipColors, isNil_rotateRight]

theorem left_flipColors_size (n : Node α) : n.flipColors.left.size = n.left.size := by
  cases n with
  | nil => rfl
  | node e l r c => cases l <;> cases r <;> simp [flipColors, left]

theorem right_flipColors_size (n : Node α) : n.flipColors.right.size = n.right.size := by
  cases n with
  | nil => rfl
  | node e l r c => cases l <;> cases r <;> simp [flipColors, right]

@[simp] theorem size_moveRedLeft (n : Node α) : n.moveRedLeft.size = n.size := by
  by_cases h : n.flipColors.right.left.color = Red
  · simp only [moveRedLeft, h, if_pos]
    rw [size_flipColors, size_rotateLeft, size_withRight, isNil_flipColors,
      size_rotateRight, left_flipColors_size, right_flipColors_size]
    cases n with
    | nil => rfl
    | node e l r c => simp [isNil, left, right]
  · simp only [moveRedLeft, h, if_neg, size_flipColors, reduceIte]

@[simp] theorem size_moveRedRight (n : Node α) : n.moveRedRight.size = n.size := by
  unfold moveRedRight
  by_cases h : color (flipColors n).left.left = Red <;> simp [h]

theorem size_pos_of_not_isNil {n : Node α} (h : n.isNil = false) : 0 < n.size := by
  cases n with
  | nil => simp [isNil] at h
  | node e l r c => simp only [size_node]; omega

theorem size_left_lt {n : Node α} (h : n.isNil = false) : n.left.size < n.size := by
  cases n with
  | nil => simp [isNil] at h
  | node e l r c => simp only [size_node, left]; omega

theorem size_right_lt {n : Node α} (h : n.isNil = false) : n.right.size < n.size := by
  cases n with
  | nil => simp [isNil] at h
  | node e l r c => simp only [size_node, right]; omega

/-- Source `Node.search` (the loop is written as the equivalent structural
recursion).  `ce x` stands for `q.Compare(x)`. -/
def search (ce : α → Int) : Node α → Node α
  | .nil => .nil
  | .node se l r c =>
    if ce se = 0 then .node se l r c
    else if ce se < 0 then search ce l
    else search ce r

/-- Source `Node.insert` for `Mode == BU23`.  `ce x` stands for
`e.Compare(x)`.  The `self.Elem == nil` branch of the source (a node
holding a nil element, which the public API never creates) has no
counterpart: every `node` holds an element.  Returns the new subtree root
and the size delta `d`. -/
def insert (ce : α → Int) (e : α) : Node α → Node α × Int
  | .nil => (.node e .nil .nil Red, 1)
  | .node se l r c =>
    let p :=
      if ce se = 0 then ((Node.node e l r c : Node α), 0)
      else if ce se < 0 then
        let q := insert ce e l
        ((Node.node se q.1 r c : Node α), q.2)
      else
        let q := insert ce e r
        ((Node.node se l q.1 c : Node α), q.2)
    let n := p.1
    let n := if n.right.color = Red ∧ n.left.color = Black then n.rotateLeft else n
    let n := if n.left.color = Red ∧ n.left.left.color = Red then n.rotateRight else n
    let n := if n.left.color = Red ∧ n.right.color = Red then n.flipColors else n
    (n, p.2)

/-- Source `Node.deleteMin`.  The source mutates `self` in place
(`self = self.moveRedLeft()`); here the two branches carry the two
possible values of `self` explicitly.  The recursion is driven by an
explicit fuel bounded below by the subtree size (each recursive call
descends to a strict subtree, so `size` fuel always suffices and the
fuel-exhausted branch is unreachable from `deleteMin`); the fuel keeps
the definition reducible by the kernel. -/
def deleteMinA : Nat → Node α → Node α × Int
  | 0, n => (n, 0)
  | _ + 1, .nil => (.nil, 0)
  | fuel + 1, .node se l r c =>
    if l.isNil then (.nil, -1)
    else if l.color = Black ∧ l.left.color = Black then
      let m := (Node.node se l r c).moveRedLeft
      let q := deleteMinA fuel m.left
      ((m.withLeft q.1).fixUp, q.2)
    else
      let q := deleteMinA fuel l
      (((Node.node se l r c).withLeft q.1).fixUp, q.2)

/-- `Node.deleteMin` at its natural fuel. -/
def deleteMin (n : Node α) : Node α × Int := deleteMinA n.size n

/-- Source `Node.deleteMax`, fueled like `deleteMinA`. -/
def deleteMaxA : Nat → Node α → Node α × Int
  | 0, n => (n, 0)
  | _ + 1, .nil => (.nil, 0)
  | fuel + 1, .node se l r c =>
    let m := if ¬ l.isNil ∧ l.color = Red then (Node.node se l r c).rotateRight
             else .node se l r c
    if m.right.isNil then (.nil, -1)
    else if m.right.color = Black ∧ m.right.left.color = Black then
      let m2 := m.moveRedRight
      let q := deleteMaxA fuel m2.right
      ((m2.withRight q.1).fixUp, q.2)
    else
      let q := deleteMaxA fuel m.right
      ((m.withRight q.1).fixUp, q.2)

/-- `Node.deleteMax` at its natural fuel. -/
def deleteMax (n : Node α) : Node α × Int := deleteMaxA n.size n

/-- Source `Node.min` (the leftmost node). -/
def minN : Node α → Node α
  | .nil => .nil
  | .node se l r c => if l.isNil then .node se l r c else minN l

/-- Source `Node.max` (the rightmost node). -/
def maxN : Node α → Node α
  | .nil => .nil
  | .node se l r c => if r.isNil then .node se l r c else maxN r

/-- Source `Node.delete`.  `ce x` stands for `e.Compare(x)`.  As in the
source, after a rotation or a `moveRedRight` the current element is
re-read (`e.Compare(self.Elem)` is re-evaluated on the new `self`).
Fueled like `deleteMinA`; the inner `deleteMin` call runs on a strict
subtree, so the remaining fuel suffices for it too. -/
def deleteA (ce : α → Int) : Nat → Node α → Node α × Int
  | 0, n => (n, 0)
  | _ + 1, .nil => (.nil, 0)
  | fuel + 1, .node se l r c =>
    if ce se < 0 then
      if l.isNil then ((Node.node se l r c).fixUp, 0)
      else if l.color = Black ∧ l.left.color = Black then
        let m := (Node.node se l r c).moveRedLeft
        let q := deleteA ce fuel m.left
        ((m.withLeft q.1).fixUp, q.2)
      else
        let q := deleteA ce fuel l
        (((Node.node se l r c).withLeft q.1).fixUp, q.2)
    else
      let m := if l.color = Red then (Node.node se l r c).rotateRight
               else .node se l r c
      if ce (m.elemOr se) = 0 ∧ m.right.isNil then (.nil, -1)
      else if m.right.isNil then (m.fixUp, 0)
      else
        let m2 := if m.right.color = Black ∧ m.right.left.color = Black
                  then m.moveRedRight else m
        if ce (m2.elemOr se) = 0 then
          let q := deleteMinA fuel m2.right
          (((m2.withElem (m2.right.minN.elemOr se)).withRight q.1).fixUp, q.2)
        else
          let q := deleteA ce fuel m2.right
          ((m2.withRight q.1).fixUp, q.2)

/-- `Node.delete` at its natural fuel. -/
def delete (ce : α → Int) (n : Node α) : Node α × Int := deleteA ce n.size n

/-- Source `Node.floor`: the node of the greatest element `≤ q`, where
`cq x` stands for `q.Compare(x)`. -/
def floorN (cq : α → Int) : Node α → Node α
  | .nil => .nil
  | .node se l r c =>
    if cq se = 0 then .node se l r c
    else if cq se < 0 then floorN cq l
    else
      match floorN cq r with
      | .nil => .node se l r c
      | m => m

/-- Source `Node.ceil`: the node of the smallest element `≥ q`. -/
def ceilN (cq : α → Int) : Node α → Node α
  | .nil => .nil
  | .node se l r c =>
    if cq se = 0 then .node se l r c
    else if cq se > 0 then ceilN cq r
    else
      match ceilN cq l with
      | .nil => .node se l r c
      | m => m

/-- Source `Node.do` (latest generation): in-order traversal with a
short-circuiting operation.  The Go `Operation` closure is modelled as a
state-passing function returning its new state and the `done` flag. -/
def doF (fn : σ → α → σ × Bool) : Node α → σ → σ × Bool
  | .nil, s => (s, false)
  | .node se l r _, s =>
    let q1 := if l.isNil then (s, false) else doF fn l s
    if q1.2 then q1 else
    let q2 := fn q1.1 se
    if q2.2 then q2 else
    if r.isNil then q2 else doF fn r q2.1

/-- Source `Node.doReverse`. -/
def doReverseF (fn : σ → α → σ × Bool) : Node α → σ → σ × Bool
  | .nil, s => (s, false)
  | .node se l r _, s =>
    let q1 := if r.isNil then (s, false) else doReverseF fn r s
    if q1.2 then q1 else
    let q2 := fn q1.1 se
    if q2.2 then q2 else
    if l.isNil then q2 else doReverseF fn l q2.1

/-- Source `Node.doRange` (latest generation, half-open bounds):
`lc, hc := lo.Compare(self.Elem), hi.Compare(self.Elem)`; the element is
visited when `lc <= 0 && hc > 0`. -/
def doRangeF (fn : σ → α → σ × Bool) (lo hi : α → Int) : Node α → σ → σ × Bool
  | .nil, s => (s, false)
  | .node se l r _, s =>
    let lc := lo se
    let hc := hi se
    let q1 := if lc ≤ 0 ∧ ¬ l.isNil then doRangeF fn lo hi l s else (s, false)
    if q1.2 then q1 else
    let q2 := if lc ≤ 0 ∧ hc > 0 then fn q1.1 se else q1
    if q2.2 then q2 else
    if hc > 0 ∧ ¬ r.isNil then doRangeF fn lo hi r q2.1 else q2

/-- Source `Node.doRangeReverse` (latest generation); the parameters are
`(hi, lo)` in that order, as in the source. -/
def doRangeReverseF (fn : σ → α → σ × Bool) (hi lo : α → Int) : Node α → σ → σ × Bool
  | .nil, s => (s, false)
  | .node se l r _, s =>
    let lc := lo se
    let hc := hi se
    let q1 := if hc > 0 ∧ ¬ r.isNil then doRangeReverseF fn hi lo r s else (s, false)
    if q1.2 then q1 else
    let q2 := if lc ≤ 0 ∧ hc > 0 then fn q1.1 se else q1
    if q2.2 then q2 else
    if lc ≤ 0 ∧ ¬ l.isNil then doRangeReverseF fn hi lo l q2.1 else q2

/-- Source `Node.doMatch` (latest generation). -/
def doMatchF (fn : σ → α → σ × Bool) (cq : α → Int) : Node α → σ → σ × Bool
  | .nil, s => (s, false)
  | .node se l r _, s =>
    let cc := cq se
    let q1 := if cc ≤ 0 ∧ ¬ l.isNil then doMatchF fn cq l s else (s, false)
    if q1.2 then q1 else
    let q2 := if cc = 0 then fn q1.1 se else q1
    if q2.2 then q2 else
    if cc ≥ 0 ∧ ¬ r.isNil then doMatchF fn cq r q2.1 else q2

/-- In-order element list of a subtree; the reference meaning of "the
stored elements in sort order". -/
def inorder : Node α → List α
  | .nil => []
  | .node e l r _ => inorder l ++ e :: inorder r

/-- Repaint a node black (Go `self.Root.Color = Black`); nil stays nil. -/
def blacken : Node α → Node α
  | .nil => .nil
  | .node e l r _ => .node e l r Black

/-- Optional element of a node. -/
def elem? : Node α → Option α
  | .nil => none
  | .node e _ _ _ => some e

end Node

/-- Source `type Tree struct { Root *Node; Count int }` (latest
generation). -/
structure Tree (α : Type) where
  Root : Node α := .nil
  Count : Int := 0
deriving DecidableEq, Repr

namespace Tree

variable {α : Type} {σ : Type}

/-- Source `Tree.Len`. -/
def Len (t : Tree α) : Int := t.Count

/-- Source `Tree.Get`: first match of the query, or nil. -/
def Get (t : Tree α) (cq : α → Int) : Option α :=
  if t.Root.isNil then none
  else (t.Root.search cq).elem?

/-- Source `Tree.Insert`: insert with replacement and repaint the root
black. -/
def Insert (t : Tree α) (ce : α → Int) (e : α) : Tree α :=
  let q := t.Root.insert ce e
  { Root := q.1.blacken, Count := t.Count + q.2 }

/-- Source `Tree.DeleteMin`. -/
def DeleteMin (t : Tree α) : Tree α :=
  if t.Root.isNil then t
  else
    let q := t.Root.deleteMin
    { Root := q.1.blacken, Count := t.Count + q.2 }

/-- Source `Tree.DeleteMax`. -/
def DeleteMax (t : Tree α) : Tree α :=
  if t.Root.isNil then t
  else
    let q := t.Root.deleteMax
    { Root := q.1.blacken, Count := t.Count + q.2 }

/-- Source `Tree.Delete`. -/
def Delete (t : Tree α) (ce : α → Int) : Tree α :=
  if t.Root.isNil then t
  else
    let q := t.Root.delete ce
    { Root := q.1.blacken, Count := t.Count + q.2 }

/-- Source `Tree.Min`. -/
def Min (t : Tree α) : Option α :=
  if t.Root.isNil then none else t.Root.minN.elem?

/-- Source `Tree.Max`. -/
def Max (t : Tree α) : Option α :=
  if t.Root.isNil then none else t.Root.maxN.elem?

/-- Source `Tree.Floor` (latest generation). -/
def Floor (t : Tree α) (cq : α → Int) : Option α :=
  if t.Root.isNil then none else (t.Root.floorN cq).elem?

/-- Source `Tree.Ceil` (latest generation). -/
def Ceil (t : Tree α) (cq : α → Int) : Option α :=
  if t.Root.isNil then none else (t.Root.ceilN cq).elem?

/-- Source `Tree.Do` (latest generation). -/
def Do (t : Tree α) (fn : σ → α → σ × Bool) (s : σ) : σ × Bool :=
  if t.Root.isNil then (s, false) else t.Root.doF fn s

/-- Source `Tree.DoReverse` (latest generation). -/
def DoReverse (t : Tree α) (fn : σ → α → σ × Bool) (s : σ) : σ × Bool :=
  if t.Root.isNil then (s, false) else t.Root.doReverseF fn s

/-- Source `Tree.DoRange` of the latest generation — the strict entry
point: traverses `[from, to)` left to right when `from < to` and panics
(`panic("llrb: inverted range")`, modelled as `none`) when `from > to`.
`cq b x` stands for `b.Compare(x)` against a stored element and `cqq`
compares two bounds (`from.Compare(to)`). -/
def DoRange (t : Tree α) (fn : σ → α → σ × Bool) (cq : β → α → Int)
    (cqq : β → β → Int) (b e : β) (s : σ) : Option (σ × Bool) :=
  if t.Root.isNil then some (s, false)
  else
    let order := cqq b e
    if order < 0 then some (t.Root.doRangeF fn (cq b) (cq e) s)
    else if order > 0 then none
    else some (s, false)

/-- Source `Tree.DoRangeReverse` of the latest generation: traverses
`[to, from)` right to left when `from > to` and panics (modelled as
`none`) when `from < to`. -/
def DoRangeReverse (t : Tree α) (fn : σ → α → σ × Bool) (cq : β → α → Int)
    (cqq : β → β → Int) (b e : β) (s : σ) : Option (σ × Bool) :=
  if t.Root.isNil then some (s, false)
  else
    let order := cqq b e
    if order > 0 then some (t.Root.doRangeReverseF fn (cq b) (cq e) s)
    else if order < 0 then none
    else some (s, false)

/-- Source `Tree.DoMatching` (latest generation). -/
def DoMatching (t : Tree α) (fn : σ → α → σ × Bool) (cq : α → Int) (s : σ) : σ × Bool :=
  if t.Root.isNil then (s, false) else t.Root.doMatchF fn cq s

end Tree

/-!
The older generation of the llrb package (file `llrb.go` of the
repository), whose `DoRange` swaps the traversal direction instead of
panicking on an inverted range, and whose `Operation` does not
short-circuit.  The tree and node structure is the same; only the
traversal entry points differ, so only those are embedded here.
-/
namespace Old

variable {α : Type} {σ : Type}

/-- Source `Node.doRange` (older generation, file `llrb.go`): the element
is visited when `fc <= 0 && tc >= 0` — a closed interval. -/
def doRange (fn : σ → α → σ) (fc tc : α → Int) : Node α → σ → σ
  | .nil, s => s
  | .node se l r _, s =>
    let f := fc se
    let t := tc se
    let s := if f ≤ 0 ∧ ¬ l.isNil then doRange fn fc tc l s else s
    let s := if f ≤ 0 ∧ t ≥ 0 then fn s se else s
    if t ≥ 0 ∧ ¬ r.isNil then doRange fn fc tc r s else s

/-- Source `Node.doRangeReverse` (older generation, file `llrb.go`). -/
def doRangeReverse (fn : σ → α → σ) (fc tc : α → Int) : Node α → σ → σ
  | .nil, s => s
  | .node se l r _, s =>
    let f := fc se
    let t := tc se
    let s := if t ≥ 0 ∧ ¬ r.isNil then doRangeReverse fn fc tc r s else s
    let s := if f ≤ 0 ∧ t ≥ 0 then fn s se else s
    if f ≤ 0 ∧ ¬ l.isNil then doRangeReverse fn fc tc l s else s

/-- Source `Node.doMatch` (older generation, file `llrb.go`). -/
def doMatch (fn : σ → α → σ) (cq : α → Int) : Node α → σ → σ
  | .nil, s => s
  | .node se l r _, s =>
    let cc := cq se
    let s := if cc ≤ 0 ∧ ¬ l.isNil then doMatch fn cq l s else s
    let s := if cc = 0 then fn s se else s
    if cc ≥ 0 ∧ ¬ r.isNil then doMatch fn cq r s else s

/-- Source `Tree.DoRange` (older generation, file `llrb.go`): left-to-
right over the range when `from < to`, right-to-left when `from > to`,
and match-only when `from == to`.  No panic. -/
def DoRange (t : Tree α) (fn : σ → α → σ) (cq : β → α → Int)
    (cqq : β → β → Int) (b e : β) (s : σ) : σ :=
  if t.Root.isNil then s
  else
    let order := cqq b e
    if order < 0 then doRange fn (cq b) (cq e) t.Root s
    else if order > 0 then doRangeReverse fn (cq b) (cq e) t.Root s
    else doMatch fn (cq b) t.Root s

end Old

namespace Node

variable {α : Type}

/-- Map a function over every node element, keeping the shape.  This
models an in-place field assignment performed through a pointer held into
the tree (the step vector mutates `position` structs this way); the
assignment is applied to the node(s) the pointer designates, selected by
the predicate baked into `f`. -/
def map (f : α → α) : Node α → Node α
  | .nil => .nil
  | .node e l r c => .node (f e) (map f l) (map f r) c

end Node

end Llrb

namespace Step

/-- Source `type position struct { pos int; val Equaler }`.  The end
sentinel holds `val = nil`, modelled as `none`. -/
structure Position (V : Type) where
  pos : Int
  val : Option V
deriving DecidableEq, Repr

/-- The error values and run-time failures of the step package.
`outOfRange`, `invertedRange` and `zeroLength` are the package's error
variables; `runtimeNil` marks a place where the source would fail with a
run-time nil dereference or nil type assertion (unreachable under the
package's own invariants). -/
inductive StepErr where
  | outOfRange
  | invertedRange
  | zeroLength
  | runtimeNil
deriving DecidableEq, Repr

/-- Outcome of an operation that can panic: either the updated vector, or
a panic carrying the error value and the state at the moment of the
panic. -/
inductive POut (γ : Type) where
  | ok (val : γ)
  | panicked (err : StepErr) (val : γ)
deriving DecidableEq, Repr

variable {V : Type}

/-- Source `position.Compare`: `p.pos - c.(*position).pos`. -/
def pcmp (p : Position V) : Position V → Int := fun x => p.pos - x.pos

/-- Source `query.Compare` against stored positions: `int(q) - c.pos`. -/
def qcmp (i : Int) : Position V → Int := fun x => i - x.pos

/-- Source `upper.Compare`: `int(q) - c.pos`, with ties forced positive. -/
def ucmp (i : Int) : Position V → Int :=
  fun x => let d := i - x.pos; if d = 0 then 1 else d

/-- Source `type Vector struct { Zero; Relaxed; t *llrb.Tree; min, max
*position }`.  The `min` and `max` pointers always designate the nodes
with the smallest and largest key, so they are modelled by those keys. -/
structure Vector (V : Type) where
  Zero : V
  Relaxed : Bool
  t : Llrb.Tree (Position V)
  minPos : Int
  maxPos : Int
deriving DecidableEq, Repr

/-- `e.Equal(o)` where `o` is a stored value; the source never calls
`Equal` with the sentinel's nil value on the guarded paths, so the `none`
case is arbitrary (`false`). -/
def eqv (eq : V → V → Bool) (e : V) : Option V → Bool
  | some y => eq e y
  | none => false

/-- `a.Equal(b)` on two stored values (both sides optional). -/
def eqo (eq : V → V → Bool) : Option V → Option V → Bool
  | some x, some y => eq x y
  | _, _ => false

/-- Insert a position (Go `v.t.Insert(p)`, with `position.Compare`). -/
def insertP (t : Llrb.Tree (Position V)) (p : Position V) : Llrb.Tree (Position V) :=
  t.Insert (pcmp p) p

/-- Delete by key (Go `v.t.Delete(query(i))` or `v.t.Delete(p)`). -/
def deleteK (t : Llrb.Tree (Position V)) (i : Int) : Llrb.Tree (Position V) :=
  t.Delete (qcmp i)

/-- Floor by key (Go `v.t.Floor(query(i))`). -/
def floorQ (t : Llrb.Tree (Position V)) (i : Int) : Option (Position V) :=
  t.Floor (qcmp i)

/-- Ceiling by key (Go `v.t.Ceil(query(i))`). -/
def ceilQ (t : Llrb.Tree (Position V)) (i : Int) : Option (Position V) :=
  t.Ceil (qcmp i)

/-- Ceiling strictly above the key (Go `v.t.Ceil(upper(i))`). -/
def ceilU (t : Llrb.Tree (Position V)) (i : Int) : Option (Position V) :=
  t.Ceil (ucmp i)

/-- Assign new fields to the node with key `k` (an in-place mutation of a
`position` struct held by pointer in the source). -/
def updateK (t : Llrb.Tree (Position V)) (k : Int) (f : Position V → Position V) :
    Llrb.Tree (Position V) :=
  { t with Root := t.Root.map (fun p => if p.pos = k then f p else p) }

/-- Move the key of the node with key `k` to `k'` (source `p.pos = ...`
on a held pointer); the caller guarantees the move preserves key order. -/
def moveK (t : Llrb.Tree (Position V)) (k k' : Int) : Llrb.Tree (Position V) :=
  updateK t k (fun p => { p with pos := k' })

/-- The value stored at the minimum node (Go `v.min.val`). -/
def minVal (v : Vector V) : Option V :=
  match floorQ v.t v.minPos with
  | some p => p.val
  | none => none

/-- Source `New`: a vector over `[start, end)` with ground value `zero`;
`ErrZeroLength` when `start >= end`. -/
def New (start end_ : Int) (zero : V) : Except StepErr (Vector V) :=
  if start ≥ end_ then .error .zeroLength
  else
    let t : Llrb.Tree (Position V) := {}
    let t := insertP t { pos := start, val := some zero }
    let t := insertP t { pos := end_, val := none }
    .ok { Zero := zero, Relaxed := false, t := t, minPos := start, maxPos := end_ }

/-- Source `Start`. -/
def Start (v : Vector V) : Int := v.minPos

/-- Source `End`. -/
def End (v : Vector V) : Int := v.maxPos

/-- Source `Len`: `End() - Start()`. -/
def Len (v : Vector V) : Int := End v - Start v

/-- Source `Count`: `v.t.Len() - 1`. -/
def Count (v : Vector V) : Int := v.t.Len - 1

/-- Source `At`: value at position `i`, or `ErrOutOfRange`. -/
def At (v : Vector V) (i : Int) : Except StepErr (Option V) :=
  if i < Start v ∨ i ≥ End v then .error .outOfRange
  else
    match floorQ v.t i with
    | some st => .ok st.val
    | none => .error .runtimeNil

/-- Source `StepAt`: the `(start, end, value)` of the run containing `i`,
or `ErrOutOfRange`. -/
def StepAt (v : Vector V) (i : Int) : Except StepErr (Int × Int × Option V) :=
  if i < Start v ∨ i ≥ End v then .error .outOfRange
  else
    match floorQ v.t i, ceilU v.t i with
    | some lo, some hi => .ok (lo.pos, hi.pos, lo.val)
    | _, _ => .error .runtimeNil

/-- The `(pos, val)` pairs of the vector in ascending key order — the
contents that the source's `String` prints (`[pos:val ... end:<nil>]`)
and that its `Do` iterates. -/
def steps (v : Vector V) : List (Int × Option V) :=
  (Llrb.Node.inorder v.t.Root).map (fun p => (p.pos, p.val))

section Ops

variable (eq : V → V → Bool)

/-- Source `Set` (part of package step): point update, with relaxed
extension of the extent and merging of equal-valued neighbours.  Panics
with `ErrOutOfRange` on an out-of-extent index of a strict vector. -/
def Set (v : Vector V) (i : Int) (e : V) : POut (Vector V) :=
  if i < v.minPos ∨ v.maxPos ≤ i then
    if ¬ v.Relaxed then .panicked .outOfRange v
    else if i < v.minPos then
      if i = v.minPos - 1 then
        if eqv eq e (minVal v) then
          .ok { v with t := moveK v.t v.minPos (v.minPos - 1), minPos := v.minPos - 1 }
        else
          .ok { v with t := insertP v.t { pos := i, val := some e }, minPos := i }
      else
        let v :=
          if eqo eq (minVal v) (some v.Zero) then
            { v with t := moveK v.t v.minPos (i + 1), minPos := i + 1 }
          else
            { v with t := insertP v.t { pos := i + 1, val := some v.Zero }, minPos := i + 1 }
        if eq e v.Zero then
          .ok { v with t := moveK v.t v.minPos (v.minPos - 1), minPos := v.minPos - 1 }
        else
          .ok { v with t := insertP v.t { pos := i, val := some e }, minPos := i }
    else
      if i = v.maxPos then
        let v := { v with t := moveK v.t v.maxPos (v.maxPos + 1), minPos := v.minPos,
                          maxPos := v.maxPos + 1 }
        match floorQ v.t i with
        | none => .panicked .runtimeNil v
        | some prev =>
          if ¬ eqv eq e prev.val then
            .ok { v with t := insertP v.t { pos := i, val := some e } }
          else .ok v
      else
        let mpos := v.maxPos
        let v := { v with t := moveK v.t v.maxPos (i + 1), maxPos := i + 1 }
        match floorQ v.t i with
        | none => .panicked .runtimeNil v
        | some prev =>
          let v :=
            if ¬ eqo eq prev.val (some v.Zero) then
              { v with t := insertP v.t { pos := mpos, val := some v.Zero } }
            else v
          if ¬ eq e v.Zero then
            .ok { v with t := insertP v.t { pos := i, val := some e } }
          else .ok v
  else
    match floorQ v.t i with
    | none => .panicked .runtimeNil v
    | some lo =>
      if eqv eq e lo.val then .ok v
      else
        match ceilU v.t i with
        | none => .panicked .runtimeNil v
        | some hi =>
          if lo.pos = i then
            if hi.pos = i + 1 then
              let v :=
                if hi.pos ≠ v.maxPos ∧ eqv eq e hi.val then
                  { v with t := moveK (deleteK v.t i) hi.pos (hi.pos - 1) }
                else
                  { v with t := updateK v.t i (fun p => { p with val := some e }) }
              if i > v.minPos then
                match floorQ v.t (i - 1) with
                | none => .panicked .runtimeNil v
                | some prev =>
                  if eqv eq e prev.val then .ok { v with t := deleteK v.t i }
                  else .ok v
              else .ok v
            else
              let v := { v with t := moveK v.t i (i + 1),
                                minPos := if lo.pos = v.minPos then i + 1 else v.minPos }
              match floorQ v.t i with
              | none =>
                .ok { v with t := insertP v.t { pos := i, val := some e }, minPos := i }
              | some prev =>
                if ¬ eqv eq e prev.val then
                  .ok { v with t := insertP v.t { pos := i, val := some e } }
                else .ok v
          else
            if hi.pos = i + 1 then
              if hi.pos ≠ v.maxPos ∧ eqv eq e hi.val then
                .ok { v with t := moveK v.t hi.pos (hi.pos - 1) }
              else
                .ok { v with t := insertP v.t { pos := i, val := some e } }
            else
              .ok { v with t := insertP (insertP v.t { pos := i, val := some e })
                                        { pos := i + 1, val := lo.val } }

/-- Source `SetRange` (part_001 generation): range update `[start, end)`,
delegating to `Set` for unit ranges, panicking with `ErrInvertedRange`
when `end < start` and with `ErrOutOfRange` when the range lies entirely
outside the extent of a strict vector. -/
def SetRange (v : Vector V) (start end_ : Int) (e : V) : POut (Vector V) :=
  let l := end_ - start
  if l = 0 then .ok v
  else if l = 1 then Set eq v start e
  else if l < 0 then .panicked .invertedRange v
  else if end_ ≤ v.minPos ∨ v.maxPos ≤ start then
    if ¬ v.Relaxed then .panicked .outOfRange v
    else if end_ ≤ v.minPos then
      if end_ = v.minPos then
        if eqv eq e (minVal v) then
          .ok { v with t := moveK v.t v.minPos (v.minPos - l), minPos := v.minPos - l }
        else
          .ok { v with t := insertP v.t { pos := start, val := some e }, minPos := start }
      else
        let v :=
          if eqo eq (minVal v) (some v.Zero) then
            { v with t := moveK v.t v.minPos end_, minPos := end_ }
          else
            { v with t := insertP v.t { pos := end_, val := some v.Zero }, minPos := end_ }
        if eq e v.Zero then
          .ok { v with t := moveK v.t v.minPos (v.minPos - l), minPos := v.minPos - l }
        else
          .ok { v with t := insertP v.t { pos := start, val := some e }, minPos := start }
    else
      if start = v.maxPos then
        let v := { v with t := moveK v.t v.maxPos (v.maxPos + l), maxPos := v.maxPos + l }
        match floorQ v.t start with
        | none => .panicked .runtimeNil v
        | some prev =>
          if ¬ eqv eq e prev.val then
            .ok { v with t := insertP v.t { pos := start, val := some e } }
          else .ok v
      else
        let mpos := v.maxPos
        let v := { v with t := moveK v.t v.maxPos end_, maxPos := end_ }
        match floorQ v.t start with
        | none => .panicked .runtimeNil v
        | some prev =>
          let v :=
            if ¬ eqo eq prev.val (some v.Zero) then
              { v with t := insertP v.t { pos := mpos, val := some v.Zero } }
            else v
          if ¬ eq e v.Zero then
            .ok { v with t := insertP v.t { pos := start, val := some e } }
          else .ok v
  else
    let delQ : List (Position V) :=
      match v.t.DoRange (fun (s : List (Position V)) x => (s ++ [x], false))
          qcmp (fun a b => a - b) start end_ [] with
      | some (s, _) => s
      | none => []
    let t := delQ.foldl (fun t p => t.Delete (pcmp p)) v.t
    let v := { v with t := t }
    let lap : Option (Position V × Position V) :=
      match delQ with
      | lo :: rest => some (lo, (lo :: rest).getLastD lo)
      | [] =>
        match floorQ v.t start with
        | some lo => some (lo, lo)
        | none => none
    match lap with
    | none => .panicked .runtimeNil v
    | some (lo, la) =>
      match ceilQ v.t end_ with
      | none => .panicked .runtimeNil v
      | some hi =>
        if start = lo.pos then
          let prev := floorQ v.t (start - 1)
          let prevSame : Bool := match prev with
                          | some p => eqv eq e p.val
                          | none => false
          let hiSame : Bool := (hi.pos != v.maxPos) && eqv eq e hi.val
          if hi.pos = end_ then
            if hiSame && prevSame then .ok { v with t := deleteK v.t hi.pos }
            else if prevSame then .ok v
            else if hiSame then .ok { v with t := moveK v.t hi.pos start }
            else
              match prev with
              | none =>
                .ok { v with t := insertP v.t { pos := start, val := some e },
                             minPos := start }
              | some _ =>
                .ok { v with t := insertP v.t { pos := start, val := some e } }
          else
            let la := { la with pos := end_ }
            let v := if ¬ eqv eq e la.val then { v with t := insertP v.t la } else v
            match prev with
            | none =>
              .ok { v with t := insertP v.t { pos := start, val := some e },
                           minPos := start }
            | some _ =>
              if !prevSame then
                .ok { v with t := insertP v.t { pos := start, val := some e } }
              else .ok v
        else
          if hi.pos = end_ then
            if hi.pos ≠ v.maxPos ∧ eqv eq e hi.val then
              .ok { v with t := moveK v.t hi.pos start }
            else
              .ok { v with t := insertP v.t { pos := start, val := some e } }
          else
            let v := { v with t := insertP v.t { pos := start, val := some e } }
            let la := { la with pos := end_ }
            if ¬ eqv eq e la.val then .ok { v with t := insertP v.t la }
            else .ok v

/-- The in-order mutating traversal of `Apply`'s `v.t.Do` call with its
closure inlined: skip past the sentinel (`p.pos == max` short-circuits),
replace each value by `m(p.val)`, and queue for deletion every position
whose new value equals the previous step's new value (`la`).  The state
is `(la, delQ)`; the mutated tree is returned alongside. -/
def applyDo (m : V → V) (minP maxP : Int) :
    Llrb.Node (Position V) → Option V × List Int →
    Llrb.Node (Position V) × ((Option V × List Int) × Bool)
  | .nil, s => (.nil, (s, false))
  | .node p l r c, s =>
    let (l', q1) := if l.isNil then (l, (s, false)) else applyDo m minP maxP l s
    if q1.2 then (.node p l' r c, q1)
    else if p.pos = maxP then (.node p l' r c, (q1.1, true))
    else
      let la := q1.1.1
      let delQ := q1.1.2
      let newv := p.val.map m
      let delQ := if p.pos ≠ minP ∧ p.pos ≠ maxP ∧ eqo eq newv la
                  then delQ ++ [p.pos] else delQ
      let p' := { p with val := newv }
      let s2 := (newv, delQ)
      let (r', q3) := if r.isNil then (r, (s2, false)) else applyDo m minP maxP r s2
      (.node p' l' r' c, q3)

/-- Source `Apply`: mutate every step value in order and erase the queued
redundant steps. -/
def Apply (v : Vector V) (m : V → V) : Vector V :=
  let q := applyDo eq m v.minPos v.maxPos v.t.Root (none, [])
  let t := { v.t with Root := q.1 }
  let t := q.2.1.2.foldl (fun t k => deleteK t k) t
  { v with t := t }

/-- The range-restricted mutating traversal of `ApplyRange`'s
`v.t.DoRange` call (bounds `query(end)` and `query(to)`, visiting keys in
`[end, to)`) with its closure inlined: skip past the sentinel, snapshot
the pre-mutation step into `old`, mutate, and queue merges against `la`.
The state is `(la, old, delQ)`. -/
def applyRangeDo (m : V → V) (minP maxP loK hiK : Int) :
    Llrb.Node (Position V) → Option V × Position V × List Int →
    Llrb.Node (Position V) × ((Option V × Position V × List Int) × Bool)
  | .nil, s => (.nil, (s, false))
  | .node p l r c, s =>
    let lc := loK - p.pos
    let hc := hiK - p.pos
    let (l', q1) := if lc ≤ 0 ∧ ¬ l.isNil then applyRangeDo m minP maxP loK hiK l s
                    else (l, (s, false))
    if q1.2 then (.node p l' r c, q1)
    else if lc ≤ 0 ∧ hc > 0 then
      if p.pos = maxP then (.node p l' r c, (q1.1, true))
      else
        let la := q1.1.1
        let delQ := q1.1.2.2
        let newv := p.val.map m
        let delQ := if p.pos ≠ minP ∧ eqo eq newv la then delQ ++ [p.pos] else delQ
        let p' := { p with val := newv }
        let s2 : Option V × Position V × List Int := (newv, p, delQ)
        let (r', q3) := if hc > 0 ∧ ¬ r.isNil then applyRangeDo m minP maxP loK hiK r s2
                        else (r, (s2, false))
        (.node p' l' r' c, q3)
    else
      let (r', q3) := if hc > 0 ∧ ¬ r.isNil then applyRangeDo m minP maxP loK hiK r q1.1
                      else (r, (q1.1, false))
      (.node p l' r' c, q3)

/-- Source `ApplyRange`: mutate the step values over `[from, to)`.
Returns `ErrInvertedRange` when `to < from` and `ErrOutOfRange` when the
range misses the extent entirely; otherwise mutates the straddled first
step, every stored step in `[end, to)`, restores the tail of a straddled
last run by materialising a boundary at `to`, and erases queued redundant
steps.  `runtimeNil` marks paths on which the source would fail at run
time (never reached from a well-formed vector). -/
def ApplyRange (v : Vector V) (from_ to_ : Int) (m : V → V) :
    Except StepErr (Vector V) :=
  if to_ < from_ then .error .invertedRange
  else if to_ ≤ v.minPos ∨ from_ ≥ v.maxPos then .error .outOfRange
  else
    match StepAt v from_ with
    | .error _ => .error .runtimeNil
    | .ok (oldPos, end_, oldVal) =>
      match oldVal with
      | none => .error .runtimeNil
      | some ov =>
        let la := m ov
        if to_ ≤ end_ then
          match SetRange eq v from_ to_ la with
          | .ok v' => .ok v'
          | .panicked _ _ => .error .runtimeNil
        else
          let v := if ¬ eq la ov then
                     { v with t := insertP v.t { pos := from_, val := some la } }
                   else v
          let q := applyRangeDo eq m v.minPos v.maxPos end_ to_ v.t.Root
                     (some la, { pos := oldPos, val := oldVal }, [])
          let v := { v with t := { v.t with Root := q.1 } }
          let laF := q.2.1.1
          let oldF := q.2.1.2.1
          let delQ := q.2.1.2.2
          let step2 : Except StepErr (Vector V × List Int) :=
            if to_ < v.maxPos then
              match ceilQ v.t to_ with
              | none => .error .runtimeNil
              | some p =>
                if p.pos > to_ ∧ (p.pos = v.maxPos ∨ ¬ eqo eq p.val oldF.val) then
                  .ok ({ v with t := insertP v.t { pos := to_, val := oldF.val } }, delQ)
                else if eqo eq p.val laF then .ok (v, delQ ++ [p.pos])
                else .ok (v, delQ)
            else .ok (v, delQ)
          match step2 with
          | .error err => .error err
          | .ok (v, delQ) => .ok { v with t := delQ.foldl (fun t k => deleteK t k) v.t }

end Ops

/-- Equality on integer step values (`reflect.DeepEqual` on `int`). -/
def ieq : Int → Int → Bool := fun a b => decide (a = b)

/-- A placeholder vector for unreachable error branches of the concrete
constructions below. -/
def dummyV : Vector Int := { Zero := 0, Relaxed := false, t := {}, minPos := 0, maxPos := 0 }

/-- `New(1, 20, 0)`. -/
def vNew : Vector Int := ((New 1 20 (0 : Int)).toOption).getD dummyV

/-- Unwrap a step operation known not to panic. -/
def unwrapP : POut (Vector Int) → Vector Int
  | .ok v => v
  | .panicked _ v => v

/-- The vector `[1:0 5:1 10:2 15:0 20:<nil>]`. -/
def vC4 : Vector Int := unwrapP (SetRange ieq (unwrapP (SetRange ieq vNew 5 10 1)) 10 15 2)

/-- `vC4` after `ApplyRange(5, 12, decrement)`. -/
def vC4a : Vector Int :=
  match ApplyRange ieq vC4 5 12 (fun x => x - 1) with
  | .ok v => v
  | .error _ => vC4

/-- C7 (amended): `SetRange` does not return its errors — it panics:
`ErrInvertedRange` when `end < start`, and `ErrOutOfRange` when the range
lies entirely outside the extent of a strict (`Relaxed == false`) vector;
in both failure cases the vector is unchanged at the moment of the panic
(the panic outcome carries the untouched vector). -/
theorem step_set_range_panics {V : Type} (eq : V → V → Bool) (v : Vector V)
    (start end_ : Int) (e : V) :
    (end_ < start → SetRange eq v start end_ e = .panicked .invertedRange v) ∧
    (start + 1 < end_ → (end_ ≤ v.minPos ∨ v.maxPos ≤ start) → v.Relaxed = false →
      SetRange eq v start end_ e = .panicked .outOfRange v) ∧
    (end_ = start + 1 → (start < v.minPos ∨ v.maxPos ≤ start) → v.Relaxed = false →
      SetRange eq v start end_ e = .panicked .outOfRange v) := by
  refine ⟨?_, ?_, ?_⟩
  · intro h
    have h0 : ¬ (end_ - start = 0) := by omega
    have h1 : ¬ (end_ - start = 1) := by omega
    have h2 : end_ - start < 0 := by omega
    simp [SetRange, h0, h1, h2]
  · intro h hg hr
    have h0 : ¬ (end_ - start = 0) := by omega
    have h1 : ¬ (end_ - start = 1) := by omega
    have h2 : ¬ (end_ - start < 0) := by omega
    simp [SetRange, h0, h1, h2, hg, hr]
  · intro h hg hr
    have h0 : ¬ (end_ - start = 0) := by omega
    have h1 : end_ - start = 1 := by omega
    have hg2 : start < v.minPos ∨ v.maxPos ≤ start := hg
    simp [SetRange, h0, h1, Set, hg2, hr]

/-- Counterexample to C7 as stated: on the concrete strict vector
`[1:0 5:1 10:2 15:0 20:<nil>]`, `SetRange(7, 3, 5)` panics with
`ErrInvertedRange` and `SetRange(25, 30, 5)` panics with `ErrOutOfRange`
— neither error is returned to the caller; the vector is unchanged at
the panic. -/
theorem step_set_range_panics_cex :
    SetRange ieq vC4 7 3 (5 : Int) = .panicked .invertedRange vC4 ∧
    SetRange ieq vC4 25 30 (5 : Int) = .panicked .outOfRange vC4 :=
  ⟨by decide, by decide⟩

/-- C4 (code bug): `ApplyRange(5, 12, decrement)` on the vector
`[1:0 5:1 10:2 15:0 20:<nil>]` computes every `At` value correctly but
leaves the two adjacent steps at positions 1 and 5 both holding value 0:
the redundant equal-valued boundary at 5 produced by the mutation is NOT
merged, contrary to the claim (and to `ApplyRange`'s own documentation
comment). -/
theorem step_apply_range_unmerged :
    steps vC4 = [(1, some 0), (5, some 1), (10, some 2), (15, some 0), (20, none)] ∧
    steps vC4a
      = [(1, some 0), (5, some 0), (10, some 1), (12, some 2), (15, some 0), (20, none)] ∧
    ((At vC4a 4).toOption = some (some 0) ∧ (At vC4a 5).toOption = some (some 0)) :=
  ⟨by decide, by decide, by decide, by decide⟩

end Step

namespace Ivl

/-- An interval element, the `Interface` of the interval package
instantiated — as in the repository's examples — at integer endpoints:
`Min()`, `Max()` and the tie-breaking `ID()` are integers. -/
structure Itv where
  min : Int
  max : Int
  id : Int
deriving DecidableEq, Repr

/-- A mutable subtree extent (the `Mutable` held in `Node.Range`). -/
structure Rng where
  rmin : Int
  rmax : Int
deriving DecidableEq, Repr

/-- Source interval `Node`: element, mutable subtree extent, children and
color. -/
inductive INode where
  | nil
  | node (elem : Itv) (rng : Rng) (left right : INode) (color : Llrb.Color)
deriving DecidableEq, Repr

/-- The error value `ErrInvertedRange` of the interval package. -/
inductive IvlErr where
  | invertedRange
deriving DecidableEq, Repr

/-- The `Overlap` predicate of the repository's example `Interface`
implementations, used for queries against a stored subtree extent:
half-open interval indexing, `q.End > b.start && q.Start < b.end`. -/
def overlapR (q : Itv) (r : Rng) : Bool := q.max > r.rmin && q.min < r.rmax

/-- `q.Overlap` against a stored element's range. -/
def overlapE (q e : Itv) : Bool := q.max > e.min && q.min < e.max

/-- Source `min` on Comparables: `a` when `a.Compare(b) < 0`, else `b`. -/
def cmin (a b : Int) : Int := if a < b then a else b

/-- Source `max` on Comparables: `a` when `a.Compare(b) > 0`, else `b`. -/
def cmax (a b : Int) : Int := if a > b then a else b

namespace INode

/-- Effective color; nil is black. -/
def color : INode → Llrb.Color
  | .nil => Llrb.Black
  | .node _ _ _ _ c => c

/-- Left child. -/
def left : INode → INode
  | .nil => .nil
  | .node _ _ l _ _ => l

/-- Right child. -/
def right : INode → INode
  | .nil => .nil
  | .node _ _ _ r _ => r

/-- Nil test. -/
def isNil : INode → Bool
  | .nil => true
  | .node _ _ _ _ _ => false

/-- Subtree extent of a node (read only on non-nil nodes in the source). -/
def rng : INode → Rng
  | .nil => { rmin := 0, rmax := 0 }
  | .node _ r _ _ _ => r

/-- Source interval `rotateLeft`: before relinking, the old root's extent
max is recomputed from its element and the transferred grandchild, and
the new root's extent min is widened by the old root's extent min. -/
def rotateLeft : INode → INode
  | .node e sr l (.node re rr rl rrt rc) c =>
      let sr := if rl.isNil then { sr with rmax := e.max }
                else { sr with rmax := cmax e.max (rng rl).rmax }
      let rr := { rr with rmin := cmin re.min sr.rmin }
      .node re rr (.node e sr l rl Llrb.Red) rrt c
  | n => n

/-- Source interval `rotateRight` (mirror of `rotateLeft`). -/
def rotateRight : INode → INode
  | .node e sr (.node le lr ll lrt lc) r c =>
      let sr := if lrt.isNil then { sr with rmin := e.min }
                else { sr with rmin := cmin e.min (rng lrt).rmin }
      let lr := { lr with rmax := cmax le.max sr.rmax }
      .node le lr ll (.node e sr lrt r Llrb.Red) c
  | n => n

/-- Source interval `flipColors`. -/
def flipColors : INode → INode
  | .node e sr (.node le lr ll lrt lc) (.node re rr rl rrt rc) c =>
      .node e sr (.node le lr ll lrt (!lc)) (.node re rr rl rrt (!rc)) (!c)
  | n => n

/-- Source interval `adjustRange`: widen the extent from the left child's
extent (min and max) when a left child exists, then set the max from the
element and the right child's extent when a right child exists.  Exactly
as in the source, the second assignment starts again from
`self.Elem.Max()`, not from the max just computed. -/
def adjustRange : INode → INode
  | .node e sr l r c =>
      let sr := if ¬ l.isNil then
                  { rmin := cmin e.min (rng l).rmin, rmax := cmax e.max (rng l).rmax }
                else sr
      let sr := if ¬ r.isNil then { sr with rmax := cmax e.max (rng r).rmax } else sr
      .node e sr l r c
  | n => n

/-- Source interval `fixUp(fast)` with `Mode == BU23`. -/
def fixUp (fast : Bool) (n : INode) : INode :=
  let n := if ¬ fast then n.adjustRange else n
  let n := if n.right.color = Llrb.Red then n.rotateLeft else n
  let n := if n.left.color = Llrb.Red ∧ n.left.left.color = Llrb.Red then n.rotateRight else n
  let n := if n.left.color = Llrb.Red ∧ n.right.color = Llrb.Red then n.flipColors else n
  n

/-- Source interval `moveRedLeft` with `Mode == BU23`. -/
def moveRedLeft (n : INode) : INode :=
  let n := n.flipColors
  if n.right.left.color = Llrb.Red then
    (match n with
     | .node e sr l r c => (INode.node e sr l r.rotateRight c).rotateLeft.flipColors
     | .nil => .nil)
  else n

/-- Source interval `moveRedRight`. -/
def moveRedRight (n : INode) : INode :=
  let n := n.flipColors
  if n.left.left.color = Llrb.Red then n.rotateRight.flipColors
  else n

/-- Source interval `Node.insert(e, min, id, fast)` with `Mode == BU23`;
`min` and `id` are `e.Min()` and `e.ID()`.  On an exact `(min, id)` match
the element is replaced and, when not fast, the extent max is refreshed
(`self.Range.SetMax(e.Max())`); the nil-element branch of the source is
unrepresentable, as for the llrb tree. -/
def insert (e : Itv) (fast : Bool) : INode → INode × Int
  | .nil => (.node e { rmin := e.min, rmax := e.max } .nil .nil Llrb.Red, 1)
  | .node se sr l r c =>
    let p :=
      if e.min = se.min then
        if e.id = se.id then
          let sr := if ¬ fast then { sr with rmax := e.max } else sr
          ((INode.node e sr l r c : INode), 0)
        else if e.id < se.id then
          let q := insert e fast l
          ((INode.node se sr q.1 r c : INode), q.2)
        else
          let q := insert e fast r
          ((INode.node se sr l q.1 c : INode), q.2)
      else if e.min < se.min then
        let q := insert e fast l
        ((INode.node se sr q.1 r c : INode), q.2)
      else
        let q := insert e fast r
        ((INode.node se sr l q.1 c : INode), q.2)
    let n := p.1
    let n := if n.right.color = Llrb.Red ∧ n.left.color = Llrb.Black then n.rotateLeft else n
    let n := if n.left.color = Llrb.Red ∧ n.left.left.color = Llrb.Red then n.rotateRight else n
    let n := if n.left.color = Llrb.Red ∧ n.right.color = Llrb.Red then n.flipColors else n
    let n := if ¬ fast then n.adjustRange else n
    (n, p.2)

/-- Source interval `Node.adjustRanges`: post-order sweep recomputing
every extent via `adjustRange`. -/
def adjustRanges : INode → INode
  | .nil => .nil
  | .node e sr l r c =>
      let l := if ¬ l.isNil then adjustRanges l else l
      let r := if ¬ r.isNil then adjustRanges r else r
      (INode.node e sr l r c).adjustRange

/-- Source interval `Node.doMatch`: overlap-pruned in-order traversal
with a short-circuiting operation (state-passing model, as for the llrb
traversals). -/
def doMatchF (fn : σ → Itv → σ × Bool) (q : Itv) : INode → σ → σ × Bool
  | .nil, s => (s, false)
  | .node se _ l r _, s =>
    let q1 := if ¬ l.isNil ∧ overlapR q (rng l) then doMatchF fn q l s else (s, false)
    if q1.2 then q1 else
    let q2 := if overlapE q se then fn q1.1 se else q1
    if q2.2 then q2 else
    if ¬ r.isNil ∧ overlapR q (rng r) then doMatchF fn q r q2.1 else q2

/-- Source interval `Node.doMatchReverse`: the mirror-image traversal
(right subtree first). -/
def doMatchReverseF (fn : σ → Itv → σ × Bool) (q : Itv) : INode → σ → σ × Bool
  | .nil, s => (s, false)
  | .node se _ l r _, s =>
    let q1 := if ¬ r.isNil ∧ overlapR q (rng r) then doMatchReverseF fn q r s else (s, false)
    if q1.2 then q1 else
    let q2 := if overlapE q se then fn q1.1 se else q1
    if q2.2 then q2 else
    if ¬ l.isNil ∧ overlapR q (rng l) then doMatchReverseF fn q l q2.1 else q2

/-- In-order element list of an interval subtree. -/
def inorder : INode → List Itv
  | .nil => []
  | .node e _ l r _ => inorder l ++ e :: inorder r

/-- Repaint black. -/
def blacken : INode → INode
  | .nil => .nil
  | .node e sr l r _ => .node e sr l r Llrb.Black

/-- All stored elements with their extents, in order (for stating extent
properties). -/
def nodesInorder : INode → List (Itv × Rng)
  | .nil => []
  | .node e sr l r _ => nodesInorder l ++ (e, sr) :: nodesInorder r

end INode

/-- Source interval `Tree`. -/
structure ITree where
  Root : INode := .nil
  Count : Int := 0
deriving DecidableEq, Repr

namespace ITree

/-- Source interval `Tree.Len`. -/
def Len (t : ITree) : Int := t.Count

/-- Source interval `Tree.Insert(e, fast)`: rejects an inverted range
with `ErrInvertedRange`, otherwise inserts and repaints the root black. -/
def Insert (t : ITree) (e : Itv) (fast : Bool) : Except IvlErr ITree :=
  if e.min > e.max then .error .invertedRange
  else
    let q := t.Root.insert e fast
    .ok { Root := q.1.blacken, Count := t.Count + q.2 }

/-- Source interval `Tree.AdjustRanges`. -/
def AdjustRanges (t : ITree) : ITree :=
  if t.Root.isNil then t else { t with Root := t.Root.adjustRanges }

/-- Source interval `Tree.Get`: collects, via `doMatch`, every stored
element that overlaps `q`, provided `q` overlaps the root extent. -/
def Get (t : ITree) (q : Itv) : List Itv :=
  if ¬ t.Root.isNil ∧ overlapR q (t.Root.rng) then
    (t.Root.doMatchF (fun (s : List Itv) e => (s ++ [e], false)) q []).1
  else []

/-- Source interval `Tree.DoMatching`. -/
def DoMatching (t : ITree) (fn : σ → Itv → σ × Bool) (q : Itv) (s : σ) : σ × Bool :=
  if ¬ t.Root.isNil ∧ overlapR q (t.Root.rng) then t.Root.doMatchF fn q s
  else (s, false)

/-- Source interval `Tree.DoMatchingReverse`.  Exactly as in the source,
this dispatches to `doMatch` — the forward traversal — not to
`doMatchReverse`. -/
def DoMatchingReverse (t : ITree) (fn : σ → Itv → σ × Bool) (q : Itv) (s : σ) : σ × Bool :=
  if ¬ t.Root.isNil ∧ overlapR q (t.Root.rng) then t.Root.doMatchF fn q s
  else (s, false)

end ITree

/-- The nine intervals of the package's documented example, in insertion
order. -/
def exIvs : List Itv :=
  [⟨0, 2, 0⟩, ⟨2, 4, 1⟩, ⟨1, 6, 2⟩, ⟨3, 4, 3⟩, ⟨1, 3, 4⟩, ⟨4, 6, 5⟩, ⟨5, 8, 6⟩, ⟨6, 8, 7⟩,
    ⟨5, 9, 8⟩]

/-- Insert a list of intervals in order (none of them inverted, so the
error branch is never taken). -/
def insertAll (fast : Bool) (ivs : List Itv) : ITree :=
  ivs.foldl (fun t e => match t.Insert e fast with | .ok t2 => t2 | .error _ => t) {}

/-- The example tree, built with `fast = false`. -/
def tEx : ITree := insertAll false exIvs

/-- A three-interval tree exposing the `adjustRange` extent bug: a wide
interval first, then two short ones on its left flank. -/
def tC2 : ITree := insertAll false [⟨0, 100, 0⟩, ⟨1, 2, 1⟩, ⟨2, 3, 2⟩]

/-- Insertion sequence distinguishing the fast and slow insertion paths. -/
def ivsC5 : List Itv := [⟨0, 10, 0⟩, ⟨5, 6, 1⟩, ⟨3, 4, 2⟩]

/-- `ivsC5` inserted with `fast = false`. -/
def tC5slow : ITree := insertAll false ivsC5

/-- `ivsC5` inserted with `fast = true`, then `AdjustRanges()`. -/
def tC5fast : ITree := (insertAll true ivsC5).AdjustRanges

/-- C2 (code bug): on the tree built by inserting `[0,100)#0`, `[1,2)#1`,
`[2,3)#2` with `fast == false`, `Get([50,60))` returns nothing although
the stored element `[0,100)#0` overlaps the query: `adjustRange`
recomputes a node's extent max from the element and right child alone
whenever a right child exists, discarding the left subtree's max, so the
root's extent shrinks to `[0,3)` and the traversal is pruned away. -/
theorem ivl_get_incomplete :
    tC2.Get ⟨50, 60, 99⟩ = [] ∧
    tC2.Root.inorder.filter (fun e => overlapE ⟨50, 60, 99⟩ e) = [⟨0, 100, 0⟩] ∧
    tC2.Root.rng = ⟨0, 3⟩ :=
  ⟨by decide, by decide, by decide⟩

/-- C5 (code bug): inserting `[0,10)#0`, `[5,6)#1`, `[3,4)#2` with
`fast == true` followed by `AdjustRanges()` yields per-node extents that
differ from the `fast == false` insertion of the same sequence, and the
two trees answer `Get([7,9))` differently. -/
theorem ivl_fast_adjust_diverges :
    tC5slow.Root.nodesInorder ≠ tC5fast.Root.nodesInorder ∧
    tC5slow.Get ⟨7, 9, 99⟩ = [⟨0, 10, 0⟩] ∧
    tC5fast.Get ⟨7, 9, 99⟩ = [] :=
  ⟨by decide, by decide, by decide⟩

/-- C9 (code bug): on the example tree, `DoMatchingReverse` with query
`[3,6)` reports the overlapping intervals in ASCENDING id order
`[2, 1, 3, 5, 6, 8]` — identical to the forward `DoMatching` — because
the source dispatches `doMatch` instead of `doMatchReverse`; the unused
`doMatchReverse` traversal would have reported `[8, 6, 5, 3, 1, 2]`. -/
theorem ivl_do_matching_reverse_forward :
    (tEx.DoMatchingReverse (fun (s : List Int) e => (s ++ [e.id], false)) ⟨3, 6, 99⟩ []).1
        = [2, 1, 3, 5, 6, 8] ∧
    (tEx.DoMatching (fun (s : List Int) e => (s ++ [e.id], false)) ⟨3, 6, 99⟩ []).1
        = [2, 1, 3, 5, 6, 8] ∧
    (tEx.Root.doMatchReverseF (fun (s : List Int) e => (s ++ [e.id], false)) ⟨3, 6, 99⟩ []).1
        = [8, 6, 5, 3, 1, 2] :=
  ⟨by decide, by decide, by decide⟩

end Ivl

namespace Kd

/-- A k-d point, the source's `Point []float64` with exact integer
coordinates (the kd claims and the repository examples use integral data,
and no kd operation divides). -/
abbrev Point := List Int

/-- Source `Point.Dims`. -/
def dims (p : Point) : Nat := p.length

/-- Source `Point.Compare`: `p[d] - q[d]` (coordinates are read in range
under the uniform-dimension hypotheses of the theorems; out of range the
source would panic and the model reads 0). -/
def compareP (p q : Point) (d : Nat) : Int := p.getD d 0 - q.getD d 0

/-- Source `Point.Distance`: the squared Euclidean distance
`sum_dim (p[dim] - q[dim])^2`. -/
def distance (p q : Point) : Int := ((p.zip q).map (fun x => (x.1 - x.2) ^ 2)).sum

/-- Source kdtree `Node`: point, splitting plane, children and optional
bounding volume (`*Bounding`, a pair of corner points). -/
inductive KNode where
  | nil
  | node (point : Point) (plane : Nat) (left right : KNode)
      (bounding : Option (Point × Point))
deriving DecidableEq, Repr

namespace KNode

/-- Nil test. -/
def isNil : KNode → Bool
  | .nil => true
  | _ => false

/-- The bounding volume of a node (`n.Bounding`); `none` on nil. -/
def bound : KNode → Option (Point × Point)
  | .nil => none
  | .node _ _ _ _ b => b

/-- Clear the root's bounding volume (`t.Root.Bounding = nil`). -/
def clearBound : KNode → KNode
  | .nil => .nil
  | .node pt pl l r _ => .node pt pl l r none

/-- Source `Node.insert`: plain k-d descent; the new leaf carries no
bounding volume. -/
def insert (c : Point) : KNode → Nat → KNode
  | .nil, d => .node c d .nil .nil none
  | .node pt pl l r b, _ =>
    let d := (pl + 1) % dims c
    if compareP c pt pl ≤ 0 then .node pt pl (insert c l d) r b
    else .node pt pl l (insert c r d) b

/-- Source `Node.insertBounded`: as `insert`, but every node on the path
has its bounding volume extended by the inserted point's `Extend` method
(passed in as `ext`, since it belongs to the inserted value's dynamic
type), and a new leaf gets the degenerate box at the point. -/
def insertBounded (c : Point) (ext : Option (Point × Point) → Option (Point × Point)) :
    KNode → Nat → Bool → KNode
  | .nil, d, bounding => .node c d .nil .nil (if bounding then some (c, c) else none)
  | .node pt pl l r b, _, bounding =>
    let b := if bounding then ext b else b
    let d := (pl + 1) % dims c
    if compareP c pt pl ≤ 0 then .node pt pl (insertBounded c ext l d bounding) r b
    else .node pt pl l (insertBounded c ext r d bounding) b

/-- Source `Node.search` (the bounded-tree generation cited by the spec,
with the `c <= 0` / `else` branch pair): branch and bound with the
running dimension `d`, pruning the far child when `c*c > dist`.  `⊤`
models `math.Inf(1)`. -/
def search (q : Point) : KNode → Nat → WithTop Int → Option Point × WithTop Int
  | .nil, _, _ => (none, ⊤)
  | .node pt _ l r _, d, dist0 =>
    let c := compareP q pt d
    let dist := min dist0 ((distance q pt : Int) : WithTop Int)
    let d' := (d + 1) % dims q
    if c ≤ 0 then
      let ql := search q l d' dist
      let bn := if ql.2 < dist then ql.1 else some pt
      let dist1 := if ql.2 < dist then ql.2 else dist
      if ((c * c : Int) : WithTop Int) ≤ dist1 then
        let qr := search q r d' dist1
        if qr.2 < dist1 then (qr.1, qr.2) else (bn, dist1)
      else (bn, dist1)
    else
      let qr := search q r d' dist
      let bn := if qr.2 < dist then qr.1 else some pt
      let dist1 := if qr.2 < dist then qr.2 else dist
      if ((c * c : Int) : WithTop Int) ≤ dist1 then
        let ql := search q l d' dist1
        if ql.2 < dist1 then (ql.1, ql.2) else (bn, dist1)
      else (bn, dist1)

/-- The points stored in a subtree, in _no_ particular order. -/
def pts : KNode → List Point
  | .nil => []
  | .node pt _ l r _ => pt :: (pts l ++ pts r)

end KNode

/-- A pivoting procedure, standing for the `Interface.Pivot` method used
by `build` (`Points.Pivot` runs `Partition` over a median of random
samples, so its exact outcome is an arbitrary choice): given the point
list and the plane it returns a reordered list together with the pivot
index.  The bundled facts are those any `Partition` result satisfies and
are what `build` needs to terminate; the ordering facts a correct
`Partition` establishes enter the theorems as hypotheses. -/
def PivotFn : Type :=
  (ps : List Point) → (plane : Nat) →
    { r : List Point × Nat // r.1.length = ps.length ∧ (ps ≠ [] → r.2 < r.1.length) }

/-- Source `build`: pivot, take the pivot point as the node, and build
the two sides from the two halves, cycling the splitting plane. -/
def build (pv : PivotFn) : List Point → Nat → KNode
  | [], _ => .nil
  | p :: ps, plane =>
    let r := pv (p :: ps) plane
    let ps' := r.val.1
    let piv := r.val.2
    let d := ps'.getD piv []
    let np := (plane + 1) % dims d
    .node d plane (build pv (ps'.take piv) np) (build pv (ps'.drop (piv + 1)) np) none
termination_by ps => ps.length
decreasing_by
  · have h1 := (pv (p :: ps) plane).property.1
    have h2 := (pv (p :: ps) plane).property.2 (by simp)
    refine lt_of_le_of_lt (List.length_take_le _ _) ?_
    omega
  · have h1 := (pv (p :: ps) plane).property.1
    have h2 := (pv (p :: ps) plane).property.2 (by simp)
    simp only [List.length_drop]
    simp only [List.length_cons] at h1 ⊢
    omega

/-- Source kdtree `Tree`. -/
structure KTree where
  Root : KNode := .nil
  Count : Int := 0
deriving DecidableEq, Repr

/-- Source `New` on a plain (non-`Bounder`) collection: bulk build from
the root with plane 0. -/
def New (pv : PivotFn) (ps : List Point) : KTree :=
  { Root := build pv ps 0, Count := ps.length }

/-- Source `Tree.Nearest`: run `search` from the root with plane 0 and
infinite starting distance. -/
def Nearest (t : KTree) (q : Point) : Option Point × WithTop Int :=
  if t.Root.isNil then (none, ⊤)
  else
    let p := t.Root.search q 0 ⊤
    match p.1 with
    | none => (none, ⊤)
    | some n => (some n, p.2)

/-- Source `Tree.Insert`: if the tree is non-empty the effective
`bounding` flag is whether the root carries a bounding volume; an
`Extender` point under bounding goes through `insertBounded`; a
non-`Extender` point inserted into a non-empty tree clears the root's
bounding volume; otherwise a plain insert.  `isExt` models the
`c.(Extender)` dynamic type test and `ext` the point's `Extend` method. -/
def KTree.Insert (t : KTree) (c : Point) (isExt : Bool)
    (ext : Option (Point × Point) → Option (Point × Point)) (bounding : Bool) : KTree :=
  let cnt := t.Count + 1
  let bounding := if ¬ t.Root.isNil then ¬ t.Root.bound.isNone else bounding
  if isExt ∧ bounding then { Root := t.Root.insertBounded c ext 0 bounding, Count := cnt }
  else
    let root := if ¬ isExt ∧ ¬ t.Root.isNil then t.Root.clearBound else t.Root
    { Root := root.insert c 0, Count := cnt }

/-- Source `Bounding.Contains`: false iff some coordinate of `c` lies
outside the box. -/
def boundContains (b : Point × Point) (c : Point) : Bool :=
  (List.range (dims c)).all fun d => ¬ (compareP c b.1 d < 0 ∨ compareP c b.2 d > 0)

/-- Source `Tree.Contains`: `true` whenever the root carries no bounding
volume (on an empty tree the source would dereference a nil root; the
claims only use non-empty trees). -/
def Contains (t : KTree) (c : Point) : Bool :=
  match t.Root.bound with
  | none => true
  | some b => boundContains b c

/-- One `Tree.Insert` call with all of its parameters (the point, whether
its dynamic type implements `Extender`, its `Extend` method and the
`bounding` argument). -/
structure InsOp where
  c : Point
  isExt : Bool
  ext : Option (Point × Point) → Option (Point × Point)
  bounding : Bool

/-- A sequence of subsequent `Insert` calls. -/
def applyInserts (t : KTree) (ops : List InsOp) : KTree :=
  ops.foldl (fun t o => t.Insert o.c o.isExt o.ext o.bounding) t

/-- A plain `insert` never puts a bounding volume at the root: the root's
volume is carried through and a fresh leaf has none. -/
theorem bound_insert_none (n : KNode) (c : Point) (d : Nat) (h : n.bound = none) :
    (n.insert c d).bound = none := by
  cases n with
  | nil => simp [KNode.insert, KNode.bound]
  | node pt pl l r b =>
    simp only [KNode.bound] at h
    subst h
    rw [KNode.insert]
    split <;> simp [KNode.bound]

/-- `insert` always yields a node. -/
theorem isNil_insert (n : KNode) (c : Point) (d : Nat) : (n.insert c d).isNil = false := by
  cases n with
  | nil => simp [KNode.insert, KNode.isNil]
  | node pt pl l r b =>
    rw [KNode.insert]
    split <;> simp [KNode.isNil]

/-- `clearBound` leaves no bounding volume at the root. -/
theorem clearBound_bound (u : KNode) : u.clearBound.bound = none := by
  cases u <;> simp [KNode.clearBound, KNode.bound]

/-- Once the root of a non-empty tree carries no bounding volume, any
single further `Insert` keeps it that way (and the tree non-empty). -/
theorem insert_keeps_unbounded (t : KTree) (o : InsOp)
    (hn : t.Root.isNil = false) (hb : t.Root.bound = none) :
    (t.Insert o.c o.isExt o.ext o.bounding).Root.bound = none ∧
      (t.Insert o.c o.isExt o.ext o.bounding).Root.isNil = false := by
  rw [KTree.Insert]
  simp [hn, hb]
  refine ⟨bound_insert_none _ _ _ ?_, isNil_insert _ _ _⟩
  split
  · exact clearBound_bound _
  · exact hb

/-- An unbounded non-empty root stays unbounded under any sequence of
further inserts. -/
theorem applyInserts_keeps_unbounded (ops : List InsOp) :
    ∀ u : KTree, u.Root.isNil = false → u.Root.bound = none →
      (applyInserts u ops).Root.bound = none ∧ (applyInserts u ops).Root.isNil = false := by
  induction ops with
  | nil => exact fun u hn hb => ⟨hb, hn⟩
  | cons o rest ih =>
    intro u hn hb
    have h := insert_keeps_unbounded u o hn hb
    have he : applyInserts u (o :: rest)
        = applyInserts (u.Insert o.c o.isExt o.ext o.bounding) rest := rfl
    rw [he]
    exact ih _ h.2 h.1

/-- C10: inserting a point whose dynamic type does not implement
`Extender` into a non-empty k-d tree that carries bounding volumes sets
the root's bounding volume to nil, permanently: after any sequence of
further `Insert` calls — bounded or not — the root still carries no
bounding volume, so every subsequent `Contains` query returns `true`
regardless of the queried point's coordinates. -/
theorem kd_insert_unbounds (t : KTree) (c : Point)
    (ext : Option (Point × Point) → Option (Point × Point)) (bounding : Bool)
    (hn : t.Root.isNil = false) (hbound : t.Root.bound.isSome = true) :
    ((t.Insert c false ext bounding).Root.bound = none) ∧
    (∀ ops : List InsOp,
      (applyInserts (t.Insert c false ext bounding) ops).Root.bound = none) ∧
    (∀ (ops : List InsOp) (q : Point),
      Contains (applyInserts (t.Insert c false ext bounding) ops) q = true) := by
  have h1 : (t.Insert c false ext bounding).Root.bound = none := by
    rw [KTree.Insert]
    simp [hn]
    exact bound_insert_none _ _ _ (clearBound_bound _)
  have h2 : (t.Insert c false ext bounding).Root.isNil = false := by
    rw [KTree.Insert]
    simp [hn]
    exact isNil_insert _ _ _
  have hall := fun ops => applyInserts_keeps_unbounded ops (t.Insert c false ext bounding) h2 h1
  exact ⟨h1, fun ops => (hall ops).1, fun ops q => by
    rw [Contains, (hall ops).1]⟩

/-- The `Extend` method of the example `Point` type: widen a bounding box
to cover the point (create the degenerate box when there is none). -/
def extendPt (c : Point) : Option (Point × Point) → Option (Point × Point)
  | none => some (c, c)
  | some (lo, hi) =>
      some ((lo.zip c).map (fun x => min x.1 x.2), (hi.zip c).map (fun x => max x.1 x.2))

/-- A concrete two-point bounded k-d tree: `(3,1)` and `(1,2)` inserted
as `Extender`s with `bounding = true`. -/
def tKd : KTree :=
  (({} : KTree).Insert [3, 1] true (extendPt [3, 1]) true).Insert
    [1, 2] true (extendPt [1, 2]) true

/-- Witness for C10 at a concrete input: inserting the non-`Extender`
point `(5,5)` into the bounded tree `tKd` clears the root bounding
volume for good. -/
theorem kd_insert_unbounds_witness :
    tKd.Root.isNil = false ∧ tKd.Root.bound.isSome = true ∧
    (((tKd.Insert [5, 5] false (extendPt [5, 5]) true).Root.bound = none) ∧
     (∀ ops : List InsOp,
       (applyInserts (tKd.Insert [5, 5] false (extendPt [5, 5]) true) ops).Root.bound = none) ∧
     (∀ (ops : List InsOp) (q : Point),
       Contains (applyInserts (tKd.Insert [5, 5] false (extendPt [5, 5]) true) ops) q
         = true)) :=
  ⟨by decide, by decide,
    kd_insert_unbounds tKd [5, 5] (extendPt [5, 5]) true (by decide) (by decide)⟩

end Kd

namespace Llrb

/-- The three-way comparator on integers used throughout the repository's
tests and examples (`compRune`, interval `Int`): `a.Compare(b) = a - b`. -/
def icmp (a b : Int) : Int := a - b

/-- The query side of the comparator: `q.Compare(x) = q - x`. -/
def icq (q : Int) : Int → Int := fun x => q - x

/-- The binary-search-tree invariant over integer elements with the
subtraction comparator: every left element is smaller, every right
element larger, recursively. -/
def IsBST : Node Int → Prop
  | .nil => True
  | .node e l r _ =>
      (∀ x ∈ l.inorder, x < e) ∧ (∀ x ∈ r.inorder, e < x) ∧ IsBST l ∧ IsBST r

/-- Boolean form of `IsBST`, for concrete evaluation. -/
def isBSTb : Node Int → Bool
  | .nil => true
  | .node e l r _ =>
      l.inorder.all (fun x => x < e) && r.inorder.all (fun x => e < x) &&
        isBSTb l && isBSTb r

theorem isBST_iff (n : Node Int) : IsBST n ↔ isBSTb n = true := by
  induction n with
  | nil => simp [IsBST, isBSTb]
  | node e l r c ihl ihr =>
    simp [IsBST, isBSTb, ihl, ihr, List.all_eq_true, and_assoc]

instance : DecidablePred IsBST := fun n => decidable_of_iff' _ (isBST_iff n)

@[simp] theorem inorder_nil : (Node.nil : Node Int).inorder = [] := rfl

@[simp] theorem inorder_node (e : Int) (l r : Node Int) (c : Color) :
    (Node.node e l r c).inorder = l.inorder ++ e :: r.inorder := rfl

theorem isNil_inorder {α : Type} (n : Node α) (h : n.isNil = true) : n.inorder = [] := by
  cases n with
  | nil => rfl
  | node e l r c => simp [Node.isNil] at h

/-- The list-collecting instance of the old generation's `doRange`: on a
BST, with any bounds it visits exactly the stored elements of the CLOSED
interval `[from, to]`, in ascending order.  (The visit condition of the
source is `fc <= 0 && tc >= 0`, i.e. `from ≤ x ∧ x ≤ to`.) -/
theorem Old.doRange_collect (b e : Int) (n : Node Int) (hb : IsBST n) (s : List Int) :
    Old.doRange (fun s x => s ++ [x]) (icq b) (icq e) n s
      = s ++ (n.inorder.filter fun x => decide (b ≤ x ∧ x ≤ e)) := by
  induction n generalizing s with
  | nil => simp [Old.doRange]
  | node se l r c ihl ihr =>
    obtain ⟨hl, hr, hbl, hbr⟩ := hb
    have hle : ¬ b ≤ se → (l.inorder.filter fun x => decide (b ≤ x ∧ x ≤ e)) = [] := by
      intro h
      rw [List.filter_eq_nil_iff]
      intro a ha
      have := hl a ha
      simp only [decide_eq_true_eq]
      omega
    have hre : ¬ se ≤ e → (r.inorder.filter fun x => decide (b ≤ x ∧ x ≤ e)) = [] := by
      intro h
      rw [List.filter_eq_nil_iff]
      intro a ha
      have := hr a ha
      simp only [decide_eq_true_eq]
      omega
    have el : ∀ s' : List Int,
        (if icq b se ≤ 0 ∧ ¬l.isNil = true then
            Old.doRange (fun s x => s ++ [x]) (icq b) (icq e) l s' else s')
          = s' ++ (l.inorder.filter fun x => decide (b ≤ x ∧ x ≤ e)) := by
      intro s'
      by_cases h1 : b ≤ se
      · by_cases hn : l.isNil
        · simp [hn, isNil_inorder l hn]
        · have : icq b se ≤ 0 ∧ ¬l.isNil = true := by
            constructor
            · show b - se ≤ 0; omega
            · simp [hn]
          rw [if_pos this, ihl hbl]
      · have : ¬ (icq b se ≤ 0 ∧ ¬l.isNil = true) := by
          intro hcon
          have : b - se ≤ 0 := hcon.1
          omega
        rw [if_neg this, hle h1, List.append_nil]
    have er : ∀ s' : List Int,
        (if icq e se ≥ 0 ∧ ¬r.isNil = true then
            Old.doRange (fun s x => s ++ [x]) (icq b) (icq e) r s' else s')
          = s' ++ (r.inorder.filter fun x => decide (b ≤ x ∧ x ≤ e)) := by
      intro s'
      by_cases h1 : se ≤ e
      · by_cases hn : r.isNil
        · simp [hn, isNil_inorder r hn]
        · have : icq e se ≥ 0 ∧ ¬r.isNil = true := by
            constructor
            · show e - se ≥ 0; omega
            · simp [hn]
          rw [if_pos this, ihr hbr]
      · have : ¬ (icq e se ≥ 0 ∧ ¬r.isNil = true) := by
          intro hcon
          have : e - se ≥ 0 := hcon.1
          omega
        rw [if_neg this, hre h1, List.append_nil]
    rw [Old.doRange]
    rw [el s, er]
    simp only [inorder_node, List.filter_append, List.filter_cons]
    by_cases hm : b ≤ se ∧ se ≤ e
    · have h1 : icq b se ≤ 0 ∧ icq e se ≥ 0 := by
        constructor
        · show b - se ≤ 0; omega
        · show e - se ≥ 0; omega
      have h2 : decide (b ≤ se ∧ se ≤ e) = true := by simp [hm.1, hm.2]
      rw [if_pos h1, h2]
      simp
    · have h1 : ¬ (icq b se ≤ 0 ∧ icq e se ≥ 0) := by
        intro hcon
        have ha : b - se ≤ 0 := hcon.1
        have hb2 : e - se ≥ 0 := hcon.2
        exact hm ⟨by omega, by omega⟩
      have h2 : decide (b ≤ se ∧ se ≤ e) = false := by
        simp only [decide_eq_false_iff_not]
        exact hm
      rw [if_neg h1, h2]
      simp

/-- The old generation's `doRangeReverse` never performs its operation:
its visit condition is `from ≤ x ∧ x ≤ to`, which is unsatisfiable on the
inverted ranges (`from > to`) this traversal is dispatched on. -/
theorem Old.doRangeReverse_empty (b e : Int) (hbe : e < b) (n : Node Int) (s : List Int) :
    Old.doRangeReverse (fun s x => s ++ [x]) (icq b) (icq e) n s = s := by
  induction n generalizing s with
  | nil => simp [Old.doRangeReverse]
  | node se l r c ihl ihr =>
    rw [Old.doRangeReverse]
    have hmid : ¬ (icq b se ≤ 0 ∧ icq e se ≥ 0) := by
      intro hcon
      have h1 : b - se ≤ 0 := hcon.1
      have h2 : e - se ≥ 0 := hcon.2
      omega
    rw [if_neg hmid]
    by_cases h1 : icq e se ≥ 0 ∧ ¬r.isNil = true
    · rw [if_pos h1, ihr]
      by_cases h2 : icq b se ≤ 0 ∧ ¬l.isNil = true
      · rw [if_pos h2, ihl]
      · rw [if_neg h2]
    · rw [if_neg h1]
      by_cases h2 : icq b se ≤ 0 ∧ ¬l.isNil = true
      · rw [if_pos h2, ihl]
      · rw [if_neg h2]

/-- The list-collecting instance of the old generation's `doMatch`: on a
BST it visits exactly the stored elements comparing equal to the query,
in ascending order. -/
theorem Old.doMatch_collect (q : Int) (n : Node Int) (hb : IsBST n) (s : List Int) :
    Old.doMatch (fun s x => s ++ [x]) (icq q) n s
      = s ++ (n.inorder.filter fun x => decide (x = q)) := by
  induction n generalizing s with
  | nil => simp [Old.doMatch]
  | node se l r c ihl ihr =>
    obtain ⟨hl, hr, hbl, hbr⟩ := hb
    have hle : ¬ q ≤ se → (l.inorder.filter fun x => decide (x = q)) = [] := by
      intro h
      rw [List.filter_eq_nil_iff]
      intro a ha
      have := hl a ha
      simp only [decide_eq_true_eq]
      omega
    have hre : ¬ se ≤ q → (r.inorder.filter fun x => decide (x = q)) = [] := by
      intro h
      rw [List.filter_eq_nil_iff]
      intro a ha
      have := hr a ha
      simp only [decide_eq_true_eq]
      omega
    have el : ∀ s' : List Int,
        (if icq q se ≤ 0 ∧ ¬l.isNil = true then
            Old.doMatch (fun s x => s ++ [x]) (icq q) l s' else s')
          = s' ++ (l.inorder.filter fun x => decide (x = q)) := by
      intro s'
      by_cases h1 : q ≤ se
      · by_cases hn : l.isNil
        · simp [hn, isNil_inorder l hn]
        · have : icq q se ≤ 0 ∧ ¬l.isNil = true := by
            refine ⟨?_, by simp [hn]⟩
            show q - se ≤ 0; omega
          rw [if_pos this, ihl hbl]
      · have : ¬ (icq q se ≤ 0 ∧ ¬l.isNil = true) := by
          intro hcon
          have : q - se ≤ 0 := hcon.1
          omega
        rw [if_neg this, hle h1, List.append_nil]
    have er : ∀ s' : List Int,
        (if icq q se ≥ 0 ∧ ¬r.isNil = true then
            Old.doMatch (fun s x => s ++ [x]) (icq q) r s' else s')
          = s' ++ (r.inorder.filter fun x => decide (x = q)) := by
      intro s'
      by_cases h1 : se ≤ q
      · by_cases hn : r.isNil
        · simp [hn, isNil_inorder r hn]
        · have : icq q se ≥ 0 ∧ ¬r.isNil = true := by
            refine ⟨?_, by simp [hn]⟩
            show q - se ≥ 0; omega
          rw [if_pos this, ihr hbr]
      · have : ¬ (icq q se ≥ 0 ∧ ¬r.isNil = true) := by
          intro hcon
          have : q - se ≥ 0 := hcon.1
          omega
        rw [if_neg this, hre h1, List.append_nil]
    rw [Old.doMatch]
    rw [el s, er]
    simp only [inorder_node, List.filter_append, List.filter_cons]
    by_cases hm : se = q
    · have h1 : icq q se = 0 := by show q - se = 0; omega
      have h2 : decide (se = q) = true := by simp [hm]
      rw [if_pos h1, h2]
      simp
    · have h1 : icq q se ≠ 0 := by
        show q - se ≠ 0
        omega
      have h2 : decide (se = q) = false := by simp [hm]
      rw [if_neg h1, h2]
      simp

/-- The list-collecting instance of the latest generation's `doRange`
(the strict entry point's traversal): on a BST it visits exactly the
stored elements of the HALF-OPEN interval `[from, to)`, ascending, and
never reports `done`. -/
theorem doRangeF_collect (b e : Int) (n : Node Int) (hb : IsBST n) (s : List Int) :
    Node.doRangeF (fun (s : List Int) x => (s ++ [x], false)) (icq b) (icq e) n s
      = (s ++ (n.inorder.filter fun x => decide (b ≤ x ∧ x < e)), false) := by
  induction n generalizing s with
  | nil => simp [Node.doRangeF]
  | node se l r c ihl ihr =>
    obtain ⟨hl, hr, hbl, hbr⟩ := hb
    have hle : ¬ b ≤ se → (l.inorder.filter fun x => decide (b ≤ x ∧ x < e)) = [] := by
      intro h
      rw [List.filter_eq_nil_iff]
      intro a ha
      have := hl a ha
      simp only [decide_eq_true_eq]
      omega
    have hre : ¬ se < e → (r.inorder.filter fun x => decide (b ≤ x ∧ x < e)) = [] := by
      intro h
      rw [List.filter_eq_nil_iff]
      intro a ha
      have := hr a ha
      simp only [decide_eq_true_eq]
      omega
    have el : (if icq b se ≤ 0 ∧ ¬l.isNil = true then
          Node.doRangeF (fun (s : List Int) x => (s ++ [x], false)) (icq b) (icq e) l s
        else (s, false))
          = (s ++ (l.inorder.filter fun x => decide (b ≤ x ∧ x < e)), false) := by
      by_cases h1 : b ≤ se
      · by_cases hn : l.isNil
        · simp [hn, isNil_inorder l hn]
        · have : icq b se ≤ 0 ∧ ¬l.isNil = true := by
            refine ⟨?_, by simp [hn]⟩
            show b - se ≤ 0; omega
          rw [if_pos this, ihl hbl]
      · have : ¬ (icq b se ≤ 0 ∧ ¬l.isNil = true) := by
          intro hcon
          have : b - se ≤ 0 := hcon.1
          omega
        rw [if_neg this, hle h1, List.append_nil]
    rw [Node.doRangeF]
    rw [el]
    simp only [Bool.false_eq_true, if_false]
    by_cases hm : b ≤ se ∧ se < e
    · have h1 : icq b se ≤ 0 ∧ icq e se > 0 := by
        refine ⟨?_, ?_⟩
        · show b - se ≤ 0; omega
        · show e - se > 0; omega
      rw [if_pos h1]
      simp only [Bool.false_eq_true, if_false]
      have h2 : decide (b ≤ se ∧ se < e) = true := by simp [hm.1, hm.2]
      by_cases hn : r.isNil
      · have : ¬ (icq e se > 0 ∧ ¬r.isNil = true) := by
          intro hcon
          simp [hn] at hcon
        rw [if_neg this]
        simp [isNil_inorder r hn, h2, hm.1, hm.2]
      · have : icq e se > 0 ∧ ¬r.isNil = true := by
          refine ⟨h1.2, by simp [hn]⟩
        rw [if_pos this, ihr hbr]
        simp [h2, hm.1, hm.2]
    · have h1 : ¬ (icq b se ≤ 0 ∧ icq e se > 0) := by
        intro hcon
        have ha : b - se ≤ 0 := hcon.1
        have hb2 : e - se > 0 := hcon.2
        exact hm ⟨by omega, by omega⟩
      rw [if_neg h1]
      simp only [Bool.false_eq_true, if_false]
      have h2 : decide (b ≤ se ∧ se < e) = false := by
        simp only [decide_eq_false_iff_not]
        exact hm
      by_cases h3 : se < e
      · have h4 : ¬ b ≤ se := fun hcon => hm ⟨hcon, h3⟩
        by_cases hn : r.isNil
        · have : ¬ (icq e se > 0 ∧ ¬r.isNil = true) := by
            intro hcon
            simp [hn] at hcon
          rw [if_neg this]
          simp [icq, isNil_inorder r hn, h2, hle h4] <;> (have h5 : icq b se = b - se := rfl; have h6 : icq e se = e - se := rfl; omega)
        · have : icq e se > 0 ∧ ¬r.isNil = true := by
            refine ⟨?_, by simp [hn]⟩
            show e - se > 0; omega
          rw [if_pos this, ihr hbr]
          simp [icq, h2, hle h4]
          rw [List.filter_cons]
          simp [h4]
      · have : ¬ (icq e se > 0 ∧ ¬r.isNil = true) := by
          intro hcon
          have : e - se > 0 := hcon.1
          omega
        rw [if_neg this]
        simp [icq, h2, hre h3]
        refine ⟨fun _ => by omega, fun a ha _ => ?_⟩
        have := hr a ha
        omega

/-- Characterisation of `Node.floor` on a BST: when it returns nil no
stored element is `≤ q`; when it returns a node, that node's element is
the greatest stored element `≤ q`. -/
theorem floorN_spec (q : Int) (n : Node Int) (hb : IsBST n) :
    ((n.floorN (icq q)).isNil = true → ∀ x ∈ n.inorder, q < x) ∧
    (∀ f, (n.floorN (icq q)).elem? = some f →
      f ∈ n.inorder ∧ f ≤ q ∧ ∀ x ∈ n.inorder, x ≤ q → x ≤ f) := by
  induction n with
  | nil => simp [Node.floorN, Node.elem?]
  | node se l r c ihl ihr =>
    obtain ⟨hl, hr, hbl, hbr⟩ := hb
    have ihl := ihl hbl
    have ihr := ihr hbr
    by_cases h0 : icq q se = 0
    · have hqe : se = q := by simp [icq, sub_eq_zero] at h0; omega
      subst hqe
      rw [Node.floorN, if_pos h0]
      refine ⟨by simp [Node.isNil], fun f hf => ?_⟩
      simp only [Node.elem?, Option.some.injEq] at hf
      subst hf
      refine ⟨by simp, le_refl _, fun x hx hxq => ?_⟩
      simp only [inorder_node, List.mem_append, List.mem_cons] at hx
      rcases hx with hx | hx | hx
      · exact le_of_lt (hl x hx)
      · omega
      · exact absurd hxq (not_le.mpr (hr x hx))
    · by_cases h1 : icq q se < 0
      · have hqs : q < se := by simp [icq] at h1; omega
        rw [Node.floorN, if_neg h0, if_pos h1]
        refine ⟨fun hnil x hx => ?_, fun f hf => ?_⟩
        · simp only [inorder_node, List.mem_append, List.mem_cons] at hx
          rcases hx with hx | hx | hx
          · exact ihl.1 hnil x hx
          · omega
          · exact lt_trans hqs (hr x hx)
        · obtain ⟨hmem, hle, hmax⟩ := ihl.2 f hf
          refine ⟨by simp [hmem], hle, fun x hx hxq => ?_⟩
          simp only [inorder_node, List.mem_append, List.mem_cons] at hx
          rcases hx with hx | hx | hx
          · exact hmax x hx hxq
          · omega
          · exact absurd hxq (not_le.mpr (lt_of_lt_of_le hqs (le_of_lt (hr x hx))))
      · have hqs : se < q := by simp [icq] at h0 h1; omega
        rw [Node.floorN, if_neg h0, if_neg h1]
        cases hfr : r.floorN (icq q) with
        | nil =>
          refine ⟨by simp [Node.isNil], fun f hf => ?_⟩
          simp only [Node.elem?, Option.some.injEq] at hf
          subst hf
          refine ⟨by simp, le_of_lt hqs, fun x hx hxq => ?_⟩
          simp only [inorder_node, List.mem_append, List.mem_cons] at hx
          rcases hx with hx | hx | hx
          · exact le_of_lt (hl x hx)
          · omega
          · exact absurd hxq (not_le.mpr (ihr.1 (by rw [hfr]; rfl) x hx))
        | node fe fl fr fc =>
          refine ⟨by simp [Node.isNil], fun f hf => ?_⟩
          have hfr2 : (r.floorN (icq q)).elem? = some f := by
            rw [hfr]; simpa [Node.elem?] using hf
          obtain ⟨hmem, hle, hmax⟩ := ihr.2 f hfr2
          have hsef : se < f := hr f hmem
          refine ⟨by simp [hmem], hle, fun x hx hxq => ?_⟩
          simp only [inorder_node, List.mem_append, List.mem_cons] at hx
          rcases hx with hx | hx | hx
          · exact le_of_lt (lt_trans (hl x hx) hsef)
          · omega
          · exact hmax x hx hxq

/-- Characterisation of `Node.ceil` on a BST: when it returns nil no
stored element is `≥ q`; when it returns a node, that node's element is
the smallest stored element `≥ q`. -/
theorem ceilN_spec (q : Int) (n : Node Int) (hb : IsBST n) :
    ((n.ceilN (icq q)).isNil = true → ∀ x ∈ n.inorder, x < q) ∧
    (∀ f, (n.ceilN (icq q)).elem? = some f →
      f ∈ n.inorder ∧ q ≤ f ∧ ∀ x ∈ n.inorder, q ≤ x → f ≤ x) := by
  induction n with
  | nil => simp [Node.ceilN, Node.elem?]
  | node se l r c ihl ihr =>
    obtain ⟨hl, hr, hbl, hbr⟩ := hb
    have ihl := ihl hbl
    have ihr := ihr hbr
    by_cases h0 : icq q se = 0
    · have hqe : se = q := by simp [icq, sub_eq_zero] at h0; omega
      subst hqe
      rw [Node.ceilN, if_pos h0]
      refine ⟨by simp [Node.isNil], fun f hf => ?_⟩
      simp only [Node.elem?, Option.some.injEq] at hf
      subst hf
      refine ⟨by simp, le_refl _, fun x hx hxq => ?_⟩
      simp only [inorder_node, List.mem_append, List.mem_cons] at hx
      rcases hx with hx | hx | hx
      · exact absurd hxq (not_le.mpr (hl x hx))
      · omega
      · exact le_of_lt (hr x hx)
    · by_cases h1 : icq q se > 0
      · have hqs : se < q := by simp [icq] at h1; omega
        rw [Node.ceilN, if_neg h0, if_pos h1]
        refine ⟨fun hnil x hx => ?_, fun f hf => ?_⟩
        · simp only [inorder_node, List.mem_append, List.mem_cons] at hx
          rcases hx with hx | hx | hx
          · exact lt_trans (hl x hx) hqs
          · omega
          · exact ihr.1 hnil x hx
        · obtain ⟨hmem, hle, hmin⟩ := ihr.2 f hf
          refine ⟨by simp [hmem], hle, fun x hx hxq => ?_⟩
          simp only [inorder_node, List.mem_append, List.mem_cons] at hx
          rcases hx with hx | hx | hx
          · exact absurd hxq (not_le.mpr (lt_trans (hl x hx) hqs))
          · omega
          · exact hmin x hx hxq
      · have hqs : q < se := by simp [icq] at h0 h1; omega
        rw [Node.ceilN, if_neg h0, if_neg h1]
        cases hfl : l.ceilN (icq q) with
        | nil =>
          refine ⟨by simp [Node.isNil], fun f hf => ?_⟩
          simp only [Node.elem?, Option.some.injEq] at hf
          subst hf
          refine ⟨by simp, le_of_lt hqs, fun x hx hxq => ?_⟩
          simp only [inorder_node, List.mem_append, List.mem_cons] at hx
          rcases hx with hx | hx | hx
          · exact absurd hxq (not_le.mpr (ihl.1 (by rw [hfl]; rfl) x hx))
          · omega
          · exact le_of_lt (hr x hx)
        | node fe fl2 fr2 fc =>
          refine ⟨by simp [Node.isNil], fun f hf => ?_⟩
          have hfl2 : (l.ceilN (icq q)).elem? = some f := by
            rw [hfl]; simpa [Node.elem?] using hf
          obtain ⟨hmem, hle, hmin⟩ := ihl.2 f hfl2
          have hfse : f < se := hl f hmem
          refine ⟨by simp [hmem], hle, fun x hx hxq => ?_⟩
          simp only [inorder_node, List.mem_append, List.mem_cons] at hx
          rcases hx with hx | hx | hx
          · exact hmin x hx hxq
          · omega
          · exact le_of_lt (lt_trans hfse (hr x hx))

/-- A small concrete LLRB tree used to instantiate universally
quantified theorems: the integers 3, 1, 5 inserted in that order. -/
def t8 : Tree Int := ((({} : Tree Int).Insert (icmp 3) 3).Insert (icmp 1) 1).Insert (icmp 5) 5

/-- C8: on every LLRB tree whose root satisfies the BST invariant, for
every query `q` on which both are defined, `Floor q` is the greatest
stored element `≤ q` and `Ceil q` is the smallest stored element `≥ q`
(hence `floor(q) ≤ q ≤ ceil(q)`), and `Floor q = q` iff `Ceil q = q` iff
an element comparing equal to `q` is stored in the tree. -/
theorem llrb_floor_ceil_duality (t : Tree Int) (hb : IsBST t.Root) (q f c : Int)
    (hf : t.Floor (icq q) = some f) (hc : t.Ceil (icq q) = some c) :
    f ∈ t.Root.inorder ∧ c ∈ t.Root.inorder ∧ f ≤ q ∧ q ≤ c ∧
    (∀ x ∈ t.Root.inorder, x ≤ q → x ≤ f) ∧
    (∀ x ∈ t.Root.inorder, q ≤ x → c ≤ x) ∧
    ((f = q) ↔ q ∈ t.Root.inorder) ∧ ((c = q) ↔ q ∈ t.Root.inorder) := by
  by_cases hn : t.Root.isNil
  · simp [Tree.Floor, hn] at hf
  · rw [Tree.Floor, if_neg hn] at hf
    rw [Tree.Ceil, if_neg hn] at hc
    obtain ⟨hfm, hfle, hfmax⟩ := (floorN_spec q t.Root hb).2 f hf
    obtain ⟨hcm, hcge, hcmin⟩ := (ceilN_spec q t.Root hb).2 c hc
    refine ⟨hfm, hcm, hfle, hcge, hfmax, hcmin, ?_, ?_⟩
    · constructor
      · intro h; exact h ▸ hfm
      · intro hq
        have := hfmax q hq (le_refl _)
        omega
    · constructor
      · intro h; exact h ▸ hcm
      · intro hq
        have := hcmin q hq (le_refl _)
        omega

/-- A concrete LLRB tree holding 1..8, built by insertion. -/
def tC6 : Tree Int :=
  [4, 2, 6, 1, 3, 5, 7, 8].foldl (fun t x => t.Insert (icmp x) x) ({} : Tree Int)

/-- C6 (amended): the range-traversal semantics of the two generations.
In the latest generation the strict `DoRange` visits the HALF-OPEN
interval `[from, to)` in ascending order when `from < to`, panics on an
inverted range, and is a no-op when `from == to` (it calls `fn` on
nothing and leaves the accumulator untouched).  In the older generation
`DoRange` visits the CLOSED interval `[from, to]` in ascending order
when `from < to`, visits NOTHING when `from > to` (the reverse
dispatch's visit condition is unsatisfiable), and visits exactly the
elements comparing equal to `from` when `from == to`. -/
theorem llrb_do_range_semantics (t : Tree Int) (hb : IsBST t.Root) (b e : Int) (s : List Int) :
    (b < e →
      t.DoRange (fun s x => (s ++ [x], false)) icq icmp b e s
        = some (s ++ t.Root.inorder.filter (fun x => decide (b ≤ x ∧ x < e)), false)) ∧
    (b > e → t.Root.isNil = false →
      t.DoRange (fun s x => (s ++ [x], false)) icq icmp b e s = none) ∧
    (b = e →
      t.DoRange (fun s x => (s ++ [x], false)) icq icmp b e s = some (s, false)) ∧
    (b < e →
      Old.DoRange t (fun s x => s ++ [x]) icq icmp b e s
        = s ++ t.Root.inorder.filter (fun x => decide (b ≤ x ∧ x ≤ e))) ∧
    (b > e → Old.DoRange t (fun s x => s ++ [x]) icq icmp b e s = s) ∧
    (b = e →
      Old.DoRange t (fun s x => s ++ [x]) icq icmp b e s
        = s ++ t.Root.inorder.filter (fun x => decide (x = b))) := by
  refine ⟨?_, ?_, ?_, ?_, ?_, ?_⟩
  · intro hbe
    rw [Tree.DoRange]
    by_cases hn : t.Root.isNil
    · simp [hn, isNil_inorder t.Root hn]
    · have ho : icmp b e < 0 := by simp [icmp]; omega
      rw [if_neg hn]
      simp only [ho, if_pos]
      rw [doRangeF_collect b e t.Root hb s]
  · intro hbe hn
    rw [Tree.DoRange, hn]
    have ho : ¬ icmp b e < 0 := by simp [icmp]; omega
    have ho2 : icmp b e > 0 := by simp [icmp]; omega
    simp [ho, ho2]
  · intro hbe
    subst hbe
    rw [Tree.DoRange]
    by_cases hn : t.Root.isNil
    · simp [hn]
    · have ho : ¬ icmp b b < 0 := by simp [icmp]
      have ho2 : ¬ icmp b b > 0 := by simp [icmp]
      rw [if_neg hn]
      simp [ho, ho2]
  · intro hbe
    rw [Old.DoRange]
    by_cases hn : t.Root.isNil
    · simp [hn, isNil_inorder t.Root hn]
    · have ho : icmp b e < 0 := by simp [icmp]; omega
      rw [if_neg hn]
      simp only [ho, if_pos]
      exact Old.doRange_collect b e t.Root hb s
  · intro hbe
    rw [Old.DoRange]
    by_cases hn : t.Root.isNil
    · simp [hn]
    · have ho : ¬ icmp b e < 0 := by simp [icmp]; omega
      have ho2 : icmp b e > 0 := by simp [icmp]; omega
      rw [if_neg hn]
      simp only [ho, if_false, ho2, if_pos]
      exact Old.doRangeReverse_empty b e hbe t.Root s
  · intro hbe
    subst hbe
    rw [Old.DoRange]
    by_cases hn : t.Root.isNil
    · simp [hn, isNil_inorder t.Root hn]
    · have ho : ¬ icmp b b < 0 := by simp [icmp]
      have ho2 : ¬ icmp b b > 0 := by simp [icmp]
      rw [if_neg hn]
      simp only [ho, if_false, ho2]
      exact Old.doMatch_collect b t.Root hb s

/-- Witness for C6 at a concrete input: the tree `{1..8}` with bounds
`(3, 7)`. -/
theorem llrb_do_range_semantics_witness :
    IsBST tC6.Root ∧
    ((3 : Int) < 7 →
      tC6.DoRange (fun s x => (s ++ [x], false)) icq icmp 3 7 []
        = some ([] ++ tC6.Root.inorder.filter (fun x => decide (3 ≤ x ∧ x < 7)), false)) ∧
    ((3 : Int) > 7 → tC6.Root.isNil = false →
      tC6.DoRange (fun s x => (s ++ [x], false)) icq icmp 3 7 [] = none) ∧
    ((3 : Int) = 7 →
      tC6.DoRange (fun s x => (s ++ [x], false)) icq icmp 3 7 [] = some ([], false)) ∧
    ((3 : Int) < 7 →
      Old.DoRange tC6 (fun s x => s ++ [x]) icq icmp 3 7 []
        = [] ++ tC6.Root.inorder.filter (fun x => decide (3 ≤ x ∧ x ≤ 7))) ∧
    ((3 : Int) > 7 → Old.DoRange tC6 (fun s x => s ++ [x]) icq icmp 3 7 [] = []) ∧
    ((3 : Int) = 7 →
      Old.DoRange tC6 (fun s x => s ++ [x]) icq icmp 3 7 []
        = [] ++ tC6.Root.inorder.filter (fun x => decide (x = 3))) :=
  ⟨by decide, llrb_do_range_semantics tC6 (by decide) 3 7 []⟩

/-- Counterexample to C6 as stated: on the older generation's `DoRange`
(file `llrb.go`, one of the claim's cited sources) with the tree `{1..8}`
the call with bounds `(3, 7)` visits `7` — the interval is closed, not
half-open — and the call with inverted bounds `(7, 3)` visits nothing
rather than `[3, 7)` in reverse order. -/
theorem llrb_do_range_cex :
    Old.DoRange tC6 (fun s x => s ++ [x]) icq icmp 3 7 ([] : List Int) = [3, 4, 5, 6, 7] ∧
    Old.DoRange tC6 (fun s x => s ++ [x]) icq icmp 7 3 ([] : List Int) = [] := by
  exact ⟨by decide, by decide⟩

/-- Witness for C8 at a concrete input: the tree `{1, 3, 5}` with query
`q = 4` has floor 3 and ceil 5. -/
theorem llrb_floor_ceil_duality_witness :
    IsBST t8.Root ∧ t8.Floor (icq 4) = some 3 ∧ t8.Ceil (icq 4) = some 5 ∧
    ((3 : Int) ∈ t8.Root.inorder ∧ (5 : Int) ∈ t8.Root.inorder ∧
      (3 : Int) ≤ 4 ∧ (4 : Int) ≤ 5 ∧
      (∀ x ∈ t8.Root.inorder, x ≤ 4 → x ≤ 3) ∧
      (∀ x ∈ t8.Root.inorder, 4 ≤ x → 5 ≤ x) ∧
      (((3 : Int) = 4) ↔ (4 : Int) ∈ t8.Root.inorder) ∧
      (((5 : Int) = 4) ↔ (4 : Int) ∈ t8.Root.inorder)) :=
  ⟨by decide, by decide, by decide,
    llrb_floor_ceil_duality t8 (by decide) 4 3 5 (by decide) (by decide)⟩

end Llrb

namespace Kd

/-- The smallest distance from `q` to a point of the list, `⊤` when the
list is empty (`math.Inf(1)` of the source). -/
def minDist (q : Point) (l : List Point) : WithTop Int :=
  (l.map (fun p => ((distance q p : Int) : WithTop Int))).foldr min ⊤

@[simp] theorem minDist_nil (q : Point) : minDist q [] = ⊤ := rfl

@[simp] theorem minDist_cons (q p : Point) (l : List Point) :
    minDist q (p :: l) = min ((distance q p : Int) : WithTop Int) (minDist q l) := rfl

theorem minDist_append (q : Point) (as bs : List Point) :
    minDist q (as ++ bs) = min (minDist q as) (minDist q bs) := by
  induction as with
  | nil => simp
  | cons a as ih => simp [ih, min_assoc]

theorem le_minDist (q : Point) (l : List Point) (b : WithTop Int)
    (h : ∀ x ∈ l, b ≤ ((distance q x : Int) : WithTop Int)) : b ≤ minDist q l := by
  induction l with
  | nil => simp
  | cons a l ih =>
    simp only [minDist_cons, le_min_iff]
    exact ⟨h a (by simp), ih (fun x hx => h x (by simp [hx]))⟩

theorem minDist_le_of_mem (q : Point) (l : List Point) (p : Point) (h : p ∈ l) :
    minDist q l ≤ ((distance q p : Int) : WithTop Int) := by
  induction l with
  | nil => simp at h
  | cons a l ih =>
    rcases List.mem_cons.mp h with h | h
    · subst h; simp
    · exact le_trans (min_le_right _ _) (ih h)

theorem distance_nonneg (q x : Point) : 0 ≤ distance q x := by
  rw [distance]
  induction (q.zip x) with
  | nil => simp
  | cons a l ih =>
    simp only [List.map_cons, List.sum_cons]
    have : 0 ≤ (a.1 - a.2) ^ 2 := sq_nonneg _
    omega

/-- Any single coordinate's squared difference bounds the squared
distance from below, provided both points span that coordinate. -/
theorem sq_coord_le_distance (q x : Point) (k d : Nat) (hq : q.length = k)
    (hx : x.length = k) (hd : d < k) :
    (q.getD d 0 - x.getD d 0) ^ 2 ≤ distance q x := by
  induction d generalizing q x k with
  | zero =>
    cases q with
    | nil => simp at hq; omega
    | cons a q2 =>
      cases x with
      | nil => simp at hx; omega
      | cons b x2 =>
        simp only [List.getD_cons_zero]
        rw [distance]
        simp only [List.zip_cons_cons, List.map_cons, List.sum_cons]
        have := distance_nonneg q2 x2
        rw [distance] at this
        omega
  | succ d ih =>
    cases q with
    | nil => simp at hq; omega
    | cons a q2 =>
      cases x with
      | nil => simp at hx; omega
      | cons b x2 =>
        simp only [List.getD_cons_succ]
        rw [distance]
        simp only [List.zip_cons_cons, List.map_cons, List.sum_cons]
        cases k with
        | zero => omega
        | succ k2 =>
          have hlast := ih q2 x2 k2 (by simpa using hq) (by simpa using hx) (by omega)
          rw [distance] at hlast
          have : 0 ≤ (a - b) ^ 2 := sq_nonneg _
          omega

/-- The geometric invariant `build` establishes, at running dimension
`d` over `k`-dimensional data: the stored plane is the running
dimension, every left point is `≤` and every right point `≥` the node's
point on that dimension, recursively with the dimension cycled. -/
def Ordered : KNode → Nat → Nat → Prop
  | .nil, _, _ => True
  | .node pt plane l r _, d, k =>
      plane = d ∧ pt.length = k ∧
      (∀ x ∈ l.pts, x.getD d 0 ≤ pt.getD d 0) ∧
      (∀ x ∈ r.pts, pt.getD d 0 ≤ x.getD d 0) ∧
      Ordered l ((d + 1) % k) k ∧ Ordered r ((d + 1) % k) k

end Kd

namespace Kd

/-- The branch-and-bound `search` is exact on ordered subtrees: its
returned distance, clipped at the incoming bound, is the incoming bound
clipped at the true minimum distance over the subtree's points, and
whenever it improves on the incoming bound the returned node attains the
returned distance. -/
theorem search_spec (q : Point) (k : Nat) (hq : q.length = k) (hk : 0 < k) :
    ∀ (n : KNode) (d : Nat), d < k → Ordered n d k →
      (∀ p ∈ n.pts, p.length = k) →
      ∀ dist0 : WithTop Int,
        min dist0 (n.search q d dist0).2 = min dist0 (minDist q n.pts) ∧
        ((n.search q d dist0).2 < dist0 →
          ∃ p, p ∈ n.pts ∧ (n.search q d dist0).1 = some p ∧
            ((distance q p : Int) : WithTop Int) = (n.search q d dist0).2) := by
  intro n
  induction n with
  | nil =>
    intro d hd _ _ dist0
    simp [KNode.search, KNode.pts]
  | node pt pl l r b ihl ihr =>
    intro d hd hord hdim dist0
    obtain ⟨hpl, hptlen, hordl, hordr, hol, hor⟩ := hord
    have hdq : dims q = k := hq
    have hptsn : (KNode.node pt pl l r b).pts = pt :: (l.pts ++ r.pts) := rfl
    have hdiml : ∀ p ∈ l.pts, p.length = k := by
      intro p hp
      exact hdim p (by rw [hptsn]; simp [hp])
    have hdimr : ∀ p ∈ r.pts, p.length = k := by
      intro p hp
      exact hdim p (by rw [hptsn]; simp [hp])
    set d' : Nat := (d + 1) % k with hd'def
    have hd' : d' < k := Nat.mod_lt _ hk
    set c : Int := compareP q pt d with hc0
    set cq : WithTop Int := ((distance q pt : Int) : WithTop Int) with hcq
    set dist : WithTop Int := min dist0 cq with hdistdef
    have hdist_le : dist ≤ dist0 := min_le_left _ _
    by_cases hc : c ≤ 0
    case pos =>
      set ql := KNode.search q l d' dist with hql0
      set dist1 : WithTop Int := if ql.2 < dist then ql.2 else dist with hdist10
      set bn : Option Point := if ql.2 < dist then ql.1 else some pt with hbn0
      set qr := KNode.search q r d' dist1 with hqr0
      have hunfold : KNode.search q (KNode.node pt pl l r b) d dist0
          = if ((c * c : Int) : WithTop Int) ≤ dist1 then
              (if qr.2 < dist1 then (qr.1, qr.2) else (bn, dist1))
            else (bn, dist1) := by
        rw [KNode.search]
        dsimp only
        rw [hdq, if_pos hc]
      have hIHl := ihl d' hd' hol hdiml dist
      have F1 : dist1 = min dist (minDist q l.pts) := by
        by_cases h : ql.2 < dist
        · rw [hdist10, if_pos h]
          have h1 := hIHl.1
          rw [min_eq_right (le_of_lt h)] at h1
          exact h1
        · rw [hdist10, if_neg h]
          have h1 := hIHl.1
          rw [min_eq_left (not_lt.mp h)] at h1
          exact h1
      have hdist1_le_dist : dist1 ≤ dist := by
        rw [F1]; exact min_le_left _ _
      have hdist1_le : dist1 ≤ dist0 := le_trans hdist1_le_dist hdist_le
      have F2 : dist1 < dist0 →
          ∃ p, p ∈ (KNode.node pt pl l r b).pts ∧ bn = some p ∧
            ((distance q p : Int) : WithTop Int) = dist1 := by
        intro h
        by_cases hql2 : ql.2 < dist
        · have hd1 : dist1 = ql.2 := by rw [hdist10, if_pos hql2]
          obtain ⟨p, hp, he1, he2⟩ := hIHl.2 hql2
          refine ⟨p, by rw [hptsn]; simp [hp], ?_, ?_⟩
          · rw [hbn0, if_pos hql2]; exact he1
          · rw [hd1]; exact he2
        · have hd1 : dist1 = dist := by rw [hdist10, if_neg hql2]
          have hcqlt : cq < dist0 := by
            by_contra hcon
            push_neg at hcon
            have hx : dist = dist0 := by rw [hdistdef]; exact min_eq_left hcon
            rw [hd1, hx] at h
            exact lt_irrefl _ h
          have hdcq : dist = cq := by rw [hdistdef]; exact min_eq_right (le_of_lt hcqlt)
          refine ⟨pt, by rw [hptsn]; simp, ?_, ?_⟩
          · rw [hbn0, if_neg hql2]
          · rw [hd1, hdcq, hcq]
      have RHSfact : min dist0 (minDist q (KNode.node pt pl l r b).pts)
          = min dist1 (minDist q r.pts) := by
        rw [hptsn, minDist_cons, minDist_append, F1, hdistdef]
        rw [← min_assoc, ← min_assoc]
      rw [hunfold]
      by_cases hcc : ((c * c : Int) : WithTop Int) ≤ dist1
      case pos =>
        rw [if_pos hcc]
        have hIHr := ihr d' hd' hor hdimr dist1
        by_cases hqr2 : qr.2 < dist1
        · rw [if_pos hqr2]
          refine ⟨?_, ?_⟩
          · show min dist0 qr.2 = _
            rw [RHSfact]
            have h1 := hIHr.1
            rw [min_eq_right (le_of_lt hqr2)] at h1
            rw [min_eq_right (le_of_lt (lt_of_lt_of_le hqr2 hdist1_le))]
            exact h1
          · intro hlt
            obtain ⟨p, hp, he1, he2⟩ := hIHr.2 hqr2
            exact ⟨p, by rw [hptsn]; simp [hp], he1, he2⟩
        · rw [if_neg hqr2]
          refine ⟨?_, ?_⟩
          · show min dist0 dist1 = _
            rw [RHSfact]
            have h1 := hIHr.1
            rw [min_eq_left (not_lt.mp hqr2)] at h1
            rw [min_eq_right hdist1_le]
            exact h1
          · intro hlt
            exact F2 hlt
      case neg =>
        rw [if_neg hcc]
        have hlt1 : dist1 < ((c * c : Int) : WithTop Int) := not_le.mp hcc
        have minrLB : ((c * c : Int) : WithTop Int) ≤ minDist q r.pts := by
          apply le_minDist
          intro x hx
          rw [WithTop.coe_le_coe]
          have hxd : pt.getD d 0 ≤ x.getD d 0 := hordr x hx
          have h1 : (q.getD d 0 - x.getD d 0) ^ 2 ≤ distance q x :=
            sq_coord_le_distance q x k d hq (hdimr x hx) hd
          have hcd : c = q.getD d 0 - pt.getD d 0 := hc0
          have hu : q.getD d 0 - x.getD d 0 ≤ c := by omega
          have h2 : c * c ≤ (q.getD d 0 - x.getD d 0) ^ 2 := by
            have h3 := mul_self_le_mul_self (neg_nonneg.mpr hc)
              (neg_le_neg hu)
            have h4 : (-c) * (-c) = c * c := by ring
            have h5 : (-(q.getD d 0 - x.getD d 0)) * (-(q.getD d 0 - x.getD d 0))
                = (q.getD d 0 - x.getD d 0) ^ 2 := by ring
            rw [h4, h5] at h3
            exact h3
          omega
        have key : min dist1 (minDist q r.pts) = dist1 :=
          min_eq_left (le_trans (le_of_lt hlt1) minrLB)
        refine ⟨?_, ?_⟩
        · show min dist0 dist1 = _
          rw [RHSfact, key]
          exact min_eq_right hdist1_le
        · intro hlt
          exact F2 hlt
    case neg =>
      set qr1 := KNode.search q r d' dist with hqr10
      set dist1 : WithTop Int := if qr1.2 < dist then qr1.2 else dist with hdist10
      set bn : Option Point := if qr1.2 < dist then qr1.1 else some pt with hbn0
      set ql1 := KNode.search q l d' dist1 with hql10
      have hunfold : KNode.search q (KNode.node pt pl l r b) d dist0
          = if ((c * c : Int) : WithTop Int) ≤ dist1 then
              (if ql1.2 < dist1 then (ql1.1, ql1.2) else (bn, dist1))
            else (bn, dist1) := by
        rw [KNode.search]
        dsimp only
        rw [hdq, if_neg hc]
      have hIHr := ihr d' hd' hor hdimr dist
      have F1 : dist1 = min dist (minDist q r.pts) := by
        by_cases h : qr1.2 < dist
        · rw [hdist10, if_pos h]
          have h1 := hIHr.1
          rw [min_eq_right (le_of_lt h)] at h1
          exact h1
        · rw [hdist10, if_neg h]
          have h1 := hIHr.1
          rw [min_eq_left (not_lt.mp h)] at h1
          exact h1
      have hdist1_le_dist : dist1 ≤ dist := by
        rw [F1]; exact min_le_left _ _
      have hdist1_le : dist1 ≤ dist0 := le_trans hdist1_le_dist hdist_le
      have F2 : dist1 < dist0 →
          ∃ p, p ∈ (KNode.node pt pl l r b).pts ∧ bn = some p ∧
            ((distance q p : Int) : WithTop Int) = dist1 := by
        intro h
        by_cases hqr2 : qr1.2 < dist
        · have hd1 : dist1 = qr1.2 := by rw [hdist10, if_pos hqr2]
          obtain ⟨p, hp, he1, he2⟩ := hIHr.2 hqr2
          refine ⟨p, by rw [hptsn]; simp [hp], ?_, ?_⟩
          · rw [hbn0, if_pos hqr2]; exact he1
          · rw [hd1]; exact he2
        · have hd1 : dist1 = dist := by rw [hdist10, if_neg hqr2]
          have hcqlt : cq < dist0 := by
            by_contra hcon
            push_neg at hcon
            have hx : dist = dist0 := by rw [hdistdef]; exact min_eq_left hcon
            rw [hd1, hx] at h
            exact lt_irrefl _ h
          have hdcq : dist = cq := by rw [hdistdef]; exact min_eq_right (le_of_lt hcqlt)
          refine ⟨pt, by rw [hptsn]; simp, ?_, ?_⟩
          · rw [hbn0, if_neg hqr2]
          · rw [hd1, hdcq, hcq]
      have RHSfact : min dist0 (minDist q (KNode.node pt pl l r b).pts)
          = min dist1 (minDist q l.pts) := by
        rw [hptsn, minDist_cons, minDist_append, F1, hdistdef]
        rw [min_comm (minDist q l.pts) (minDist q r.pts)]
        rw [← min_assoc, ← min_assoc]
      rw [hunfold]
      by_cases hcc : ((c * c : Int) : WithTop Int) ≤ dist1
      case pos =>
        rw [if_pos hcc]
        have hIHl := ihl d' hd' hol hdiml dist1
        by_cases hql2 : ql1.2 < dist1
        · rw [if_pos hql2]
          refine ⟨?_, ?_⟩
          · show min dist0 ql1.2 = _
            rw [RHSfact]
            have h1 := hIHl.1
            rw [min_eq_right (le_of_lt hql2)] at h1
            rw [min_eq_right (le_of_lt (lt_of_lt_of_le hql2 hdist1_le))]
            exact h1
          · intro hlt
            obtain ⟨p, hp, he1, he2⟩ := hIHl.2 hql2
            exact ⟨p, by rw [hptsn]; simp [hp], he1, he2⟩
        · rw [if_neg hql2]
          refine ⟨?_, ?_⟩
          · show min dist0 dist1 = _
            rw [RHSfact]
            have h1 := hIHl.1
            rw [min_eq_left (not_lt.mp hql2)] at h1
            rw [min_eq_right hdist1_le]
            exact h1
          · intro hlt
            exact F2 hlt
      case neg =>
        rw [if_neg hcc]
        have hlt1 : dist1 < ((c * c : Int) : WithTop Int) := not_le.mp hcc
        have minlLB : ((c * c : Int) : WithTop Int) ≤ minDist q l.pts := by
          apply le_minDist
          intro x hx
          rw [WithTop.coe_le_coe]
          have hxd : x.getD d 0 ≤ pt.getD d 0 := hordl x hx
          have h1 : (q.getD d 0 - x.getD d 0) ^ 2 ≤ distance q x :=
            sq_coord_le_distance q x k d hq (hdiml x hx) hd
          have hcd : c = q.getD d 0 - pt.getD d 0 := hc0
          have hcpos : 0 < c := lt_of_not_le hc
          have hu : c ≤ q.getD d 0 - x.getD d 0 := by omega
          have h2 : c * c ≤ (q.getD d 0 - x.getD d 0) ^ 2 := by
            have h3 := mul_self_le_mul_self (le_of_lt hcpos) hu
            have h5 : (q.getD d 0 - x.getD d 0) * (q.getD d 0 - x.getD d 0)
                = (q.getD d 0 - x.getD d 0) ^ 2 := by ring
            rw [h5] at h3
            exact h3
          omega
        have key : min dist1 (minDist q l.pts) = dist1 :=
          min_eq_left (le_trans (le_of_lt hlt1) minlLB)
        refine ⟨?_, ?_⟩
        · show min dist0 dist1 = _
          rw [RHSfact, key]
          exact min_eq_right hdist1_le
        · intro hlt
          exact F2 hlt

end Kd

namespace Kd

/-- What the repository's `Partition` guarantees of a pivot result (its
doc comment: elements less than the value at the pivot are placed before
it, elements greater after it), together with being a permutation: the
facts the correctness theorem needs of the randomised `Points.Pivot`. -/
def ValidPivot (pv : PivotFn) : Prop :=
  ∀ ps plane,
    (pv ps plane).val.1.Perm ps ∧
    (∀ x ∈ (pv ps plane).val.1.take (pv ps plane).val.2,
      x.getD plane 0 ≤ (((pv ps plane).val.1.getD (pv ps plane).val.2 []).getD plane 0)) ∧
    (∀ x ∈ (pv ps plane).val.1.drop ((pv ps plane).val.2 + 1),
      (((pv ps plane).val.1.getD (pv ps plane).val.2 []).getD plane 0) ≤ x.getD plane 0)

/-- `build` stores exactly the input points (up to order). -/
theorem build_pts_perm (pv : PivotFn) (hpv : ValidPivot pv) :
    ∀ (m : Nat) (ps : List Point) (plane : Nat), ps.length ≤ m →
      (build pv ps plane).pts.Perm ps := by
  intro m
  induction m with
  | zero =>
    intro ps plane h
    have : ps = [] := List.length_eq_zero.mp (Nat.le_zero.mp h)
    subst this
    rw [build]
    exact List.Perm.refl _
  | succ m ih =>
    intro ps plane hlen
    cases ps with
    | nil => rw [build]; exact List.Perm.refl _
    | cons p ps2 =>
      rw [build]
      have hlen1 : (pv (p :: ps2) plane).val.1.length = (p :: ps2).length :=
        (pv (p :: ps2) plane).property.1
      have hpivlt : (pv (p :: ps2) plane).val.2 < (pv (p :: ps2) plane).val.1.length :=
        (pv (p :: ps2) plane).property.2 (by simp)
      set ps' := (pv (p :: ps2) plane).val.1 with hps'
      set piv := (pv (p :: ps2) plane).val.2 with hpiv
      have htake : (ps'.take piv).length ≤ m := by
        simp only [List.length_take]
        simp only [List.length_cons] at hlen1 hlen
        omega
      have hdrop : (ps'.drop (piv + 1)).length ≤ m := by
        simp only [List.length_drop]
        simp only [List.length_cons] at hlen1 hlen
        omega
      have ihl := ih (ps'.take piv) ((plane + 1) % dims (ps'.getD piv [])) htake
      have ihr := ih (ps'.drop (piv + 1)) ((plane + 1) % dims (ps'.getD piv [])) hdrop
      show (ps'.getD piv [] :: ((build pv (ps'.take piv) _).pts ++
          (build pv (ps'.drop (piv + 1)) _).pts)).Perm (p :: ps2)
      have hgd : ps'.getD piv [] = ps'.get ⟨piv, hpivlt⟩ := by
        rw [List.getD_eq_getElem _ _ hpivlt]
        simp
      have hsplit : ps'.take piv ++ ps'.get ⟨piv, hpivlt⟩ :: ps'.drop (piv + 1) = ps' := by
        conv_lhs => rw [show ps'.get ⟨piv, hpivlt⟩ :: ps'.drop (piv + 1)
          = ps'.drop piv from (List.drop_eq_getElem_cons hpivlt).symm]
        exact List.take_append_drop _ _
      refine List.Perm.trans (List.Perm.cons _ (List.Perm.append ihl ihr)) ?_
      rw [hgd]
      refine List.Perm.trans List.perm_middle.symm ?_
      rw [hsplit]
      exact (hpv (p :: ps2) plane).1

end Kd

namespace Kd

/-- `build` establishes the `Ordered` invariant. -/
theorem build_ordered (pv : PivotFn) (hpv : ValidPivot pv) (k : Nat) :
    ∀ (m : Nat) (ps : List Point) (plane : Nat), ps.length ≤ m → plane < k →
      (∀ p ∈ ps, p.length = k) → Ordered (build pv ps plane) plane k := by
  intro m
  induction m with
  | zero =>
    intro ps plane h hpl hlen
    have : ps = [] := List.length_eq_zero.mp (Nat.le_zero.mp h)
    subst this
    rw [build]
    trivial
  | succ m ih =>
    intro ps plane hlen hplane hlens
    cases ps with
    | nil => rw [build]; trivial
    | cons p ps2 =>
      rw [build]
      have hlen1 : (pv (p :: ps2) plane).val.1.length = (p :: ps2).length :=
        (pv (p :: ps2) plane).property.1
      have hpivlt : (pv (p :: ps2) plane).val.2 < (pv (p :: ps2) plane).val.1.length :=
        (pv (p :: ps2) plane).property.2 (by simp)
      set ps' := (pv (p :: ps2) plane).val.1 with hps'
      set piv := (pv (p :: ps2) plane).val.2 with hpiv
      have hmem' : ∀ x ∈ ps', x.length = k := by
        intro x hx
        exact hlens x ((hpv (p :: ps2) plane).1.mem_iff.mp hx)
      have hgd : ps'.getD piv [] = ps'.get ⟨piv, hpivlt⟩ := by
        rw [List.getD_eq_getElem _ _ hpivlt]
        simp
      have hpivmem : ps'.getD piv [] ∈ ps' := by
        rw [hgd]; exact List.get_mem _ _ _
      have hpivlen : (ps'.getD piv []).length = k := hmem' _ hpivmem
      have hdims : dims (ps'.getD piv []) = k := hpivlen
      rw [hdims]
      have htake : (ps'.take piv).length ≤ m := by
        simp only [List.length_take]
        simp only [List.length_cons] at hlen1 hlen
        omega
      have hdrop : (ps'.drop (piv + 1)).length ≤ m := by
        simp only [List.length_drop]
        simp only [List.length_cons] at hlen1 hlen
        omega
      have hnp : (plane + 1) % k < k := Nat.mod_lt _ (Nat.lt_of_le_of_lt (Nat.zero_le _) hplane)
      have hlt : ∀ x ∈ ps'.take piv, x.length = k :=
        fun x hx => hmem' x (List.mem_of_mem_take hx)
      have hld : ∀ x ∈ ps'.drop (piv + 1), x.length = k :=
        fun x hx => hmem' x (List.mem_of_mem_drop hx)
      have ihl := ih (ps'.take piv) ((plane + 1) % k) htake hnp hlt
      have ihr := ih (ps'.drop (piv + 1)) ((plane + 1) % k) hdrop hnp hld
      have hpermtake := build_pts_perm pv hpv m (ps'.take piv) ((plane + 1) % k) htake
      have hpermdrop := build_pts_perm pv hpv m (ps'.drop (piv + 1)) ((plane + 1) % k) hdrop
      refine ⟨rfl, hpivlen, ?_, ?_, ihl, ihr⟩
      · intro x hx
        exact (hpv (p :: ps2) plane).2.1 x (hpermtake.mem_iff.mp hx)
      · intro x hx
        exact (hpv (p :: ps2) plane).2.2 x (hpermdrop.mem_iff.mp hx)

end Kd

namespace Kd

/-- C3: for every k-d tree bulk-built (with any pivoting procedure
satisfying the `Partition` contract) from a dataset of `k`-dimensional
points, and every `k`-dimensional query whose squared-Euclidean nearest
point in the dataset is unique, `Nearest` returns that brute-force
argmin point together with its distance to the query. -/
theorem kd_nearest_correct (pv : PivotFn) (hpv : ValidPivot pv) (ps : List Point)
    (k : Nat) (hk : 0 < k) (hps : ∀ p ∈ ps, p.length = k) (q : Point)
    (hq : q.length = k) (p0 : Point) (hmem : p0 ∈ ps)
    (hmin : ∀ x ∈ ps, x ≠ p0 → distance q p0 < distance q x) :
    Nearest (New pv ps) q = (some p0, ((distance q p0 : Int) : WithTop Int)) := by
  have hperm := build_pts_perm pv hpv ps.length ps 0 (le_refl _)
  have hord := build_ordered pv hpv k ps.length ps 0 (le_refl _) hk hps
  have hdims : ∀ p ∈ (build pv ps 0).pts, p.length = k :=
    fun p hp => hps p (hperm.mem_iff.mp hp)
  have hnonnil : (build pv ps 0).isNil = false := by
    cases ps with
    | nil => simp at hmem
    | cons p1 ps2 => rw [build]; rfl
  have hspec := search_spec q k hq hk (build pv ps 0) 0 hk hord hdims ⊤
  have hmdle : minDist q (build pv ps 0).pts ≤ ((distance q p0 : Int) : WithTop Int) :=
    minDist_le_of_mem _ _ _ (hperm.mem_iff.mpr hmem)
  have hmdge : ((distance q p0 : Int) : WithTop Int) ≤ minDist q (build pv ps 0).pts := by
    apply le_minDist
    intro x hx
    rw [WithTop.coe_le_coe]
    rcases eq_or_ne x p0 with h | h
    · rw [h]
    · exact le_of_lt (hmin x (hperm.mem_iff.mp hx) h)
  have hmd : minDist q (build pv ps 0).pts = ((distance q p0 : Int) : WithTop Int) :=
    le_antisymm hmdle hmdge
  have h2 : ((build pv ps 0).search q 0 ⊤).2 = ((distance q p0 : Int) : WithTop Int) := by
    have h1 := hspec.1
    rw [min_eq_right le_top, min_eq_right le_top] at h1
    rw [h1, hmd]
  have hlt : ((build pv ps 0).search q 0 ⊤).2 < ⊤ := by
    rw [h2]; exact WithTop.coe_lt_top _
  obtain ⟨p, hpmem, hres1, hresd⟩ := hspec.2 hlt
  have hdeq : distance q p = distance q p0 := by
    rw [h2] at hresd
    exact_mod_cast hresd
  have hp0 : p = p0 := by
    by_contra hne2
    have := hmin p (hperm.mem_iff.mp hpmem) hne2
    omega
  subst hp0
  rw [Nearest]
  have hroot : (New pv ps).Root = build pv ps 0 := rfl
  rw [hroot, hnonnil]
  dsimp only
  rw [hres1, h2]
  rfl

end Kd

namespace Kd

/-- A concrete deterministic pivoting procedure standing in for the
randomised `Points.Pivot`: sort on the splitting plane and take the
middle element. -/
def sortPivot : PivotFn := fun ps plane =>
  let s := ps.mergeSort (fun a b => decide (a.getD plane 0 ≤ b.getD plane 0))
  ⟨(s, (s.length - 1) / 2), by
    refine ⟨List.length_mergeSort ps, fun hne => ?_⟩
    have hpos : 0 < ps.length := List.length_pos.mpr hne
    have hlen : s.length = ps.length := List.length_mergeSort ps
    show (s.length - 1) / 2 < s.length
    calc (s.length - 1) / 2 ≤ s.length - 1 := Nat.div_le_self _ _
      _ < s.length := Nat.sub_lt (by omega) one_pos⟩

/-- `sortPivot` satisfies the `Partition` contract. -/
theorem sortPivot_valid : ValidPivot sortPivot := by
  intro ps plane
  set s := ps.mergeSort (fun a b => decide (a.getD plane 0 ≤ b.getD plane 0)) with hsdef
  set piv := (s.length - 1) / 2 with hpivdef
  have hv1 : (sortPivot ps plane).val.1 = s := rfl
  have hv2 : (sortPivot ps plane).val.2 = piv := rfl
  rw [hv1, hv2]
  have hsorted := @List.sorted_mergeSort Point
    (fun a b : Point => decide (a.getD plane 0 ≤ b.getD plane 0))
    (fun a b c hab hbc => by
      simp only [decide_eq_true_eq] at hab hbc ⊢
      omega)
    (fun a b => by
      simp only [Bool.or_eq_true, decide_eq_true_eq]
      omega)
    ps
  have hsort : List.Sorted (fun a b : Point => a.getD plane 0 ≤ b.getD plane 0) s := by
    refine List.Pairwise.imp ?_ hsorted
    intro a b h
    simpa using h
  refine ⟨List.mergeSort_perm ps _, ?_, ?_⟩
  · intro x hx
    by_cases hlen : s.length = 0
    · rw [List.eq_nil_of_length_eq_zero hlen] at hx
      simp at hx
    · have hpivlt : piv < s.length := by
        rw [hpivdef]
        have := Nat.div_le_self (s.length - 1) 2
        omega
      have hpmem : s.getD piv [] ∈ s.drop piv := by
        rw [List.getD_eq_getElem _ _ hpivlt, List.drop_eq_getElem_cons hpivlt]
        exact List.mem_cons_self _ _
      exact hsort.rel_of_mem_take_of_mem_drop hx hpmem
  · intro x hx
    by_cases hlen : s.length = 0
    · rw [List.eq_nil_of_length_eq_zero hlen] at hx
      simp at hx
    · have hpivlt : piv < s.length := by
        rw [hpivdef]
        have := Nat.div_le_self (s.length - 1) 2
        omega
      have hpmem : s.getD piv [] ∈ s.take (piv + 1) := by
        rw [List.take_succ, List.getD_eq_getElem _ _ hpivlt, List.getElem?_eq_getElem hpivlt]
        exact List.mem_append_right _ (by simp)
      exact hsort.rel_of_mem_take_of_mem_drop hpmem hx

/-- The Wikipedia k-d tree example dataset. -/
def wikiPts : List Point := [[2, 3], [5, 4], [9, 6], [4, 7], [8, 1], [7, 2]]

/-- Witness for C3 at a concrete input: on the Wikipedia example the
nearest neighbour of `(4,6)` is `(4,7)` at squared distance 1. -/
theorem kd_nearest_correct_witness :
    (∀ p ∈ wikiPts, p.length = 2) ∧ [4, 7] ∈ wikiPts ∧
    (∀ x ∈ wikiPts, x ≠ [4, 7] → distance [4, 6] [4, 7] < distance [4, 6] x) ∧
    Nearest (New sortPivot wikiPts) [4, 6]
      = (some [4, 7], ((distance [4, 6] [4, 7] : Int) : WithTop Int)) :=
  ⟨by decide, by decide, by decide,
    kd_nearest_correct sortPivot sortPivot_valid wikiPts 2 (by decide) (by decide)
      [4, 6] (by decide) [4, 7] (by decide) (by decide)⟩

end Kd

namespace Llrb

/-- Left-leaning shape: every right child is black and no red left child
has a red left child of its own, recursively. -/
def NoRR : Node α → Prop
  | .nil => True
  | .node _ l r _ =>
      r.color = Black ∧ (l.color = Red → l.left.color = Black) ∧ NoRR l ∧ NoRR r

/-- Every red node has black children, recursively. -/
def RedsOK : Node α → Prop
  | .nil => True
  | .node _ l r c =>
      (c = Red → l.color = Black ∧ r.color = Black) ∧ RedsOK l ∧ RedsOK r

/-- Every root-to-null path holds exactly `h` black nodes. -/
def Bal : Node α → Nat → Prop
  | .nil, h => h = 0
  | .node _ l r c, h =>
      ∃ hh, Bal l hh ∧ Bal r hh ∧ h = hh + (if c = Black then 1 else 0)

@[simp] theorem NoRR_nil : NoRR (.nil : Node α) := trivial

@[simp] theorem NoRR_node {e : α} {l r : Node α} {c : Color} :
    NoRR (.node e l r c) ↔
      r.color = Black ∧ (l.color = Red → l.left.color = Black) ∧ NoRR l ∧ NoRR r :=
  Iff.rfl

@[simp] theorem RedsOK_nil : RedsOK (.nil : Node α) := trivial

@[simp] theorem RedsOK_node {e : α} {l r : Node α} {c : Color} :
    RedsOK (.node e l r c) ↔
      (c = Red → l.color = Black ∧ r.color = Black) ∧ RedsOK l ∧ RedsOK r :=
  Iff.rfl

@[simp] theorem Bal_nil {h : Nat} : Bal (.nil : Node α) h ↔ h = 0 := Iff.rfl

@[simp] theorem Bal_node {e : α} {l r : Node α} {c : Color} {h : Nat} :
    Bal (.node e l r c) h ↔
      ∃ hh, Bal l hh ∧ Bal r hh ∧ h = hh + (if c = Black then 1 else 0) :=
  Iff.rfl

@[simp] theorem color_nil : (Node.nil : Node α).color = Black := rfl

@[simp] theorem color_node {e : α} {l r : Node α} {c : Color} :
    (Node.node e l r c).color = c := rfl

@[simp] theorem left_nil : (Node.nil : Node α).left = .nil := rfl

@[simp] theorem left_node {e : α} {l r : Node α} {c : Color} :
    (Node.node e l r c).left = l := rfl

@[simp] theorem right_nil : (Node.nil : Node α).right = .nil := rfl

@[simp] theorem right_node {e : α} {l r : Node α} {c : Color} :
    (Node.node e l r c).right = r := rfl

theorem bal_nil_of_zero {n : Node α} (hN : NoRR n) (hB : Bal n 0)
    (hc : n.color = Black) : n = .nil := by
  cases n with
  | nil => rfl
  | node e l r c =>
    obtain ⟨hh, hl, hr, he⟩ := hB
    simp at hc
    subst hc
    simp at he

/-- A black node of positive black height has a non-nil subtree only as
allowed; in particular a black non-nil node's siblings are non-nil when
balanced at the same height (used via: black height zero with black color
forces nil). -/
theorem ne_nil_of_bal_pos {n : Node α} (h : Nat) (hB : Bal n h) (hpos : 0 < h) :
    n.isNil = false := by
  cases n with
  | nil => simp at hB; omega
  | node e l r c => rfl

end Llrb

namespace Llrb

theorem inorder_rotateLeft (n : Node α) : n.rotateLeft.inorder = n.inorder := by
  cases n with
  | nil => rfl
  | node e l r c =>
    cases r with
    | nil => rfl
    | node re rl rr rc => simp [Node.rotateLeft, Node.inorder]

theorem inorder_rotateRight (n : Node α) : n.rotateRight.inorder = n.inorder := by
  cases n with
  | nil => rfl
  | node e l r c =>
    cases l with
    | nil => rfl
    | node le ll lr lc => simp [Node.rotateRight, Node.inorder]

theorem inorder_flipColors (n : Node α) : n.flipColors.inorder = n.inorder := by
  cases n with
  | nil => rfl
  | node e l r c =>
    cases l with
    | nil => rfl
    | node le ll lr lc =>
      cases r with
      | nil => rfl
      | node re rl rr rc => simp [Node.flipColors, Node.inorder]

theorem inorder_fixUp (n : Node α) : n.fixUp.inorder = n.inorder := by
  rw [Node.fixUp]
  split <;> split <;> split <;>
    simp [inorder_rotateLeft, inorder_rotateRight, inorder_flipColors]

theorem inorder_moveRedLeft (n : Node α) : n.moveRedLeft.inorder = n.inorder := by
  rw [Node.moveRedLeft]
  split
  · cases hn : n.flipColors with
    | nil =>
      have := inorder_flipColors n
      rw [hn] at this
      simp [Node.inorder] at this ⊢
      exact this
    | node e l r c =>
      have := inorder_flipColors n
      rw [hn] at this
      rw [← this]
      simp [inorder_flipColors, inorder_rotateLeft, Node.inorder, inorder_rotateRight]
  · exact inorder_flipColors n

theorem inorder_moveRedRight (n : Node α) : n.moveRedRight.inorder = n.inorder := by
  rw [Node.moveRedRight]
  split
  · rw [inorder_flipColors, inorder_rotateRight, inorder_flipColors]
  · exact inorder_flipColors n

theorem inorder_blacken (n : Node α) : n.blacken.inorder = n.inorder := by
  cases n <;> rfl

/-- `IsBST` is exactly strict sortedness of the in-order list. -/
theorem isBST_iff_pairwise (n : Node Int) :
    IsBST n ↔ n.inorder.Pairwise (· < ·) := by
  induction n with
  | nil => simp [IsBST]
  | node e l r c ihl ihr =>
    rw [IsBST]
    simp only [inorder_node, List.pairwise_append, List.pairwise_cons, ihl, ihr]
    constructor
    · rintro ⟨hl, hr, bl, br⟩
      refine ⟨bl, ⟨hr, br⟩, ?_⟩
      intro x hx y hy
      rcases List.mem_cons.mp hy with h | h
      · subst h; exact hl x hx
      · exact lt_trans (hl x hx) (hr y h)
    · rintro ⟨bl, ⟨hr, br⟩, hx⟩
      exact ⟨fun x h => hx x h e (by simp), hr, bl, br⟩

theorem isBST_of_inorder_eq {m n : Node Int} (h : m.inorder = n.inorder)
    (hb : IsBST n) : IsBST m := by
  rw [isBST_iff_pairwise] at hb ⊢
  rw [h]
  exact hb

theorem isBST_of_sublist {m n : Node Int} (h : m.inorder.Sublist n.inorder)
    (hb : IsBST n) : IsBST m := by
  rw [isBST_iff_pairwise] at hb ⊢
  exact hb.sublist h

end Llrb

namespace Llrb

/-- The bottom-up fix applied by `insert` at every level (the three
conditional transforms at the end of the source's `insert`). -/
def insFix (n : Node α) : Node α :=
  let n := if n.right.color = Red ∧ n.left.color = Black then n.rotateLeft else n
  let n := if n.left.color = Red ∧ n.left.left.color = Red then n.rotateRight else n
  if n.left.color = Red ∧ n.right.color = Red then n.flipColors else n

theorem insert_node_eq (ce : α → Int) (e se : α) (l r : Node α) (c : Color) :
    (Node.node se l r c).insert ce e
      = (insFix (if ce se = 0 then (Node.node e l r c : Node α)
                 else if ce se < 0 then (Node.node se (l.insert ce e).1 r c : Node α)
                 else (Node.node se l (r.insert ce e).1 c : Node α)),
         if ce se = 0 then 0 else if ce se < 0 then (l.insert ce e).2 else (r.insert ce e).2) := by
  rw [Node.insert, insFix]
  by_cases h0 : ce se = 0
  · simp [h0]
  · by_cases h1 : ce se < 0 <;> simp [h0, h1]

theorem insFix_inorder (n : Node α) : (insFix n).inorder = n.inorder := by
  rw [insFix]
  split <;> split <;> split <;>
    simp [inorder_rotateLeft, inorder_rotateRight, inorder_flipColors]

/-- `insert` keeps the BST property and adds at most the new element. -/
theorem insert_bst (e : Int) : ∀ n : Node Int, IsBST n →
    IsBST (n.insert (icmp e) e).1 ∧
    ∀ x ∈ (n.insert (icmp e) e).1.inorder, x ∈ n.inorder ∨ x = e := by
  intro n
  induction n with
  | nil =>
    intro _
    constructor
    · simp [Node.insert, IsBST, Node.inorder]
    · intro x hx
      simp [Node.insert, Node.inorder] at hx
      simp [hx]
  | node se l r c ihl ihr =>
    intro hb
    obtain ⟨hbl, hbr, bl, br⟩ := hb
    rw [insert_node_eq]
    by_cases h0 : icmp e se = 0
    · have he : e = se := by simp [icmp] at h0; omega
      simp only [h0, if_pos]
      constructor
      · apply isBST_of_inorder_eq (insFix_inorder _)
        subst he
        exact ⟨hbl, hbr, bl, br⟩
      · intro x hx
        rw [insFix_inorder] at hx
        simp only [inorder_node] at hx ⊢
        rcases List.mem_append.mp hx with h | h
        · exact Or.inl (List.mem_append.mpr (Or.inl h))
        · rcases List.mem_cons.mp h with h | h
          · exact Or.inr h
          · exact Or.inl (List.mem_append.mpr (Or.inr (List.mem_cons.mpr (Or.inr h))))
    · by_cases h1 : icmp e se < 0
      · have he : e < se := by simp [icmp] at h1; omega
        simp only [h0, if_neg, h1, if_pos, not_false_iff]
        obtain ⟨ihb, ihm⟩ := ihl bl
        constructor
        · apply isBST_of_inorder_eq (insFix_inorder _)
          refine ⟨?_, hbr, ihb, br⟩
          intro x hx
          rcases ihm x hx with h | h
          · exact hbl x h
          · omega
        · intro x hx
          rw [insFix_inorder] at hx
          simp only [inorder_node] at hx ⊢
          rcases List.mem_append.mp hx with h | h
          · rcases ihm x h with h2 | h2
            · exact Or.inl (List.mem_append.mpr (Or.inl h2))
            · exact Or.inr h2
          · exact Or.inl (List.mem_append.mpr (Or.inr h))
      · have he : se < e := by simp [icmp] at h0 h1; omega
        simp only [h0, if_neg, h1, not_false_iff]
        obtain ⟨ihb, ihm⟩ := ihr br
        constructor
        · apply isBST_of_inorder_eq (insFix_inorder _)
          refine ⟨hbl, ?_, bl, ihb⟩
          intro x hx
          rcases ihm x hx with h | h
          · exact hbr x h
          · omega
        · intro x hx
          rw [insFix_inorder] at hx
          simp only [inorder_node] at hx ⊢
          rcases List.mem_append.mp hx with h | h
          · exact Or.inl (List.mem_append.mpr (Or.inl h))
          · rcases List.mem_cons.mp h with h | h
            · exact Or.inl (List.mem_append.mpr (Or.inr (List.mem_cons.mpr (Or.inl h))))
            · rcases ihm x h with h2 | h2
              · exact Or.inl (List.mem_append.mpr (Or.inr (List.mem_cons.mpr (Or.inr h2))))
              · exact Or.inr h2

end Llrb

namespace Llrb

/-- Almost-`RedsOK`: the only permitted violation is a red root with a
red left child (the left-leaning 4-node `insert` can hand to its
caller). -/
def ARedsOK (n : Node α) : Prop :=
  RedsOK n ∨
    (n.color = Red ∧ n.left.color = Red ∧ n.left.left.color = Black ∧
      n.right.color = Black ∧ RedsOK n.left ∧ RedsOK n.right)

theorem color_black_of_not_red {c : Color} (h : ¬ c = Red) : c = Black := by
  cases c
  · exact absurd rfl h
  · rfl

theorem rotateLeft_node (e re : α) (l rl rr : Node α) (rc c : Color) :
    (Node.node e l (Node.node re rl rr rc) c).rotateLeft
      = Node.node re (Node.node e l rl Red) rr c := rfl

theorem rotateRight_node (e le : α) (ll lr r : Node α) (lc c : Color) :
    (Node.node e (Node.node le ll lr lc) r c).rotateRight
      = Node.node le ll (Node.node e lr r Red) c := rfl

theorem flipColors_node (e le re : α) (ll lr rl rr : Node α) (lc rc c : Color) :
    (Node.node e (Node.node le ll lr lc) (Node.node re rl rr rc) c).flipColors
      = Node.node e (Node.node le ll lr (!lc)) (Node.node re rl rr (!rc)) (!c) := rfl

theorem ne_nil_of_red {n : Node α} (h : n.color = Red) : ∃ e l r, n = .node e l r Red := by
  cases n with
  | nil => simp [Red, Black] at h
  | node e l r c =>
    simp at h
    exact ⟨e, l, r, by rw [h]⟩

/-- Recolouring the root keeps `RedsOK` when the new colour is black. -/
theorem redsOK_recolor_black {e : α} {l r : Node α} {c : Color}
    (h : RedsOK (Node.node e l r c)) : RedsOK (Node.node e l r Black) := by
  obtain ⟨_, hl, hr⟩ := h
  exact ⟨by intro hc; simp [Red, Black] at hc, hl, hr⟩

theorem noRR_recolor {e : α} {l r : Node α} {c c' : Color}
    (h : NoRR (Node.node e l r c)) : NoRR (Node.node e l r c') := h

end Llrb

namespace Llrb

@[simp] theorem black_eq_red_iff : (Black = Red) ↔ False := by
  simp [Red, Black]

@[simp] theorem red_eq_black_iff : (Red = Black) ↔ False := by
  simp [Red, Black]

@[simp] theorem not_red : (!Red) = Black := rfl

@[simp] theorem not_black : (!Black) = Red := rfl

/-- Behaviour of the `insert` fix chain when the left child was rebuilt:
shape, balance and colouring of the result. -/
theorem insFix_left (se : α) (l' r : Node α) (c : Color) (hh : Nat)
    (hNl : NoRR l') (hBl : Bal l' hh) (hAl : ARedsOK l')
    (hNr : NoRR r) (hRr : RedsOK r) (hBr : Bal r hh) (hrb : r.color = Black)
    (hcr : c = Red → RedsOK l') :
    NoRR (insFix (Node.node se l' r c)) ∧
    Bal (insFix (Node.node se l' r c)) (hh + (if c = Black then 1 else 0)) ∧
    (insFix (Node.node se l' r c)).isNil = false ∧
    ARedsOK (insFix (Node.node se l' r c)) ∧
    (c = Black → RedsOK (insFix (Node.node se l' r c))) := by
  by_cases hred : l'.color = Red ∧ l'.left.color = Red
  · have hRl' : RedsOK l' → False := by
      intro hR
      cases l' with
      | nil => simp at hred
      | node l'e l'l l'r l'c =>
        simp at hred
        obtain ⟨hc1, hc2⟩ := hred
        have := (hR.1 hc1).1
        simp at this
        rw [hc2] at this
        simp at this
    have hA : l'.color = Red ∧ l'.left.color = Red ∧ l'.left.left.color = Black ∧
        l'.right.color = Black ∧ RedsOK l'.left ∧ RedsOK l'.right := by
      rcases hAl with h | h
      · exact absurd h (fun hx => hRl' hx)
      · exact h
    have hcB : c = Black := color_black_of_not_red (fun hc => hRl' (hcr hc))
    subst hcB
    obtain ⟨l'e, l'l, l'r, hl'⟩ := ne_nil_of_red hred.1
    subst hl'
    simp only [left_node, right_node] at hA hred
    obtain ⟨u, ul, ur, hll⟩ := ne_nil_of_red hred.2
    subst hll
    have hm : insFix (Node.node se (Node.node l'e (Node.node u ul ur Red) l'r Red) r Black)
        = Node.node l'e (Node.node u ul ur Black) (Node.node se l'r r Black) Red := by
      rw [insFix]
      simp [hrb, rotateRight_node, flipColors_node]
    rw [hm]
    obtain ⟨hrb2, himp, hNll, hNlr⟩ := hNl
    simp only [left_node, right_node] at hA hrb2
    obtain ⟨hllc, hllred, hlllb, hl'rb, hRll, hRlr⟩ := hA
    obtain ⟨hh2, hBll, hBlr, he2⟩ := hBl
    obtain ⟨hh3, hBul, hBur, he3⟩ := hBll
    simp only [red_eq_black_iff, if_false] at he2 he3
    obtain ⟨hNull, hNur⟩ := hNll.2.2
    have hBul2 : Bal ul hh := by rwa [show hh = hh3 by omega]
    have hBur2 : Bal ur hh := by rwa [show hh = hh3 by omega]
    have hBlr2 : Bal l'r hh := by rwa [show hh = hh2 by omega]
    refine ⟨?_, ?_, rfl, ?_, ?_⟩
    · refine ⟨rfl, by intro h; simp at h, ⟨hNll.1, hNll.2.1, hNull, hNur⟩, ?_⟩
      refine ⟨hrb, ?_, hNlr, hNr⟩
      intro h
      rw [h] at hl'rb
      simp at hl'rb
    · refine ⟨hh + 1, ⟨hh, hBul2, hBur2, by simp⟩, ⟨hh, hBlr2, hBr, by simp⟩, by simp⟩
    · left
      refine ⟨by intro _; exact ⟨rfl, rfl⟩, ⟨by intro h; simp at h, hRll.2.1, hRll.2.2⟩, ?_⟩
      exact ⟨by intro h; simp at h, hRlr, hRr⟩
    · intro _
      refine ⟨by intro _; exact ⟨rfl, rfl⟩, ⟨by intro h; simp at h, hRll.2.1, hRll.2.2⟩, ?_⟩
      exact ⟨by intro h; simp at h, hRlr, hRr⟩
  · have hm : insFix (Node.node se l' r c) = Node.node se l' r c := by
      rw [insFix]
      simp [hrb, hred]
    rw [hm]
    have hRl' : RedsOK l' := by
      rcases hAl with h | h
      · exact h
      · exact absurd ⟨h.1, h.2.1⟩ hred
    have himp : l'.color = Red → l'.left.color = Black := by
      intro h
      by_cases h2 : l'.left.color = Red
      · exact absurd ⟨h, h2⟩ hred
      · exact color_black_of_not_red h2
    refine ⟨⟨hrb, himp, hNl, hNr⟩, ⟨hh, hBl, hBr, rfl⟩, rfl, ?_, ?_⟩
    · by_cases hc : c = Red
      · by_cases hl : l'.color = Red
        · right
          exact ⟨by simpa using hc, by simpa using hl,
            by simpa using himp hl, by simpa using hrb, hRl', hRr⟩
        · left
          exact ⟨fun _ => ⟨color_black_of_not_red hl, hrb⟩, hRl', hRr⟩
      · left
        exact ⟨fun h => absurd h hc, hRl', hRr⟩
    · intro hc
      subst hc
      exact ⟨by intro h; simp at h, hRl', hRr⟩

end Llrb

namespace Llrb

/-- The fix chain is the identity when the right child is black and the
left child is not a red node with a red left child. -/
theorem insFix_id {se : α} {l r : Node α} {c : Color} (h1 : r.color = Black)
    (h2 : ¬ (l.color = Red ∧ l.left.color = Red)) :
    insFix (Node.node se l r c) = Node.node se l r c := by
  rw [insFix]
  simp only [right_node, left_node]
  have hc1 : ¬ (r.color = Red ∧ l.color = Black) := by rw [h1]; simp
  simp only [if_neg hc1, left_node, right_node]
  simp only [if_neg h2]
  simp only [left_node, right_node]
  have hc3 : ¬ (l.color = Red ∧ r.color = Red) := by rw [h1]; simp
  simp only [if_neg hc3]

/-- Behaviour of the `insert` fix chain when the right child was
rebuilt. -/
theorem insFix_right (se : α) (l r' : Node α) (c : Color) (hh : Nat)
    (hNl : NoRR l) (hRl : RedsOK l) (hBl : Bal l hh)
    (hll : l.color = Red → l.left.color = Black)
    (hNr : NoRR r') (hRr : RedsOK r') (hBr : Bal r' hh)
    (hcl : c = Red → l.color = Black) :
    NoRR (insFix (Node.node se l r' c)) ∧
    Bal (insFix (Node.node se l r' c)) (hh + (if c = Black then 1 else 0)) ∧
    (insFix (Node.node se l r' c)).isNil = false ∧
    ARedsOK (insFix (Node.node se l r' c)) ∧
    (c = Black → RedsOK (insFix (Node.node se l r' c))) := by
  by_cases hr : r'.color = Red
  · obtain ⟨r'e, r'l, r'r, hr'⟩ := ne_nil_of_red hr
    subst hr'
    obtain ⟨hrc, hRrl, hRrr⟩ := hRr
    obtain ⟨hrlb, hrrb⟩ := hrc rfl
    obtain ⟨hNrr1, hNrimp, hNrl, hNrr⟩ := hNr
    obtain ⟨hh2, hBrl, hBrr, he2⟩ := hBr
    simp only [red_eq_black_iff, if_false] at he2
    have hBrl2 : Bal r'l hh := by rwa [show hh = hh2 by omega]
    have hBrr2 : Bal r'r hh := by rwa [show hh = hh2 by omega]
    by_cases hl : l.color = Red
    · have hcB : c = Black := color_black_of_not_red (fun hc => by
        have := hcl hc
        rw [hl] at this
        simp at this)
      subst hcB
      obtain ⟨le, ll, lr, hle⟩ := ne_nil_of_red hl
      subst hle
      obtain ⟨hlc, hRll, hRlr⟩ := hRl
      obtain ⟨hllb, hlrb⟩ := hlc rfl
      obtain ⟨hNl1, hNlimp, hNll, hNlr⟩ := hNl
      obtain ⟨hh3, hBll, hBlr, he3⟩ := hBl
      simp only [red_eq_black_iff, if_false] at he3
      have hBll2 : Bal ll hh := by rwa [show hh = hh3 by omega]
      have hBlr2 : Bal lr hh := by rwa [show hh = hh3 by omega]
      have hm : insFix (Node.node se (Node.node le ll lr Red) (Node.node r'e r'l r'r Red) Black)
          = Node.node se (Node.node le ll lr Black) (Node.node r'e r'l r'r Black) Red := by
        rw [insFix]
        simp [hllb, flipColors_node]
      rw [hm]
      refine ⟨?_, ?_, rfl, ?_, ?_⟩
      · exact ⟨rfl, by intro h; simp at h, ⟨hNl1, hNlimp, hNll, hNlr⟩,
          ⟨hNrr1, hNrimp, hNrl, hNrr⟩⟩
      · exact ⟨hh + 1, ⟨hh, hBll2, hBlr2, by simp⟩, ⟨hh, hBrl2, hBrr2, by simp⟩, by simp⟩
      · left
        exact ⟨by intro _; exact ⟨rfl, rfl⟩, ⟨by intro h; simp at h, hRll, hRlr⟩,
          ⟨by intro h; simp at h, hRrl, hRrr⟩⟩
      · intro _
        exact ⟨by intro _; exact ⟨rfl, rfl⟩, ⟨by intro h; simp at h, hRll, hRlr⟩,
          ⟨by intro h; simp at h, hRrl, hRrr⟩⟩
    · have hlb : l.color = Black := color_black_of_not_red hl
      have hm : insFix (Node.node se l (Node.node r'e r'l r'r Red) c)
          = Node.node r'e (Node.node se l r'l Red) r'r c := by
        rw [insFix]
        simp [hlb, hrlb, hrrb, rotateLeft_node]
      rw [hm]
      refine ⟨?_, ?_, rfl, ?_, ?_⟩
      · exact ⟨hrrb, by intro _; simpa using hlb,
          ⟨hrlb, fun h => absurd h (by rw [hlb]; simp), hNl, hNrl⟩, hNrr⟩
      · exact ⟨hh, ⟨hh, hBl, hBrl2, by simp⟩, hBrr2, rfl⟩
      · by_cases hc : c = Red
        · right
          refine ⟨by simpa using hc, by simp, by simpa using hlb, by simpa using hrrb, ?_, hRrr⟩
          exact ⟨by intro _; exact ⟨hlb, hrlb⟩, hRl, hRrl⟩
        · left
          refine ⟨fun h => absurd h hc, ?_, hRrr⟩
          exact ⟨by intro _; exact ⟨hlb, hrlb⟩, hRl, hRrl⟩
      · intro hc
        subst hc
        refine ⟨by intro h; simp at h, ?_, hRrr⟩
        exact ⟨by intro _; exact ⟨hlb, hrlb⟩, hRl, hRrl⟩
  · have hrb : r'.color = Black := color_black_of_not_red hr
    have hm : insFix (Node.node se l r' c) = Node.node se l r' c :=
      insFix_id hrb (by
        intro hcon
        have := hll hcon.1
        rw [this] at hcon
        simp at hcon)
    rw [hm]
    refine ⟨⟨hrb, hll, hNl, hNr⟩, ⟨hh, hBl, hBr, rfl⟩, rfl, ?_, ?_⟩
    · left
      exact ⟨fun h => ⟨hcl h, hrb⟩, hRl, hRr⟩
    · intro _
      exact ⟨fun h => ⟨hcl h, hrb⟩, hRl, hRr⟩

end Llrb

namespace Llrb

/-- Shape, balance and colouring of `insert`'s result. -/
theorem insert_struct (ce : α → Int) (e : α) : ∀ (n : Node α) (h : Nat),
    NoRR n → RedsOK n → Bal n h →
    NoRR (n.insert ce e).1 ∧ Bal (n.insert ce e).1 h ∧
    (n.insert ce e).1.isNil = false ∧ ARedsOK (n.insert ce e).1 ∧
    (n.color = Black → RedsOK (n.insert ce e).1) := by
  intro n
  induction n with
  | nil =>
    intro h _ _ hB
    simp only [Bal_nil] at hB
    subst hB
    rw [Node.insert]
    refine ⟨⟨rfl, by intro h; simp at h, trivial, trivial⟩,
      ⟨0, rfl, rfl, by simp⟩, rfl, ?_, ?_⟩
    · left
      exact ⟨by intro _; exact ⟨rfl, rfl⟩, trivial, trivial⟩
    · intro _
      exact ⟨by intro _; exact ⟨rfl, rfl⟩, trivial, trivial⟩
  | node se l r c ihl ihr =>
    intro h hN hR hB
    obtain ⟨hrb, hlimp, hNl, hNr⟩ := hN
    obtain ⟨hcred, hRl, hRr⟩ := hR
    obtain ⟨hh, hBl, hBr, hhe⟩ := hB
    subst hhe
    rw [insert_node_eq]
    by_cases h0 : ce se = 0
    · simp only [h0, if_pos]
      exact insFix_left e l r c hh hNl hBl (Or.inl hRl) hNr hRr hBr hrb
        (fun _ => hRl)
    · by_cases h1 : ce se < 0
      · simp only [h0, if_neg, h1, if_pos, not_false_iff]
        obtain ⟨iN, iB, iNil, iA, iRed⟩ := ihl hh hNl hRl hBl
        exact insFix_left se (l.insert ce e).1 r c hh iN iB iA hNr hRr hBr hrb
          (fun hc => iRed ((hcred hc).1))
      · simp only [h0, if_neg, h1, not_false_iff]
        obtain ⟨iN, iB, iNil, iA, iRed⟩ := ihr hh hNr hRr hBr
        have iR : RedsOK (r.insert ce e).1 := iRed hrb
        exact insFix_right se l (r.insert ce e).1 c hh hNl hRl hBl hlimp iN iR iB
          (fun hc => (hcred hc).1)

/-- `blacken` turns the root black, keeping shape and making some black
height work. -/
theorem blacken_preserves {n : Node α} {h : Nat} (hN : NoRR n) (hA : ARedsOK n)
    (hB : Bal n h) :
    NoRR n.blacken ∧ RedsOK n.blacken ∧ n.blacken.color = Black ∧ ∃ h2, Bal n.blacken h2 := by
  cases n with
  | nil => exact ⟨trivial, trivial, rfl, 0, rfl⟩
  | node e l r c =>
    obtain ⟨hh, hBl, hBr, hhe⟩ := hB
    refine ⟨hN, ?_, rfl, hh + 1, hh, hBl, hBr, by simp⟩
    rcases hA with hA | hA
    · exact redsOK_recolor_black hA
    · exact ⟨by intro hx; simp [Black, Red] at hx, hA.2.2.2.2.1, hA.2.2.2.2.2⟩

/-- The full tree-level invariant of the claim. -/
def Inv (t : Tree Int) : Prop :=
  IsBST t.Root ∧ NoRR t.Root ∧ RedsOK t.Root ∧ t.Root.color = Black ∧ ∃ h, Bal t.Root h

/-- `Tree.Insert` preserves the invariant. -/
theorem Insert_inv (t : Tree Int) (e : Int) (hI : Inv t) :
    Inv (t.Insert (icmp e) e) := by
  obtain ⟨hBst, hN, hR, hc, h, hB⟩ := hI
  obtain ⟨iN, iB, iNil, iA, iRed⟩ := insert_struct (icmp e) e t.Root h hN hR hB
  obtain ⟨bN, bR, bc, bB⟩ := blacken_preserves iN iA iB
  refine ⟨?_, bN, bR, bc, bB⟩
  apply isBST_of_inorder_eq (inorder_blacken _)
  exact (insert_bst e t.Root hBst).1

end Llrb

namespace Llrb

@[simp] theorem withLeft_node {e : α} {l r x : Node α} {c : Color} :
    (Node.node e l r c).withLeft x = Node.node e x r c := rfl

@[simp] theorem withRight_node {e : α} {l r x : Node α} {c : Color} :
    (Node.node e l r c).withRight x = Node.node e l x c := rfl

@[simp] theorem withElem_node {e x : α} {l r : Node α} {c : Color} :
    (Node.node e l r c).withElem x = Node.node x l r c := rfl

@[simp] theorem elemOr_node {e d : α} {l r : Node α} {c : Color} :
    (Node.node e l r c).elemOr d = e := rfl

@[simp] theorem isNil_node {e : α} {l r : Node α} {c : Color} :
    (Node.node e l r c).isNil = false := rfl

@[simp] theorem isNil_nil : (Node.nil : Node α).isNil = true := rfl

@[simp] theorem inorder_nil_any : (Node.nil : Node α).inorder = [] := rfl

@[simp] theorem inorder_node_any {e : α} {l r : Node α} {c : Color} :
    (Node.node e l r c).inorder = l.inorder ++ e :: r.inorder := rfl

/-- `fixUp` is the identity when nothing is to fix. -/
theorem fixUp_id {se : α} {l r : Node α} {c : Color} (h1 : r.color = Black)
    (h2 : ¬ (l.color = Red ∧ l.left.color = Red)) :
    (Node.node se l r c).fixUp = Node.node se l r c := by
  rw [Node.fixUp]
  have hc1 : ¬ ((Node.node se l r c).right.color = Red) := by
    simp [h1]
  simp only [if_neg hc1]
  have hc2 : ¬ ((Node.node se l r c).left.color = Red ∧
      (Node.node se l r c).left.left.color = Red) := by
    simpa using h2
  simp only [if_neg hc2]
  have hc3 : ¬ ((Node.node se l r c).left.color = Red ∧
      (Node.node se l r c).right.color = Red) := by
    simp [h1]
  simp only [if_neg hc3]

/-- `fixUp` on a red right child whose sibling and inner right child are
black: a single left rotation. -/
theorem fixUp_rotL {x y : α} {l a b : Node α} {c : Color}
    (hl : l.color = Black) (hb : b.color = Black) :
    (Node.node x l (Node.node y a b Red) c).fixUp
      = Node.node y (Node.node x l a Red) b c := by
  rw [Node.fixUp]
  have hc1 : (Node.node x l (Node.node y a b Red) c).right.color = Red := rfl
  simp only [if_pos hc1, rotateLeft_node]
  have hc2 : ¬ ((Node.node y (Node.node x l a Red) b c).left.color = Red ∧
      (Node.node y (Node.node x l a Red) b c).left.left.color = Red) := by
    simp [hl]
  simp only [if_neg hc2]
  have hc3 : ¬ ((Node.node y (Node.node x l a Red) b c).left.color = Red ∧
      (Node.node y (Node.node x l a Red) b c).right.color = Red) := by
    simp [hb]
  simp only [if_neg hc3]

/-- `fixUp` when both children are red: rotate left, rotate right and
color-flip, yielding black children and a toggled root. -/
theorem fixUp_two_red {x y lx : α} {la lb a b : Node α} {c : Color} :
    (Node.node x (Node.node lx la lb Red) (Node.node y a b Red) c).fixUp
      = Node.node x (Node.node lx la lb Black) (Node.node y a b Black) (!c) := by
  rw [Node.fixUp]
  have hc1 : (Node.node x (Node.node lx la lb Red) (Node.node y a b Red) c).right.color
      = Red := rfl
  simp only [if_pos hc1, rotateLeft_node]
  have hc2 : ((Node.node y (Node.node x (Node.node lx la lb Red) a Red) b c).left.color = Red ∧
      (Node.node y (Node.node x (Node.node lx la lb Red) a Red) b c).left.left.color = Red) :=
    ⟨rfl, rfl⟩
  simp only [if_pos hc2, rotateRight_node]
  have hc3 : ((Node.node x (Node.node lx la lb Red) (Node.node y a b Red) c).left.color = Red ∧
      (Node.node x (Node.node lx la lb Red) (Node.node y a b Red) c).right.color = Red) :=
    ⟨rfl, rfl⟩
  simp only [if_pos hc3, flipColors_node, not_red]

/-- `moveRedLeft` when the right child's left child is black: just the
color flip. -/
theorem mrl_black {se le re : α} {ll lr rl rr : Node α} {lc rc c : Color}
    (h : rl.color = Black) :
    (Node.node se (Node.node le ll lr lc) (Node.node re rl rr rc) c).moveRedLeft
      = Node.node se (Node.node le ll lr (!lc)) (Node.node re rl rr (!rc)) (!c) := by
  rw [Node.moveRedLeft, flipColors_node]
  have hc : ¬ ((Node.node se (Node.node le ll lr (!lc)) (Node.node re rl rr (!rc))
      (!c)).right.left.color = Red) := by
    simp [h]
  simp only [if_neg hc]

/-- `moveRedLeft` when the right child's left child is red: flip, borrow
from the sibling by a double rotation, flip back. -/
theorem mrl_red {se le re rle : α} {ll lr rll rlr rr : Node α} {lc rc c : Color} :
    (Node.node se (Node.node le ll lr lc)
        (Node.node re (Node.node rle rll rlr Red) rr rc) c).moveRedLeft
      = Node.node rle (Node.node se (Node.node le ll lr (!lc)) rll Black)
          (Node.node re rlr rr Black) c := by
  rw [Node.moveRedLeft, flipColors_node]
  have hc : ((Node.node se (Node.node le ll lr (!lc))
      (Node.node re (Node.node rle rll rlr Red) rr (!rc)) (!c)).right.left.color = Red) := rfl
  simp only [if_pos hc, withRight_node, right_node]
  rw [rotateRight_node, rotateLeft_node, flipColors_node]
  simp

/-- `moveRedRight` when the left child's left child is black: just the
color flip. -/
theorem mrr_black {se le re : α} {ll lr rl rr : Node α} {lc rc c : Color}
    (h : ll.color = Black) :
    (Node.node se (Node.node le ll lr lc) (Node.node re rl rr rc) c).moveRedRight
      = Node.node se (Node.node le ll lr (!lc)) (Node.node re rl rr (!rc)) (!c) := by
  rw [Node.moveRedRight, flipColors_node]
  have hc : ¬ ((Node.node se (Node.node le ll lr (!lc)) (Node.node re rl rr (!rc))
      (!c)).left.left.color = Red) := by
    simp [h]
  simp only [if_neg hc]

/-- `moveRedRight` when the left child's left child is red: flip, rotate
right, flip back. -/
theorem mrr_red {se le lle re : α} {lll llr lr rl rr : Node α} {lc rc c : Color} :
    (Node.node se (Node.node le (Node.node lle lll llr Red) lr lc)
        (Node.node re rl rr rc) c).moveRedRight
      = Node.node le (Node.node lle lll llr Black)
          (Node.node se lr (Node.node re rl rr (!rc)) Black) c := by
  rw [Node.moveRedRight, flipColors_node]
  have hc : ((Node.node se (Node.node le (Node.node lle lll llr Red) lr (!lc))
      (Node.node re rl rr (!rc)) (!c)).left.left.color = Red) := rfl
  simp only [if_pos hc]
  rw [rotateRight_node, flipColors_node]
  simp

/-- Dropping the head distributes over an append with a nonempty prefix. -/
theorem drop_one_append {γ : Type} {xs ys : List γ} (h : xs ≠ []) :
    (xs ++ ys).drop 1 = xs.drop 1 ++ ys := by
  cases xs with
  | nil => exact absurd rfl h
  | cons a as => simp

/-- A non-nil subtree has a nonempty in-order list. -/
theorem inorder_ne_nil {n : Node α} (h : n.isNil = false) : n.inorder ≠ [] := by
  cases n with
  | nil => simp at h
  | node e l r c => simp

/-- The element of `minN` heads the in-order list. -/
theorem minN_cons (d : α) : ∀ n : Node α, n.isNil = false →
    n.minN.elemOr d :: n.inorder.drop 1 = n.inorder := by
  intro n
  induction n with
  | nil => intro h; simp at h
  | node se l r c ihl ihr =>
    intro _
    rw [Node.minN]
    by_cases hl : l.isNil
    · have : l = .nil := by cases l; rfl; simp at hl
      subst this
      simp
    · simp only [hl, if_neg, Bool.false_eq_true, not_false_iff]
      have hl2 : l.isNil = false := by simp [Bool.not_eq_true] at hl; exact hl
      have hne := inorder_ne_nil hl2
      rw [inorder_node_any, drop_one_append hne, ← List.cons_append, ihl hl2]

theorem redsOK_red_left {n : Node α} (h : RedsOK n) (hc : n.color = Red) :
    n.left.color = Black := by
  cases n with
  | nil => simp
  | node e l r c => exact ((h.1 hc).1)

theorem redsOK_red_right {n : Node α} (h : RedsOK n) (hc : n.color = Red) :
    n.right.color = Black := by
  cases n with
  | nil => simp
  | node e l r c => exact ((h.1 hc).2)

end Llrb

namespace Llrb

/-- Structure of `deleteMin` below a node that is red or has a red left
child: the minimum is removed, all shape invariants survive, the black
height is unchanged, and the result is red only if the input was. -/
theorem deleteMinA_spec : ∀ (fuel : Nat) (n : Node α) (h : Nat),
    n.size ≤ fuel → NoRR n → RedsOK n → Bal n h →
    (n.color = Red ∨ n.left.color = Red) →
    (Node.deleteMinA fuel n).1.inorder = n.inorder.drop 1 ∧
    NoRR (Node.deleteMinA fuel n).1 ∧ RedsOK (Node.deleteMinA fuel n).1 ∧
    Bal (Node.deleteMinA fuel n).1 h ∧
    ((Node.deleteMinA fuel n).1.color = Red → n.color = Red) := by
  intro fuel
  induction fuel with
  | zero =>
    intro n h hs hN hR hB hP
    cases n with
    | nil => rcases hP with hP | hP <;> simp at hP
    | node se l r c => simp at hs
  | succ fuel ih =>
    intro n h hs hN hR hB hP
    cases n with
    | nil => rcases hP with hP | hP <;> simp at hP
    | node se l r c =>
      obtain ⟨hrb, himp, hNl, hNr⟩ := hN
      obtain ⟨hcred, hRl, hRr⟩ := hR
      obtain ⟨hh, hBl, hBr, hhe⟩ := hB
      rw [Node.deleteMinA]
      by_cases hl : l.isNil = true
      · -- left child nil: the node is a red singleton and vanishes
        have hle : l = .nil := by
          cases l
          · rfl
          · simp at hl
        subst hle
        have hh0 : hh = 0 := by simpa using hBl
        subst hh0
        have hre : r = .nil := bal_nil_of_zero hNr hBr hrb
        subst hre
        have hcr : c = Red := by
          rcases hP with hP | hP
          · simpa using hP
          · simp at hP
        subst hcr
        simp only [isNil_nil, if_pos]
        refine ⟨by simp, trivial, trivial, ?_, ?_⟩
        · simp only [red_eq_black_iff, if_false] at hhe
          simpa using hhe
        · intro hx
          simp at hx
      · by_cases hbb : l.color = Black ∧ l.left.color = Black
        · -- moveRedLeft branch; the root must be red
          have hcr : c = Red := by
            rcases hP with hP | hP
            · simpa using hP
            · simp only [left_node] at hP
              rw [hbb.1] at hP
              simp at hP
          subst hcr
          simp only [red_eq_black_iff, if_false] at hhe
          cases l with
          | nil => simp at hl
          | node le ll lr lc =>
          have hlcb : lc = Black := by simpa using hbb.1
          subst hlcb
          obtain ⟨hh2, hBll, hBlr, hhe2⟩ := hBl
          simp only [eq_self_iff_true, if_true] at hhe2
          have hrf : r.isNil = false := ne_nil_of_bal_pos hh hBr (by omega)
          cases r with
          | nil => simp at hrf
          | node re rl rr rc =>
          have hrcb : rc = Black := by simpa using hrb
          subst hrcb
          obtain ⟨hh3, hBrl, hBrr, hhe3⟩ := hBr
          simp only [eq_self_iff_true, if_true] at hhe3
          obtain ⟨hrrB, hrlImp, hNrl, hNrr⟩ := hNr
          obtain ⟨_, hRrl, hRrr⟩ := hRr
          obtain ⟨hlrB, hllImp, hNll, hNlr⟩ := hNl
          obtain ⟨_, hRll, hRlr⟩ := hRl
          have hllb : ll.color = Black := by simpa using hbb.2
          simp only [hl, Bool.false_eq_true, if_false, if_pos hbb]
          by_cases hrl : rl.color = Red
          · -- red inner sibling: moveRedLeft borrows by a double rotation
            obtain ⟨rle, rll, rlr, hrle⟩ := ne_nil_of_red hrl
            subst hrle
            rw [mrl_red]
            simp only [not_black, left_node, withLeft_node]
            obtain ⟨hh4, hBrll, hBrlr, hhe4⟩ := hBrl
            simp only [red_eq_black_iff, if_false] at hhe4
            have hrllb : rll.color = Black := by simpa using hrlImp hrl
            obtain ⟨hrlrB, _, hNrll, hNrlr⟩ := hNrl
            obtain ⟨_, hRrll, hRrlr⟩ := hRrl
            have hA := ih (Node.node se (Node.node le ll lr Red) rll Black) hh
              (by simp at hs ⊢; omega)
              ⟨hrllb, by intro _; simpa using hllb, ⟨hlrB, hllImp, hNll, hNlr⟩, hNrll⟩
              ⟨by intro hx; simp at hx, ⟨fun _ => ⟨hllb, hlrB⟩, hRll, hRlr⟩, hRrll⟩
              ⟨hh2, ⟨hh2, hBll, hBlr, by simp⟩,
                (by rwa [show hh2 = hh4 by omega] : Bal rll hh2), by simp; omega⟩
              (Or.inr (by simp))
            obtain ⟨q1io, q1N, q1R, q1B, q1c⟩ := hA
            set q1 := (Node.deleteMinA fuel
              (Node.node se (Node.node le ll lr Red) rll Black)).1 with hq1def
            have hq1b : q1.color = Black :=
              color_black_of_not_red (fun hx => by have := q1c hx; simp at this)
            have hfix : (Node.node rle q1 (Node.node re rlr rr Black) Red).fixUp
                = Node.node rle q1 (Node.node re rlr rr Black) Red :=
              fixUp_id rfl (by
                intro hx
                rw [hq1b] at hx
                simp at hx)
            rw [hfix]
            refine ⟨?_, ?_, ?_, ?_, fun _ => rfl⟩
            · simp only [inorder_node_any]
              simp only [inorder_node_any] at q1io
              have hne : ll.inorder ++ le :: lr.inorder ≠ [] := by simp
              rw [drop_one_append hne]
              rw [q1io, drop_one_append hne]
              simp only [List.append_assoc, List.cons_append]
            · refine ⟨by simp, ?_, q1N,
                ⟨hrrB, by intro hx; rw [hrlrB] at hx; simp at hx, hNrlr, hNrr⟩⟩
              intro hx
              rw [hq1b] at hx
              simp at hx
            · exact ⟨fun _ => ⟨hq1b, by simp⟩, q1R,
                ⟨by intro hx; simp at hx, hRrlr, hRrr⟩⟩
            · refine ⟨hh, q1B, ⟨hh2, ?_, ?_, by simp; omega⟩, by simp; omega⟩
              · rwa [show hh2 = hh4 by omega]
              · rwa [show hh2 = hh3 by omega]
          · -- black inner sibling: plain flip, recurse on the reddened left
            have hrlb : rl.color = Black := color_black_of_not_red hrl
            rw [mrl_black hrlb]
            simp only [not_black, not_red, left_node, withLeft_node]
            have hA := ih (Node.node le ll lr Red) hh2
              (by simp at hs ⊢; omega)
              ⟨hlrB, hllImp, hNll, hNlr⟩
              ⟨fun _ => ⟨hllb, hlrB⟩, hRll, hRlr⟩
              ⟨hh2, hBll, hBlr, by simp⟩
              (Or.inl rfl)
            obtain ⟨q1io, q1N, q1R, q1B, q1c⟩ := hA
            set q1 := (Node.deleteMinA fuel (Node.node le ll lr Red)).1 with hq1def
            by_cases hq1 : q1.color = Red
            · obtain ⟨q1e, q1l, q1r, hq1e⟩ := ne_nil_of_red hq1
              rw [hq1e] at q1io q1N q1R q1B
              rw [hq1e, fixUp_two_red]
              simp only [not_black]
              obtain ⟨k2, hBq1l, hBq1r, hk2⟩ := q1B
              simp only [red_eq_black_iff, if_false] at hk2
              obtain ⟨hq1cc, hRq1l, hRq1r⟩ := q1R
              obtain ⟨hq1rB, hq1lImp, hNq1l, hNq1r⟩ := q1N
              refine ⟨?_, ?_, ?_, ?_, fun _ => rfl⟩
              · simp only [inorder_node_any]
                simp only [inorder_node_any] at q1io
                have hne : ll.inorder ++ le :: lr.inorder ≠ [] := by simp
                rw [drop_one_append hne, q1io]
              · exact ⟨by simp, by intro hx; simp at hx,
                  ⟨hq1rB, hq1lImp, hNq1l, hNq1r⟩,
                  ⟨hrrB, hrlImp, hNrl, hNrr⟩⟩
              · exact ⟨fun _ => ⟨rfl, rfl⟩,
                  ⟨by intro hx; simp at hx, hRq1l, hRq1r⟩,
                  ⟨by intro hx; simp at hx, hRrl, hRrr⟩⟩
              · refine ⟨hh2 + 1, ⟨k2, hBq1l, hBq1r, by simp; omega⟩,
                  ⟨hh2, (by rwa [show hh2 = hh3 by omega] : Bal rl hh2),
                    (by rwa [show hh2 = hh3 by omega] : Bal rr hh2), by simp⟩,
                  by simp; omega⟩
            · have hq1b : q1.color = Black := color_black_of_not_red hq1
              rw [fixUp_rotL hq1b hrrB]
              refine ⟨?_, ?_, ?_, ?_, ?_⟩
              · simp only [inorder_node_any]
                simp only [inorder_node_any] at q1io
                have hne : ll.inorder ++ le :: lr.inorder ≠ [] := by simp
                rw [drop_one_append hne, q1io]
                simp only [List.append_assoc, List.cons_append]
              · refine ⟨hrrB, by intro _; simpa using hq1b, ?_, hNrr⟩
                exact ⟨hrlb, by intro hx; rw [hq1b] at hx; simp at hx, q1N, hNrl⟩
              · refine ⟨by intro hx; simp at hx, ?_, hRrr⟩
                exact ⟨fun _ => ⟨hq1b, hrlb⟩, q1R, hRrl⟩
              · refine ⟨hh2, ⟨hh2, q1B, (by rwa [show hh2 = hh3 by omega] : Bal rl hh2),
                  by simp⟩, (by rwa [show hh2 = hh3 by omega] : Bal rr hh2), by simp; omega⟩
              · intro hx
                simp at hx
        · -- red on the way down already: recurse straight into the left child
          have hlf : l.isNil = false := by simpa using hl
          have hP3 : l.color = Red ∨ l.left.color = Red := by
            by_cases h1 : l.color = Red
            · exact Or.inl h1
            · by_cases h2 : l.left.color = Red
              · exact Or.inr h2
              · exact absurd ⟨color_black_of_not_red h1, color_black_of_not_red h2⟩ hbb
          have hA := ih l hh (by simp at hs ⊢; omega) hNl hRl hBl hP3
          obtain ⟨q1io, q1N, q1R, q1B, q1c⟩ := hA
          set q1 := (Node.deleteMinA fuel l).1 with hq1def
          simp only [hl, Bool.false_eq_true, if_false, if_neg hbb, withLeft_node]
          have hfix : (Node.node se q1 r c).fixUp = Node.node se q1 r c :=
            fixUp_id hrb (by
              intro hx
              have := redsOK_red_left q1R hx.1
              rw [this] at hx
              simp at hx)
          rw [hfix]
          refine ⟨?_, ?_, ?_, ?_, fun hx => by simpa using hx⟩
          · simp only [inorder_node_any]
            rw [drop_one_append (inorder_ne_nil hlf), q1io]
          · exact ⟨hrb, fun hx => redsOK_red_left q1R hx, q1N, hNr⟩
          · refine ⟨?_, q1R, hRr⟩
            intro hc
            refine ⟨?_, (hcred hc).2⟩
            exact color_black_of_not_red (fun hx => by
              have := q1c hx
              rw [(hcred hc).1] at this
              simp at this)
          · exact ⟨hh, q1B, hBr, hhe⟩

end Llrb

namespace Llrb

/-- Structure of `deleteMax` below a node that either satisfies the
left-leaning invariant and is red or has a red left child, or is the
right-leaning intermediate produced by `moveRedRight` (black root, black
left child, red right child with a black left child). -/
theorem deleteMaxA_spec : ∀ (fuel : Nat) (n : Node α) (h : Nat),
    n.size ≤ fuel → RedsOK n → Bal n h →
    ((NoRR n ∧ (n.color = Red ∨ n.left.color = Red)) ∨
      (n.color = Black ∧ n.left.color = Black ∧ n.right.color = Red ∧
        n.right.left.color = Black ∧ NoRR n.left ∧ NoRR n.right)) →
    (Node.deleteMaxA fuel n).1.inorder.Sublist n.inorder ∧
    NoRR (Node.deleteMaxA fuel n).1 ∧ RedsOK (Node.deleteMaxA fuel n).1 ∧
    Bal (Node.deleteMaxA fuel n).1 h ∧
    ((Node.deleteMaxA fuel n).1.color = Red → n.color = Red) := by
  intro fuel
  induction fuel with
  | zero =>
    intro n h hs hR hB hP
    cases n with
    | nil =>
      rcases hP with ⟨_, hP | hP⟩ | ⟨_, _, hP, _⟩ <;> simp at hP
    | node se l r c => simp at hs
  | succ fuel ih =>
    intro n h hs hR hB hP
    cases n with
    | nil =>
      rcases hP with ⟨_, hP | hP⟩ | ⟨_, _, hP, _⟩ <;> simp at hP
    | node se l r c =>
      obtain ⟨hcred, hRl, hRr⟩ := hR
      obtain ⟨hh, hBl, hBr, hhe⟩ := hB
      rw [Node.deleteMaxA]
      rcases hP with ⟨hN, hP⟩ | ⟨hcb, hlb, hrr, hrlb, hNl, hNr⟩
      · obtain ⟨hrb, himp, hNl, hNr⟩ := hN
        by_cases hlr : l.color = Red
        · -- red left child: lead with a right rotation
          have hcb : c = Black := color_black_of_not_red (fun hx => by
            have := (hcred hx).1
            rw [hlr] at this
            simp at this)
          subst hcb
          simp only [eq_self_iff_true, if_true] at hhe
          obtain ⟨le, ll, lr, hle⟩ := ne_nil_of_red hlr
          subst hle
          have hllb : ll.color = Black := by simpa using himp hlr
          obtain ⟨hlrB, hllImp, hNll, hNlr⟩ := hNl
          obtain ⟨_, hRll, hRlr⟩ := hRl
          obtain ⟨k2, hBll, hBlr, hk2⟩ := hBl
          simp only [red_eq_black_iff, if_false] at hk2
          rw [if_pos (show (¬ (Node.node le ll lr Red).isNil = true) ∧
              (Node.node le ll lr Red).color = Red from ⟨by simp, rfl⟩),
            rotateRight_node]
          simp only [right_node, isNil_node, Bool.false_eq_true, if_false]
          rw [if_neg (show ¬ ((Node.node se lr r Red).color = Black ∧
              (Node.node se lr r Red).left.color = Black) from fun hx => by
            simp at hx)]
          have hA := ih (Node.node se lr r Red) hh
            (by simp at hs ⊢; omega)
            ⟨fun _ => ⟨hlrB, hrb⟩, hRlr, hRr⟩
            ⟨hh, (by rwa [show hh = k2 by omega] : Bal lr hh), hBr, by simp⟩
            (Or.inl ⟨⟨hrb, by intro hx; rw [hlrB] at hx; simp at hx, hNlr, hNr⟩,
              Or.inl rfl⟩)
          obtain ⟨q1su, q1N, q1R, q1B, q1c⟩ := hA
          set q1 := (Node.deleteMaxA fuel (Node.node se lr r Red)).1 with hq1def
          simp only [withRight_node]
          by_cases hq1 : q1.color = Red
          · obtain ⟨q1e, q1l, q1r, hq1e⟩ := ne_nil_of_red hq1
            rw [hq1e] at q1su q1N q1R q1B
            obtain ⟨hq1cc, hRq1l, hRq1r⟩ := q1R
            obtain ⟨hq1lB, hq1rB⟩ := hq1cc rfl
            obtain ⟨hq1rB2, hq1lImp, hNq1l, hNq1r⟩ := q1N
            obtain ⟨kq, hBq1l, hBq1r, hkq⟩ := q1B
            simp only [red_eq_black_iff, if_false] at hkq
            rw [hq1e, fixUp_rotL hllb hq1rB]
            refine ⟨?_, ?_, ?_, ?_, ?_⟩
            · simp only [inorder_node_any] at q1su ⊢
              simp only [List.append_assoc, List.cons_append] at q1su ⊢
              exact (q1su.cons₂ le).append_left ll.inorder
            · refine ⟨hq1rB, by intro _; simpa using hllb, ?_, hNq1r⟩
              exact ⟨hq1lB, by intro hx; rw [hllb] at hx; simp at hx, hNll, hNq1l⟩
            · refine ⟨by intro hx; simp at hx, ?_, hRq1r⟩
              exact ⟨fun _ => ⟨hllb, hq1lB⟩, hRll, hRq1l⟩
            · refine ⟨hh, ⟨hh, (by rwa [show hh = k2 by omega] : Bal ll hh),
                (by rwa [show hh = kq by omega] : Bal q1l hh), by simp⟩,
                (by rwa [show hh = kq by omega] : Bal q1r hh), by simp; omega⟩
            · intro hx
              simp at hx
          · have hq1b : q1.color = Black := color_black_of_not_red hq1
            have hfix : (Node.node le ll q1 Black).fixUp = Node.node le ll q1 Black :=
              fixUp_id hq1b (fun hx => by rw [hllb] at hx; simp at hx)
            rw [hfix]
            refine ⟨?_, ?_, ?_, ?_, ?_⟩
            · simp only [inorder_node_any] at q1su ⊢
              simp only [List.append_assoc, List.cons_append] at q1su ⊢
              exact (q1su.cons₂ le).append_left ll.inorder
            · exact ⟨hq1b, hllImp, hNll, q1N⟩
            · exact ⟨by intro hx; simp at hx, hRll, q1R⟩
            · exact ⟨hh, (by rwa [show hh = k2 by omega] : Bal ll hh), q1B,
                by simp; omega⟩
            · intro hx
              simp at hx
        · -- black left child: the root must be red
          have hlb : l.color = Black := color_black_of_not_red hlr
          have hcr : c = Red := by
            rcases hP with hP | hP
            · simpa using hP
            · simp only [left_node] at hP
              rw [hlb] at hP
              simp at hP
          subst hcr
          simp only [red_eq_black_iff, if_false] at hhe
          rw [if_neg (show ¬ (¬ l.isNil = true ∧ l.color = Red) from fun hx => by
            have := hx.2
            rw [hlb] at this
            simp at this)]
          simp only [right_node, left_node]
          by_cases hrn : r.isNil = true
          · have hre : r = .nil := by
              cases r
              · rfl
              · simp at hrn
            subst hre
            have hh0 : hh = 0 := by simpa using hBr
            subst hh0
            have hle : l = .nil := bal_nil_of_zero hNl hBl hlb
            subst hle
            simp only [isNil_nil, if_pos]
            refine ⟨by simp, trivial, trivial, by simpa using hhe, ?_⟩
            intro hx
            simp at hx
          · have hrf : r.isNil = false := by simpa using hrn
            cases r with
            | nil => simp at hrf
            | node re rl rr rc =>
            have hrcb : rc = Black := by simpa using hrb
            subst hrcb
            obtain ⟨k, hBrl, hBrr, hk⟩ := hBr
            simp only [eq_self_iff_true, if_true] at hk
            obtain ⟨hrrB, hrlImp, hNrl, hNrr⟩ := hNr
            obtain ⟨_, hRrl, hRrr⟩ := hRr
            simp only [hrn, Bool.false_eq_true, if_false]
            by_cases hrl : rl.color = Red
            · -- red inner grandchild: recurse into the right child directly
              rw [if_neg (show ¬ ((Node.node re rl rr Black).color = Black ∧
                  (Node.node re rl rr Black).left.color = Black) from fun hx => by
                have := hx.2
                simp only [left_node] at this
                rw [hrl] at this
                simp at this)]
              have hA := ih (Node.node re rl rr Black) hh
                (by simp at hs ⊢; omega)
                ⟨by intro hx; simp at hx, hRrl, hRrr⟩
                ⟨k, hBrl, hBrr, by simp; omega⟩
                (Or.inl ⟨⟨hrrB, hrlImp, hNrl, hNrr⟩, Or.inr (by simpa using hrl)⟩)
              obtain ⟨q1su, q1N, q1R, q1B, q1c⟩ := hA
              set q1 := (Node.deleteMaxA fuel (Node.node re rl rr Black)).1 with hq1def
              have hq1b : q1.color = Black :=
                color_black_of_not_red (fun hx => by have := q1c hx; simp at this)
              simp only [withRight_node]
              have hfix : (Node.node se l q1 Red).fixUp = Node.node se l q1 Red :=
                fixUp_id hq1b (fun hx => by
                  have := hx.1
                  rw [hlb] at this
                  simp at this)
              rw [hfix]
              refine ⟨?_, ?_, ?_, ?_, fun _ => rfl⟩
              · simp only [inorder_node_any] at q1su ⊢
                exact (q1su.cons₂ se).append_left l.inorder
              · exact ⟨hq1b, by intro hx; rw [hlb] at hx; simp at hx, hNl, q1N⟩
              · exact ⟨fun _ => ⟨hlb, hq1b⟩, hRl, q1R⟩
              · exact ⟨hh, hBl, q1B, by simp; omega⟩
            · -- both black: moveRedRight
              have hrlb : rl.color = Black := color_black_of_not_red hrl
              rw [if_pos (show (Node.node re rl rr Black).color = Black ∧
                  (Node.node re rl rr Black).left.color = Black from
                ⟨rfl, by simpa using hrlb⟩)]
              have hlf : l.isNil = false := by
                cases l with
                | nil =>
                  have h0 : hh = 0 := by simpa using hBl
                  exact ((by omega : False)).elim
                | node le ll lr lc => rfl
              cases l with
              | nil => simp at hlf
              | node le ll lr lc =>
              have hlcb : lc = Black := by simpa using hlb
              subst hlcb
              obtain ⟨k2, hBll, hBlr, hk2⟩ := hBl
              simp only [eq_self_iff_true, if_true] at hk2
              obtain ⟨hlrB, hllImp, hNll, hNlr⟩ := hNl
              obtain ⟨_, hRll, hRlr⟩ := hRl
              by_cases hll : ll.color = Red
              · -- red left grandchild: moveRedRight rotates
                obtain ⟨lle, lll, llr, hlle⟩ := ne_nil_of_red hll
                subst hlle
                rw [mrr_red]
                simp only [not_black, right_node, withRight_node]
                obtain ⟨k3, hBlll, hBllr, hk3⟩ := hBll
                simp only [red_eq_black_iff, if_false] at hk3
                obtain ⟨hllrB, hlllImp, hNlll, hNllr⟩ := hNll
                obtain ⟨_, hRlll, hRllr⟩ := hRll
                have hA := ih (Node.node se lr (Node.node re rl rr Red) Black) hh
                  (by simp at hs ⊢; omega)
                  ⟨by intro hx; simp at hx, hRlr,
                    ⟨fun _ => ⟨hrlb, hrrB⟩, hRrl, hRrr⟩⟩
                  ⟨k2, (by rwa [show k2 = k2 by omega] : Bal lr k2),
                    ⟨k, hBrl, hBrr, by simp; omega⟩, by simp; omega⟩
                  (Or.inr ⟨rfl, by simpa using hlrB, rfl, by simpa using hrlb,
                    hNlr, ⟨hrrB, hrlImp, hNrl, hNrr⟩⟩)
                obtain ⟨q1su, q1N, q1R, q1B, q1c⟩ := hA
                set q1 := (Node.deleteMaxA fuel
                  (Node.node se lr (Node.node re rl rr Red) Black)).1 with hq1def
                have hq1b : q1.color = Black :=
                  color_black_of_not_red (fun hx => by have := q1c hx; simp at this)
                have hfix : (Node.node le (Node.node lle lll llr Black) q1 Red).fixUp
                    = Node.node le (Node.node lle lll llr Black) q1 Red :=
                  fixUp_id hq1b (fun hx => by
                    have := hx.1
                    simp at this)
                rw [hfix]
                refine ⟨?_, ?_, ?_, ?_, fun _ => rfl⟩
                · simp only [inorder_node_any] at q1su ⊢
                  simp only [List.append_assoc, List.cons_append] at q1su ⊢
                  exact ((((q1su.cons₂ le).append_left llr.inorder).cons₂
                    lle).append_left lll.inorder)
                · exact ⟨hq1b, by intro hx; simp at hx,
                    ⟨hllrB, hlllImp, hNlll, hNllr⟩, q1N⟩
                · exact ⟨fun _ => ⟨rfl, hq1b⟩,
                    ⟨by intro hx; simp at hx, hRlll, hRllr⟩, q1R⟩
                · refine ⟨hh, ⟨k3, hBlll, hBllr, by simp; omega⟩, q1B, by simp; omega⟩
              · -- black left grandchild: moveRedRight is only the flip
                have hllB : ll.color = Black := color_black_of_not_red hll
                rw [mrr_black hllB]
                simp only [not_black, not_red, right_node, withRight_node]
                have hA := ih (Node.node re rl rr Red) k
                  (by simp at hs ⊢; omega)
                  ⟨fun _ => ⟨hrlb, hrrB⟩, hRrl, hRrr⟩
                  ⟨k, hBrl, hBrr, by simp⟩
                  (Or.inl ⟨⟨hrrB, hrlImp, hNrl, hNrr⟩, Or.inl rfl⟩)
                obtain ⟨q1su, q1N, q1R, q1B, q1c⟩ := hA
                set q1 := (Node.deleteMaxA fuel (Node.node re rl rr Red)).1 with hq1def
                by_cases hq1 : q1.color = Red
                · obtain ⟨q1e, q1l, q1r, hq1e⟩ := ne_nil_of_red hq1
                  rw [hq1e] at q1su q1N q1R q1B
                  obtain ⟨hq1cc, hRq1l, hRq1r⟩ := q1R
                  obtain ⟨hq1lB, hq1rB⟩ := hq1cc rfl
                  obtain ⟨hq1rB2, hq1lImp, hNq1l, hNq1r⟩ := q1N
                  obtain ⟨kq, hBq1l, hBq1r, hkq⟩ := q1B
                  simp only [red_eq_black_iff, if_false] at hkq
                  rw [hq1e, fixUp_two_red]
                  simp only [not_black]
                  refine ⟨?_, ?_, ?_, ?_, fun _ => rfl⟩
                  · simp only [inorder_node_any] at q1su ⊢
                    simp only [List.append_assoc, List.cons_append] at q1su ⊢
                    exact (((q1su.cons₂ se).append_left lr.inorder).cons₂
                      le).append_left ll.inorder
                  · exact ⟨rfl, by intro hx; simp at hx,
                      ⟨hlrB, hllImp, hNll, hNlr⟩,
                      ⟨hq1rB2, hq1lImp, hNq1l, hNq1r⟩⟩
                  · exact ⟨fun _ => ⟨rfl, rfl⟩,
                      ⟨by intro hx; simp at hx, hRll, hRlr⟩,
                      ⟨by intro hx; simp at hx, hRq1l, hRq1r⟩⟩
                  · refine ⟨hh, ⟨k2, hBll, hBlr, by simp; omega⟩,
                      ⟨kq, hBq1l, hBq1r, by simp; omega⟩, by simp; omega⟩
                · have hq1b : q1.color = Black := color_black_of_not_red hq1
                  have hfix : (Node.node se (Node.node le ll lr Red) q1 Black).fixUp
                      = Node.node se (Node.node le ll lr Red) q1 Black :=
                    fixUp_id hq1b (fun hx => by
                      have := hx.2
                      simp only [left_node] at this
                      rw [hllB] at this
                      simp at this)
                  rw [hfix]
                  refine ⟨?_, ?_, ?_, ?_, ?_⟩
                  · simp only [inorder_node_any] at q1su ⊢
                    simp only [List.append_assoc, List.cons_append] at q1su ⊢
                    exact ((q1su.cons₂ se).append_left lr.inorder).cons₂ le
                      |>.append_left ll.inorder
                  · exact ⟨hq1b, by intro _; simpa using hllB,
                      ⟨hlrB, hllImp, hNll, hNlr⟩, q1N⟩
                  · exact ⟨by intro hx; simp at hx,
                      ⟨fun _ => ⟨hllB, hlrB⟩, hRll, hRlr⟩, q1R⟩
                  · exact ⟨k2, ⟨k2, hBll, hBlr, by simp⟩, (by
                      rwa [show k2 = k by omega] : Bal q1 k2), by simp; omega⟩
                  · intro hx
                    simp at hx
      · -- right-leaning intermediate: black root, red right child
        obtain ⟨re, rl, rr, hre⟩ := ne_nil_of_red (show r.color = Red by simpa using hrr)
        subst hre
        have hccb : c = Black := by simpa using hcb
        subst hccb
        simp only [eq_self_iff_true, if_true] at hhe
        have hlb : l.color = Black := by simpa using hlb
        have hrlb : rl.color = Black := by simpa using hrlb
        replace hNl : NoRR l := hNl
        replace hNr : NoRR (Node.node re rl rr Red) := hNr
        obtain ⟨hrrB, hrlImp, hNrl, hNrr⟩ := hNr
        obtain ⟨_, hRrl, hRrr⟩ := hRr
        obtain ⟨k, hBrl, hBrr, hk⟩ := hBr
        simp only [red_eq_black_iff, if_false] at hk
        rw [if_neg (show ¬ (¬ l.isNil = true ∧ l.color = Red) from fun hx => by
          have := hx.2
          rw [hlb] at this
          simp at this)]
        simp only [right_node, left_node, isNil_node, Bool.false_eq_true, if_false]
        rw [if_neg (show ¬ ((Node.node re rl rr Red).color = Black ∧
            rl.color = Black) from fun hx => by
          have := hx.1
          simp at this)]
        have hA := ih (Node.node re rl rr Red) k
          (by simp at hs ⊢; omega)
          ⟨fun _ => ⟨hrlb, hrrB⟩, hRrl, hRrr⟩
          ⟨k, hBrl, hBrr, by simp⟩
          (Or.inl ⟨⟨hrrB, hrlImp, hNrl, hNrr⟩, Or.inl rfl⟩)
        obtain ⟨q1su, q1N, q1R, q1B, q1c⟩ := hA
        set q1 := (Node.deleteMaxA fuel (Node.node re rl rr Red)).1 with hq1def
        simp only [withRight_node]
        by_cases hq1 : q1.color = Red
        · obtain ⟨q1e, q1l, q1r, hq1e⟩ := ne_nil_of_red hq1
          rw [hq1e] at q1su q1N q1R q1B
          obtain ⟨hq1cc, hRq1l, hRq1r⟩ := q1R
          obtain ⟨hq1lB, hq1rB⟩ := hq1cc rfl
          obtain ⟨hq1rB2, hq1lImp, hNq1l, hNq1r⟩ := q1N
          obtain ⟨kq, hBq1l, hBq1r, hkq⟩ := q1B
          simp only [red_eq_black_iff, if_false] at hkq
          rw [hq1e, fixUp_rotL hlb hq1rB]
          refine ⟨?_, ?_, ?_, ?_, ?_⟩
          · simp only [inorder_node_any] at q1su ⊢
            simp only [List.append_assoc, List.cons_append] at q1su ⊢
            exact (q1su.cons₂ se).append_left l.inorder
          · refine ⟨hq1rB, by intro _; simpa using hlb, ?_, hNq1r⟩
            exact ⟨hq1lB, by intro hx; rw [hlb] at hx; simp at hx, hNl, hNq1l⟩
          · refine ⟨by intro hx; simp at hx, ?_, hRq1r⟩
            exact ⟨fun _ => ⟨hlb, hq1lB⟩, hRl, hRq1l⟩
          · refine ⟨hh, ⟨hh, hBl,
              (by rwa [show hh = kq by omega] : Bal q1l hh), by simp⟩,
              (by rwa [show hh = kq by omega] : Bal q1r hh), by simp; omega⟩
          · intro hx
            simp at hx
        · have hq1b : q1.color = Black := color_black_of_not_red hq1
          have hfix : (Node.node se l q1 Black).fixUp = Node.node se l q1 Black :=
            fixUp_id hq1b (fun hx => by
              have := hx.1
              rw [hlb] at this
              simp at this)
          rw [hfix]
          refine ⟨?_, ?_, ?_, ?_, ?_⟩
          · simp only [inorder_node_any] at q1su ⊢
            exact (q1su.cons₂ se).append_left l.inorder
          · exact ⟨hq1b, by intro hx; rw [hlb] at hx; simp at hx, hNl, q1N⟩
          · exact ⟨by intro hx; simp at hx, hRl, q1R⟩
          · exact ⟨hh, hBl, (by rwa [show hh = k by omega] : Bal q1 hh),
              by simp; omega⟩
          · intro hx
            simp at hx

end Llrb

namespace Llrb

/-- Structure of `delete` below a node that either satisfies the
left-leaning invariant and is red or has a red left child, or is the
right-leaning intermediate produced by `moveRedRight` whose element is
known to be at most the deleted key.  Sorted in-order is carried to rule
out the re-read comparison hitting the rotated-down element. -/
theorem deleteA_spec (e : Int) : ∀ (fuel : Nat) (n : Node Int) (h : Nat),
    n.size ≤ fuel → RedsOK n → Bal n h → n.inorder.Pairwise (· < ·) →
    ((NoRR n ∧ (n.color = Red ∨ n.left.color = Red)) ∨
      (n.color = Black ∧ n.left.color = Black ∧ n.right.color = Red ∧
        n.right.left.color = Black ∧ NoRR n.left ∧ NoRR n.right ∧
        0 ≤ icmp e (n.elemOr 0))) →
    (Node.deleteA (icmp e) fuel n).1.inorder.Sublist n.inorder ∧
    NoRR (Node.deleteA (icmp e) fuel n).1 ∧
    RedsOK (Node.deleteA (icmp e) fuel n).1 ∧
    Bal (Node.deleteA (icmp e) fuel n).1 h ∧
    ((Node.deleteA (icmp e) fuel n).1.color = Red → n.color = Red) := by
  intro fuel
  induction fuel with
  | zero =>
    intro n h hs hR hB hso hP
    cases n with
    | nil =>
      rcases hP with ⟨_, hP | hP⟩ | ⟨_, _, hP, _⟩ <;> simp at hP
    | node se l r c => simp at hs
  | succ fuel ih =>
    intro n h hs hR hB hso hP
    cases n with
    | nil =>
      rcases hP with ⟨_, hP | hP⟩ | ⟨_, _, hP, _⟩ <;> simp at hP
    | node se l r c =>
      obtain ⟨hcred, hRl, hRr⟩ := hR
      obtain ⟨hh, hBl, hBr, hhe⟩ := hB
      rw [Node.deleteA]
      rcases hP with ⟨hN, hP⟩ | ⟨hcb, hlb, hrr, hrlb, hNl, hNr, hguard⟩
      · obtain ⟨hrb, himp, hNl, hNr⟩ := hN
        by_cases hlt : icmp e se < 0
        · -- descend left, mirroring deleteMin
          rw [if_pos hlt]
          by_cases hl : l.isNil = true
          · -- nothing to delete on this side: fixUp is the identity
            have hle : l = .nil := by
              cases l
              · rfl
              · simp at hl
            subst hle
            rw [if_pos (show (Node.nil : Node Int).isNil = true from rfl)]
            have hfix : (Node.node se Node.nil r c).fixUp = Node.node se Node.nil r c :=
              fixUp_id hrb (fun hx => by have := hx.1; simp at this)
            rw [hfix]
            exact ⟨List.Sublist.refl _, ⟨hrb, himp, trivial, hNr⟩,
              ⟨hcred, trivial, hRr⟩, ⟨hh, hBl, hBr, hhe⟩, fun hx => hx⟩
          · by_cases hbb : l.color = Black ∧ l.left.color = Black
            · have hcr : c = Red := by
                rcases hP with hP | hP
                · simpa using hP
                · simp only [left_node] at hP
                  rw [hbb.1] at hP
                  simp at hP
              subst hcr
              simp only [red_eq_black_iff, if_false] at hhe
              cases l with
              | nil => simp at hl
              | node le ll lr lc =>
              have hlcb : lc = Black := by simpa using hbb.1
              subst hlcb
              obtain ⟨hh2, hBll, hBlr, hhe2⟩ := hBl
              simp only [eq_self_iff_true, if_true] at hhe2
              have hrf : r.isNil = false := ne_nil_of_bal_pos hh hBr (by omega)
              cases r with
              | nil => simp at hrf
              | node re rl rr rc =>
              have hrcb : rc = Black := by simpa using hrb
              subst hrcb
              obtain ⟨hh3, hBrl, hBrr, hhe3⟩ := hBr
              simp only [eq_self_iff_true, if_true] at hhe3
              obtain ⟨hrrB, hrlImp, hNrl, hNrr⟩ := hNr
              obtain ⟨_, hRrl, hRrr⟩ := hRr
              obtain ⟨hlrB, hllImp, hNll, hNlr⟩ := hNl
              obtain ⟨_, hRll, hRlr⟩ := hRl
              have hllb : ll.color = Black := by simpa using hbb.2
              simp only [hl, Bool.false_eq_true, if_false, if_pos hbb]
              by_cases hrl : rl.color = Red
              · obtain ⟨rle, rll, rlr, hrle⟩ := ne_nil_of_red hrl
                subst hrle
                rw [mrl_red]
                simp only [not_black, left_node, withLeft_node]
                obtain ⟨hh4, hBrll, hBrlr, hhe4⟩ := hBrl
                simp only [red_eq_black_iff, if_false] at hhe4
                have hrllb : rll.color = Black := by simpa using hrlImp hrl
                obtain ⟨hrlrB, _, hNrll, hNrlr⟩ := hNrl
                obtain ⟨_, hRrll, hRrlr⟩ := hRrl
                have hsubA : (Node.node se (Node.node le ll lr Red) rll Black).inorder.Sublist
                    (Node.node se (Node.node le ll lr Black)
                      (Node.node re (Node.node rle rll rlr Red) rr Black) Red).inorder := by
                  simp only [inorder_node_any, List.append_assoc, List.cons_append]
                  exact ((((List.sublist_append_left rll.inorder _).cons₂
                    se).append_left lr.inorder).cons₂ le).append_left ll.inorder
                have hA := ih (Node.node se (Node.node le ll lr Red) rll Black) hh
                  (by simp at hs ⊢; omega)
                  ⟨by intro hx; simp at hx, ⟨fun _ => ⟨hllb, hlrB⟩, hRll, hRlr⟩, hRrll⟩
                  ⟨hh2, ⟨hh2, hBll, hBlr, by simp⟩,
                    (by rwa [show hh2 = hh4 by omega] : Bal rll hh2), by simp; omega⟩
                  (hso.sublist hsubA)
                  (Or.inl ⟨⟨hrllb, by intro _; simpa using hllb,
                    ⟨hlrB, hllImp, hNll, hNlr⟩, hNrll⟩, Or.inr (by simp)⟩)
                obtain ⟨q1su, q1N, q1R, q1B, q1c⟩ := hA
                set q1 := (Node.deleteA (icmp e) fuel
                  (Node.node se (Node.node le ll lr Red) rll Black)).1 with hq1def
                have hq1b : q1.color = Black :=
                  color_black_of_not_red (fun hx => by have := q1c hx; simp at this)
                have hfix : (Node.node rle q1 (Node.node re rlr rr Black) Red).fixUp
                    = Node.node rle q1 (Node.node re rlr rr Black) Red :=
                  fixUp_id rfl (by
                    intro hx
                    rw [hq1b] at hx
                    simp at hx)
                rw [hfix]
                refine ⟨?_, ?_, ?_, ?_, fun _ => rfl⟩
                · simp only [inorder_node_any, List.append_assoc, List.cons_append]
                    at q1su ⊢
                  simpa only [List.append_assoc, List.cons_append] using
                    q1su.append (List.Sublist.refl
                      (rle :: (rlr.inorder ++ re :: rr.inorder)))
                · refine ⟨by simp, ?_, q1N,
                    ⟨hrrB, by intro hx; rw [hrlrB] at hx; simp at hx, hNrlr, hNrr⟩⟩
                  intro hx
                  rw [hq1b] at hx
                  simp at hx
                · exact ⟨fun _ => ⟨hq1b, by simp⟩, q1R,
                    ⟨by intro hx; simp at hx, hRrlr, hRrr⟩⟩
                · refine ⟨hh, q1B, ⟨hh2, ?_, ?_, by simp; omega⟩, by simp; omega⟩
                  · rwa [show hh2 = hh4 by omega]
                  · rwa [show hh2 = hh3 by omega]
              · have hrlb : rl.color = Black := color_black_of_not_red hrl
                rw [mrl_black hrlb]
                simp only [not_black, not_red, left_node, withLeft_node]
                have hsubA : (Node.node le ll lr Red).inorder.Sublist
                    (Node.node se (Node.node le ll lr Black)
                      (Node.node re rl rr Black) Red).inorder := by
                  simp only [inorder_node_any]
                  exact List.sublist_append_left _ _
                have hA := ih (Node.node le ll lr Red) hh2
                  (by simp at hs ⊢; omega)
                  ⟨fun _ => ⟨hllb, hlrB⟩, hRll, hRlr⟩
                  ⟨hh2, hBll, hBlr, by simp⟩
                  (hso.sublist hsubA)
                  (Or.inl ⟨⟨hlrB, hllImp, hNll, hNlr⟩, Or.inl rfl⟩)
                obtain ⟨q1su, q1N, q1R, q1B, q1c⟩ := hA
                set q1 := (Node.deleteA (icmp e) fuel (Node.node le ll lr Red)).1
                  with hq1def
                by_cases hq1 : q1.color = Red
                · obtain ⟨q1e, q1l, q1r, hq1e⟩ := ne_nil_of_red hq1
                  rw [hq1e] at q1su q1N q1R q1B
                  rw [hq1e, fixUp_two_red]
                  simp only [not_black]
                  obtain ⟨k2, hBq1l, hBq1r, hk2⟩ := q1B
                  simp only [red_eq_black_iff, if_false] at hk2
                  obtain ⟨hq1cc, hRq1l, hRq1r⟩ := q1R
                  obtain ⟨hq1rB, hq1lImp, hNq1l, hNq1r⟩ := q1N
                  refine ⟨?_, ?_, ?_, ?_, fun _ => rfl⟩
                  · simp only [inorder_node_any, List.append_assoc, List.cons_append]
                      at q1su ⊢
                    simpa only [List.append_assoc, List.cons_append] using
                      q1su.append (List.Sublist.refl
                        (se :: (rl.inorder ++ re :: rr.inorder)))
                  · exact ⟨by simp, by intro hx; simp at hx,
                      ⟨hq1rB, hq1lImp, hNq1l, hNq1r⟩,
                      ⟨hrrB, hrlImp, hNrl, hNrr⟩⟩
                  · exact ⟨fun _ => ⟨rfl, rfl⟩,
                      ⟨by intro hx; simp at hx, hRq1l, hRq1r⟩,
                      ⟨by intro hx; simp at hx, hRrl, hRrr⟩⟩
                  · refine ⟨hh2 + 1, ⟨k2, hBq1l, hBq1r, by simp; omega⟩,
                      ⟨hh2, (by rwa [show hh2 = hh3 by omega] : Bal rl hh2),
                        (by rwa [show hh2 = hh3 by omega] : Bal rr hh2), by simp⟩,
                      by simp; omega⟩
                · have hq1b : q1.color = Black := color_black_of_not_red hq1
                  rw [fixUp_rotL hq1b hrrB]
                  refine ⟨?_, ?_, ?_, ?_, ?_⟩
                  · simp only [inorder_node_any, List.append_assoc, List.cons_append]
                      at q1su ⊢
                    simpa only [List.append_assoc, List.cons_append] using
                      q1su.append (List.Sublist.refl
                        (se :: (rl.inorder ++ re :: rr.inorder)))
                  · refine ⟨hrrB, by intro _; simpa using hq1b, ?_, hNrr⟩
                    exact ⟨hrlb, by intro hx; rw [hq1b] at hx; simp at hx, q1N, hNrl⟩
                  · refine ⟨by intro hx; simp at hx, ?_, hRrr⟩
                    exact ⟨fun _ => ⟨hq1b, hrlb⟩, q1R, hRrl⟩
                  · refine ⟨hh2, ⟨hh2, q1B,
                      (by rwa [show hh2 = hh3 by omega] : Bal rl hh2), by simp⟩,
                      (by rwa [show hh2 = hh3 by omega] : Bal rr hh2), by simp; omega⟩
                  · intro hx
                    simp at hx
            · have hlf : l.isNil = false := by simpa using hl
              have hP3 : l.color = Red ∨ l.left.color = Red := by
                by_cases h1 : l.color = Red
                · exact Or.inl h1
                · by_cases h2 : l.left.color = Red
                  · exact Or.inr h2
                  · exact absurd ⟨color_black_of_not_red h1, color_black_of_not_red h2⟩ hbb
              have hsubA : l.inorder.Sublist (Node.node se l r c).inorder := by
                simp only [inorder_node_any]
                exact List.sublist_append_left _ _
              have hA := ih l hh (by simp at hs ⊢; omega) hRl hBl (hso.sublist hsubA)
                (Or.inl ⟨hNl, hP3⟩)
              obtain ⟨q1su, q1N, q1R, q1B, q1c⟩ := hA
              set q1 := (Node.deleteA (icmp e) fuel l).1 with hq1def
              simp only [hl, Bool.false_eq_true, if_false, if_neg hbb, withLeft_node]
              have hfix : (Node.node se q1 r c).fixUp = Node.node se q1 r c :=
                fixUp_id hrb (by
                  intro hx
                  have := redsOK_red_left q1R hx.1
                  rw [this] at hx
                  simp at hx)
              rw [hfix]
              refine ⟨?_, ?_, ?_, ?_, fun hx => by simpa using hx⟩
              · simp only [inorder_node_any]
                exact q1su.append (List.Sublist.refl _)
              · exact ⟨hrb, fun hx => redsOK_red_left q1R hx, q1N, hNr⟩
              · refine ⟨?_, q1R, hRr⟩
                intro hc
                refine ⟨?_, (hcred hc).2⟩
                exact color_black_of_not_red (fun hx => by
                  have := q1c hx
                  rw [(hcred hc).1] at this
                  simp at this)
              · exact ⟨hh, q1B, hBr, hhe⟩
        · -- descend right or replace here
          rw [if_neg hlt]
          by_cases hlr : l.color = Red
          · -- red left child: lead with a right rotation
            have hcb : c = Black := color_black_of_not_red (fun hx => by
              have := (hcred hx).1
              rw [hlr] at this
              simp at this)
            subst hcb
            simp only [eq_self_iff_true, if_true] at hhe
            obtain ⟨le, ll, lr, hle⟩ := ne_nil_of_red hlr
            subst hle
            have hllb : ll.color = Black := by simpa using himp hlr
            obtain ⟨hlrB, hllImp, hNll, hNlr⟩ := hNl
            obtain ⟨_, hRll, hRlr⟩ := hRl
            obtain ⟨k2, hBll, hBlr, hk2⟩ := hBl
            simp only [red_eq_black_iff, if_false] at hk2
            rw [if_pos (show (Node.node le ll lr Red).color = Red from rfl),
              rotateRight_node]
            simp only [elemOr_node, right_node, isNil_node, Bool.false_eq_true,
              and_false, if_false]
            rw [if_neg (show ¬ ((Node.node se lr r Red).color = Black ∧
                (Node.node se lr r Red).left.color = Black) from fun hx => by
              have := hx.1
              simp at this)]
            have hYN : NoRR (Node.node se lr r Red) :=
              ⟨hrb, by intro hx; rw [hlrB] at hx; simp at hx, hNlr, hNr⟩
            have hYR : RedsOK (Node.node se lr r Red) :=
              ⟨fun _ => ⟨hlrB, hrb⟩, hRlr, hRr⟩
            have hYB : Bal (Node.node se lr r Red) hh :=
              ⟨hh, (by rwa [show hh = k2 by omega] : Bal lr hh), hBr, by simp⟩
            simp only [elemOr_node, right_node]
            by_cases h0 : icmp e le = 0
            · rw [if_pos h0]
              simp only [right_node, withElem_node, withRight_node]
              have hA := deleteMinA_spec fuel (Node.node se lr r Red) hh
                (by simp at hs ⊢; omega) hYN hYR hYB (Or.inl rfl)
              obtain ⟨q1io, q1N, q1R, q1B, q1c⟩ := hA
              set q1 := (Node.deleteMinA fuel (Node.node se lr r Red)).1 with hq1def
              set mE := (Node.node se lr r Red).minN.elemOr se with hmEdef
              have hmc : mE :: (Node.node se lr r Red).inorder.drop 1
                  = (Node.node se lr r Red).inorder := minN_cons se _ rfl
              by_cases hq1 : q1.color = Red
              · obtain ⟨q1e, q1l, q1r, hq1e⟩ := ne_nil_of_red hq1
                rw [hq1e] at q1io q1N q1R q1B
                obtain ⟨hq1cc, hRq1l, hRq1r⟩ := q1R
                obtain ⟨hq1lB, hq1rB⟩ := hq1cc rfl
                obtain ⟨hq1rB2, hq1lImp, hNq1l, hNq1r⟩ := q1N
                obtain ⟨kq, hBq1l, hBq1r, hkq⟩ := q1B
                simp only [red_eq_black_iff, if_false] at hkq
                rw [hq1e, fixUp_rotL hllb hq1rB]
                refine ⟨?_, ?_, ?_, ?_, ?_⟩
                · simp only [inorder_node_any] at q1io ⊢
                  simp only [List.append_assoc, List.cons_append] at q1io ⊢
                  have : mE :: (q1l.inorder ++ q1e :: q1r.inorder)
                      = lr.inorder ++ se :: r.inorder := by
                    rw [q1io]
                    simpa only [inorder_node_any, List.append_assoc,
                      List.cons_append] using hmc
                  rw [show ll.inorder ++ mE :: (q1l.inorder ++ q1e :: q1r.inorder)
                      = ll.inorder ++ (mE :: (q1l.inorder ++ q1e :: q1r.inorder))
                      from rfl, this]
                  exact (List.sublist_cons_self le _).append_left ll.inorder
                · refine ⟨hq1rB, by intro _; simpa using hllb, ?_, hNq1r⟩
                  exact ⟨hq1lB, hllImp, hNll, hNq1l⟩
                · refine ⟨by intro hx; simp at hx, ?_, hRq1r⟩
                  exact ⟨fun _ => ⟨hllb, hq1lB⟩, hRll, hRq1l⟩
                · refine ⟨hh, ⟨hh, (by rwa [show hh = k2 by omega] : Bal ll hh),
                    (by rwa [show hh = kq by omega] : Bal q1l hh), by simp⟩,
                    (by rwa [show hh = kq by omega] : Bal q1r hh), by simp; omega⟩
                · intro hx
                  simp at hx
              · have hq1b : q1.color = Black := color_black_of_not_red hq1
                have hfix : (Node.node mE ll q1 Black).fixUp = Node.node mE ll q1 Black :=
                  fixUp_id hq1b (fun hx => by rw [hllb] at hx; simp at hx)
                rw [hfix]
                refine ⟨?_, ?_, ?_, ?_, ?_⟩
                · simp only [inorder_node_any] at q1io ⊢
                  rw [q1io]
                  rw [show ll.inorder ++ mE :: List.drop 1 (lr.inorder ++ se :: r.inorder)
                      = ll.inorder ++ (mE :: List.drop 1 (lr.inorder ++ se :: r.inorder))
                      from rfl,
                    show mE :: List.drop 1 (lr.inorder ++ se :: r.inorder)
                      = lr.inorder ++ se :: r.inorder by
                        simpa only [inorder_node_any] using hmc]
                  simp only [List.append_assoc, List.cons_append]
                  exact (List.sublist_cons_self le _).append_left ll.inorder
                · exact ⟨hq1b, hllImp, hNll, q1N⟩
                · exact ⟨by intro hx; simp at hx, hRll, q1R⟩
                · exact ⟨hh, (by rwa [show hh = k2 by omega] : Bal ll hh), q1B,
                    by simp; omega⟩
                · intro hx
                  simp at hx
            · rw [if_neg h0]
              simp only [right_node, withRight_node]
              have hsubA : (Node.node se lr r Red).inorder.Sublist
                  (Node.node se (Node.node le ll lr Red) r Black).inorder := by
                simp only [inorder_node_any, List.append_assoc, List.cons_append]
                refine List.Sublist.trans ?_ (List.sublist_append_right ll.inorder _)
                exact (List.Sublist.refl _).cons _
              have hA := ih (Node.node se lr r Red) hh
                (by simp at hs ⊢; omega) hYR hYB (hso.sublist hsubA)
                (Or.inl ⟨hYN, Or.inl rfl⟩)
              obtain ⟨q1su, q1N, q1R, q1B, q1c⟩ := hA
              set q1 := (Node.deleteA (icmp e) fuel (Node.node se lr r Red)).1
                with hq1def
              by_cases hq1 : q1.color = Red
              · obtain ⟨q1e, q1l, q1r, hq1e⟩ := ne_nil_of_red hq1
                rw [hq1e] at q1su q1N q1R q1B
                obtain ⟨hq1cc, hRq1l, hRq1r⟩ := q1R
                obtain ⟨hq1lB, hq1rB⟩ := hq1cc rfl
                obtain ⟨hq1rB2, hq1lImp, hNq1l, hNq1r⟩ := q1N
                obtain ⟨kq, hBq1l, hBq1r, hkq⟩ := q1B
                simp only [red_eq_black_iff, if_false] at hkq
                rw [hq1e, fixUp_rotL hllb hq1rB]
                refine ⟨?_, ?_, ?_, ?_, ?_⟩
                · simp only [inorder_node_any] at q1su ⊢
                  simp only [List.append_assoc, List.cons_append] at q1su ⊢
                  exact (q1su.cons₂ le).append_left ll.inorder
                · refine ⟨hq1rB, by intro _; simpa using hllb, ?_, hNq1r⟩
                  exact ⟨hq1lB, hllImp, hNll, hNq1l⟩
                · refine ⟨by intro hx; simp at hx, ?_, hRq1r⟩
                  exact ⟨fun _ => ⟨hllb, hq1lB⟩, hRll, hRq1l⟩
                · refine ⟨hh, ⟨hh, (by rwa [show hh = k2 by omega] : Bal ll hh),
                    (by rwa [show hh = kq by omega] : Bal q1l hh), by simp⟩,
                    (by rwa [show hh = kq by omega] : Bal q1r hh), by simp; omega⟩
                · intro hx
                  simp at hx
              · have hq1b : q1.color = Black := color_black_of_not_red hq1
                have hfix : (Node.node le ll q1 Black).fixUp = Node.node le ll q1 Black :=
                  fixUp_id hq1b (fun hx => by rw [hllb] at hx; simp at hx)
                rw [hfix]
                refine ⟨?_, ?_, ?_, ?_, ?_⟩
                · simp only [inorder_node_any] at q1su ⊢
                  simp only [List.append_assoc, List.cons_append] at q1su ⊢
                  exact (q1su.cons₂ le).append_left ll.inorder
                · exact ⟨hq1b, hllImp, hNll, q1N⟩
                · exact ⟨by intro hx; simp at hx, hRll, q1R⟩
                · exact ⟨hh, (by rwa [show hh = k2 by omega] : Bal ll hh), q1B,
                    by simp; omega⟩
                · intro hx
                  simp at hx
          · -- black left child: the root must be red
            have hlb : l.color = Black := color_black_of_not_red hlr
            have hcr : c = Red := by
              rcases hP with hP | hP
              · simpa using hP
              · simp only [left_node] at hP
                rw [hlb] at hP
                simp at hP
            subst hcr
            simp only [red_eq_black_iff, if_false] at hhe
            rw [if_neg (show ¬ l.color = Red from hlr)]
            simp only [elemOr_node, right_node, left_node]
            by_cases hrn : r.isNil = true
            · have hre : r = .nil := by
                cases r
                · rfl
                · simp at hrn
              subst hre
              have hh0 : hh = 0 := by simpa using hBr
              have hle : l = .nil := bal_nil_of_zero hNl (by rwa [hh0] at hBl) hlb
              subst hle
              by_cases h0 : icmp e se = 0
              · rw [if_pos ⟨h0, rfl⟩]
                refine ⟨by simp, trivial, trivial, ?_, ?_⟩
                · simp only [Bal_nil]
                  omega
                · intro hx
                  simp at hx
              · rw [if_neg (show ¬ (icmp e se = 0 ∧
                    (Node.nil : Node Int).isNil = true) from fun hx => h0 hx.1)]
                rw [if_pos (show (Node.nil : Node Int).isNil = true from rfl)]
                have hfix : (Node.node se Node.nil Node.nil Red).fixUp
                    = Node.node se Node.nil Node.nil Red :=
                  fixUp_id rfl (fun hx => by have := hx.1; simp at this)
                rw [hfix]
                exact ⟨List.Sublist.refl _, ⟨rfl, by intro hx; simp at hx,
                  trivial, trivial⟩, ⟨fun _ => ⟨rfl, rfl⟩, trivial, trivial⟩,
                  ⟨hh, hBl, hBr, by simp; omega⟩, fun _ => rfl⟩
            · have hrf : r.isNil = false := by simpa using hrn
              cases r with
              | nil => simp at hrf
              | node re rl rr rc =>
              have hrcb : rc = Black := by simpa using hrb
              subst hrcb
              obtain ⟨k, hBrl, hBrr, hk⟩ := hBr
              simp only [eq_self_iff_true, if_true] at hk
              obtain ⟨hrrB, hrlImp, hNrl, hNrr⟩ := hNr
              obtain ⟨_, hRrl, hRrr⟩ := hRr
              rw [if_neg (show ¬ (icmp e se = 0 ∧
                  (Node.node re rl rr Black).isNil = true) from fun hx => by
                have := hx.2
                simp at this)]
              simp only [hrn, Bool.false_eq_true, if_false]
              by_cases hrl : rl.color = Red
              · -- red inner grandchild: no moveRedRight
                rw [if_neg (show ¬ ((Node.node re rl rr Black).color = Black ∧
                    (Node.node re rl rr Black).left.color = Black) from fun hx => by
                  have := hx.2
                  simp only [left_node] at this
                  rw [hrl] at this
                  simp at this)]
                simp only [elemOr_node, right_node, withElem_node, withRight_node]
                by_cases h0 : icmp e se = 0
                · rw [if_pos h0]
                  have hA := deleteMinA_spec fuel (Node.node re rl rr Black) hh
                    (by simp at hs ⊢; omega)
                    ⟨hrrB, hrlImp, hNrl, hNrr⟩
                    ⟨by intro hx; simp at hx, hRrl, hRrr⟩
                    ⟨k, hBrl, hBrr, by simp; omega⟩
                    (Or.inr (by simpa using hrl))
                  obtain ⟨q1io, q1N, q1R, q1B, q1c⟩ := hA
                  set q1 := (Node.deleteMinA fuel (Node.node re rl rr Black)).1
                    with hq1def
                  have hq1b : q1.color = Black :=
                    color_black_of_not_red (fun hx => by have := q1c hx; simp at this)
                  set mE := (Node.node re rl rr Black).minN.elemOr se with hmEdef
                  have hmc : mE :: (Node.node re rl rr Black).inorder.drop 1
                      = (Node.node re rl rr Black).inorder := minN_cons se _ rfl
                  have hfix : (Node.node mE l q1 Red).fixUp = Node.node mE l q1 Red :=
                    fixUp_id hq1b (fun hx => by
                      have := hx.1
                      rw [hlb] at this
                      simp at this)
                  rw [hfix]
                  refine ⟨?_, ?_, ?_, ?_, fun _ => rfl⟩
                  · simp only [inorder_node_any] at q1io ⊢
                    rw [q1io]
                    rw [show l.inorder ++ mE :: List.drop 1
                          (rl.inorder ++ re :: rr.inorder)
                        = l.inorder ++ (mE :: List.drop 1
                          (rl.inorder ++ re :: rr.inorder)) from rfl,
                      show mE :: List.drop 1 (rl.inorder ++ re :: rr.inorder)
                        = rl.inorder ++ re :: rr.inorder by
                          simpa only [inorder_node_any] using hmc]
                    exact (List.sublist_cons_self se _).append_left l.inorder
                  · exact ⟨hq1b, himp, hNl, q1N⟩
                  · exact ⟨fun _ => ⟨hlb, hq1b⟩, hRl, q1R⟩
                  · exact ⟨hh, hBl, q1B, by simp; omega⟩
                · rw [if_neg h0]
                  have hsubA : (Node.node re rl rr Black).inorder.Sublist
                      (Node.node se l (Node.node re rl rr Black) Red).inorder := by
                    simp only [inorder_node_any]
                    exact (List.sublist_cons_self se _).trans
                      (List.sublist_append_right l.inorder _)
                  have hA := ih (Node.node re rl rr Black) hh
                    (by simp at hs ⊢; omega)
                    ⟨by intro hx; simp at hx, hRrl, hRrr⟩
                    ⟨k, hBrl, hBrr, by simp; omega⟩
                    (hso.sublist hsubA)
                    (Or.inl ⟨⟨hrrB, hrlImp, hNrl, hNrr⟩, Or.inr (by simpa using hrl)⟩)
                  obtain ⟨q1su, q1N, q1R, q1B, q1c⟩ := hA
                  set q1 := (Node.deleteA (icmp e) fuel (Node.node re rl rr Black)).1
                    with hq1def
                  have hq1b : q1.color = Black :=
                    color_black_of_not_red (fun hx => by have := q1c hx; simp at this)
                  have hfix : (Node.node se l q1 Red).fixUp = Node.node se l q1 Red :=
                    fixUp_id hq1b (fun hx => by
                      have := hx.1
                      rw [hlb] at this
                      simp at this)
                  rw [hfix]
                  refine ⟨?_, ?_, ?_, ?_, fun _ => rfl⟩
                  · simp only [inorder_node_any] at q1su ⊢
                    exact (q1su.cons₂ se).append_left l.inorder
                  · exact ⟨hq1b, himp, hNl, q1N⟩
                  · exact ⟨fun _ => ⟨hlb, hq1b⟩, hRl, q1R⟩
                  · exact ⟨hh, hBl, q1B, by simp; omega⟩
              · -- both black: moveRedRight
                have hrlb : rl.color = Black := color_black_of_not_red hrl
                rw [if_pos (show (Node.node re rl rr Black).color = Black ∧
                    (Node.node re rl rr Black).left.color = Black from
                  ⟨rfl, by simpa using hrlb⟩)]
                have hlf : l.isNil = false := by
                  cases l with
                  | nil =>
                    have h0 : hh = 0 := by simpa using hBl
                    exact ((by omega : False)).elim
                  | node le ll lr lc => rfl
                cases l with
                | nil => simp at hlf
                | node le ll lr lc =>
                have hlcb : lc = Black := by simpa using hlb
                subst hlcb
                obtain ⟨k2, hBll, hBlr, hk2⟩ := hBl
                simp only [eq_self_iff_true, if_true] at hk2
                obtain ⟨hlrB, hllImp, hNll, hNlr⟩ := hNl
                obtain ⟨_, hRll, hRlr⟩ := hRl
                by_cases hll : ll.color = Red
                · -- red left grandchild: moveRedRight rotates; the re-read
                  -- comparison cannot match the rotated-down element
                  obtain ⟨lle, lll, llr, hlle⟩ := ne_nil_of_red hll
                  subst hlle
                  rw [mrr_red]
                  simp only [not_black, elemOr_node, right_node, withElem_node,
                    withRight_node]
                  have hlese : le < se := by
                    have hso2 := hso
                    simp only [inorder_node_any] at hso2
                    exact (List.pairwise_append.mp hso2).2.2 le (by simp) se (by simp)
                  have h0 : ¬ icmp e le = 0 := by
                    simp only [icmp] at hlt ⊢
                    omega
                  rw [if_neg h0]
                  obtain ⟨k3, hBlll, hBllr, hk3⟩ := hBll
                  simp only [red_eq_black_iff, if_false] at hk3
                  obtain ⟨hllrB, hlllImp, hNlll, hNllr⟩ := hNll
                  obtain ⟨_, hRlll, hRllr⟩ := hRll
                  have hsubA : (Node.node se lr (Node.node re rl rr Red) Black).inorder.Sublist
                      (Node.node se (Node.node le (Node.node lle lll llr Red) lr Black)
                        (Node.node re rl rr Black) Red).inorder := by
                    simp only [inorder_node_any, List.append_assoc, List.cons_append]
                    refine List.Sublist.trans ?_
                      (List.sublist_append_right lll.inorder _)
                    refine List.Sublist.trans ?_ (List.sublist_cons_self lle _)
                    refine List.Sublist.trans ?_
                      (List.sublist_append_right llr.inorder _)
                    exact (List.Sublist.refl _).cons le
                  have hA := ih (Node.node se lr (Node.node re rl rr Red) Black) hh
                    (by simp at hs ⊢; omega)
                    ⟨by intro hx; simp at hx, hRlr,
                      ⟨fun _ => ⟨hrlb, hrrB⟩, hRrl, hRrr⟩⟩
                    ⟨k2, hBlr, ⟨k, hBrl, hBrr, by simp; omega⟩, by simp; omega⟩
                    (hso.sublist hsubA)
                    (Or.inr ⟨rfl, by simpa using hlrB, rfl, by simpa using hrlb,
                      hNlr, ⟨hrrB, hrlImp, hNrl, hNrr⟩, by
                        simp only [elemOr_node, icmp] at hlt ⊢
                        omega⟩)
                  obtain ⟨q1su, q1N, q1R, q1B, q1c⟩ := hA
                  set q1 := (Node.deleteA (icmp e) fuel
                    (Node.node se lr (Node.node re rl rr Red) Black)).1 with hq1def
                  have hq1b : q1.color = Black :=
                    color_black_of_not_red (fun hx => by have := q1c hx; simp at this)
                  have hfix : (Node.node le (Node.node lle lll llr Black) q1 Red).fixUp
                      = Node.node le (Node.node lle lll llr Black) q1 Red :=
                    fixUp_id hq1b (fun hx => by
                      have := hx.1
                      simp at this)
                  rw [hfix]
                  refine ⟨?_, ?_, ?_, ?_, fun _ => rfl⟩
                  · simp only [inorder_node_any, List.append_assoc, List.cons_append]
                      at q1su ⊢
                    exact ((((q1su.cons₂ le).append_left llr.inorder).cons₂
                      lle).append_left lll.inorder)
                  · exact ⟨hq1b, by intro hx; simp at hx,
                      ⟨hllrB, hlllImp, hNlll, hNllr⟩, q1N⟩
                  · exact ⟨fun _ => ⟨rfl, hq1b⟩,
                      ⟨by intro hx; simp at hx, hRlll, hRllr⟩, q1R⟩
                  · exact ⟨hh, ⟨k3, hBlll, hBllr, by simp; omega⟩, q1B, by simp; omega⟩
                · -- black left grandchild: moveRedRight is only the flip
                  have hllB : ll.color = Black := color_black_of_not_red hll
                  rw [mrr_black hllB]
                  simp only [not_black, not_red, elemOr_node, right_node,
                    withElem_node, withRight_node]
                  by_cases h0 : icmp e se = 0
                  · rw [if_pos h0]
                    have hA := deleteMinA_spec fuel (Node.node re rl rr Red) k
                      (by simp at hs ⊢; omega)
                      ⟨hrrB, hrlImp, hNrl, hNrr⟩
                      ⟨fun _ => ⟨hrlb, hrrB⟩, hRrl, hRrr⟩
                      ⟨k, hBrl, hBrr, by simp⟩
                      (Or.inl rfl)
                    obtain ⟨q1io, q1N, q1R, q1B, q1c⟩ := hA
                    set q1 := (Node.deleteMinA fuel (Node.node re rl rr Red)).1
                      with hq1def
                    set mE := (Node.node re rl rr Red).minN.elemOr se with hmEdef
                    have hmc : mE :: (Node.node re rl rr Red).inorder.drop 1
                        = (Node.node re rl rr Red).inorder := minN_cons se _ rfl
                    by_cases hq1 : q1.color = Red
                    · obtain ⟨q1e, q1l, q1r, hq1e⟩ := ne_nil_of_red hq1
                      rw [hq1e] at q1io q1N q1R q1B
                      obtain ⟨hq1cc, hRq1l, hRq1r⟩ := q1R
                      obtain ⟨hq1lB, hq1rB⟩ := hq1cc rfl
                      obtain ⟨hq1rB2, hq1lImp, hNq1l, hNq1r⟩ := q1N
                      obtain ⟨kq, hBq1l, hBq1r, hkq⟩ := q1B
                      simp only [red_eq_black_iff, if_false] at hkq
                      rw [hq1e, fixUp_two_red]
                      simp only [not_black]
                      refine ⟨?_, ?_, ?_, ?_, fun _ => rfl⟩
                      · simp only [inorder_node_any] at q1io ⊢
                        rw [q1io]
                        rw [show (ll.inorder ++ le :: lr.inorder) ++
                              mE :: List.drop 1 (rl.inorder ++ re :: rr.inorder)
                            = (ll.inorder ++ le :: lr.inorder) ++
                              (mE :: List.drop 1 (rl.inorder ++ re :: rr.inorder))
                            from rfl,
                          show mE :: List.drop 1 (rl.inorder ++ re :: rr.inorder)
                            = rl.inorder ++ re :: rr.inorder by
                              simpa only [inorder_node_any] using hmc]
                        exact (List.sublist_cons_self se _).append_left _
                      · exact ⟨rfl, by intro hx; simp at hx,
                          ⟨hlrB, hllImp, hNll, hNlr⟩,
                          ⟨hq1rB2, hq1lImp, hNq1l, hNq1r⟩⟩
                      · exact ⟨fun _ => ⟨rfl, rfl⟩,
                          ⟨by intro hx; simp at hx, hRll, hRlr⟩,
                          ⟨by intro hx; simp at hx, hRq1l, hRq1r⟩⟩
                      · refine ⟨hh, ⟨k2, hBll, hBlr, by simp; omega⟩,
                          ⟨kq, hBq1l, hBq1r, by simp; omega⟩, by simp; omega⟩
                    · have hq1b : q1.color = Black := color_black_of_not_red hq1
                      have hfix : (Node.node mE (Node.node le ll lr Red) q1 Black).fixUp
                          = Node.node mE (Node.node le ll lr Red) q1 Black :=
                        fixUp_id hq1b (fun hx => by
                          have := hx.2
                          simp only [left_node] at this
                          rw [hllB] at this
                          simp at this)
                      rw [hfix]
                      refine ⟨?_, ?_, ?_, ?_, ?_⟩
                      · simp only [inorder_node_any] at q1io ⊢
                        rw [q1io]
                        rw [show (ll.inorder ++ le :: lr.inorder) ++
                              mE :: List.drop 1 (rl.inorder ++ re :: rr.inorder)
                            = (ll.inorder ++ le :: lr.inorder) ++
                              (mE :: List.drop 1 (rl.inorder ++ re :: rr.inorder))
                            from rfl,
                          show mE :: List.drop 1 (rl.inorder ++ re :: rr.inorder)
                            = rl.inorder ++ re :: rr.inorder by
                              simpa only [inorder_node_any] using hmc]
                        exact (List.sublist_cons_self se _).append_left _
                      · exact ⟨hq1b, by intro _; simpa using hllB,
                          ⟨hlrB, hllImp, hNll, hNlr⟩, q1N⟩
                      · exact ⟨by intro hx; simp at hx,
                          ⟨fun _ => ⟨hllB, hlrB⟩, hRll, hRlr⟩, q1R⟩
                      · exact ⟨k2, ⟨k2, hBll, hBlr, by simp⟩,
                          (by rwa [show k2 = k by omega] : Bal q1 k2), by simp; omega⟩
                      · intro hx
                        simp at hx
                  · rw [if_neg h0]
                    have hsubA : (Node.node re rl rr Red).inorder.Sublist
                        (Node.node se (Node.node le ll lr Black)
                          (Node.node re rl rr Black) Red).inorder := by
                      simp only [inorder_node_any]
                      exact (List.sublist_cons_self se _).trans
                        (List.sublist_append_right _ _)
                    have hA := ih (Node.node re rl rr Red) k
                      (by simp at hs ⊢; omega)
                      ⟨fun _ => ⟨hrlb, hrrB⟩, hRrl, hRrr⟩
                      ⟨k, hBrl, hBrr, by simp⟩
                      (hso.sublist hsubA)
                      (Or.inl ⟨⟨hrrB, hrlImp, hNrl, hNrr⟩, Or.inl rfl⟩)
                    obtain ⟨q1su, q1N, q1R, q1B, q1c⟩ := hA
                    set q1 := (Node.deleteA (icmp e) fuel (Node.node re rl rr Red)).1
                      with hq1def
                    by_cases hq1 : q1.color = Red
                    · obtain ⟨q1e, q1l, q1r, hq1e⟩ := ne_nil_of_red hq1
                      rw [hq1e] at q1su q1N q1R q1B
                      obtain ⟨hq1cc, hRq1l, hRq1r⟩ := q1R
                      obtain ⟨hq1lB, hq1rB⟩ := hq1cc rfl
                      obtain ⟨hq1rB2, hq1lImp, hNq1l, hNq1r⟩ := q1N
                      obtain ⟨kq, hBq1l, hBq1r, hkq⟩ := q1B
                      simp only [red_eq_black_iff, if_false] at hkq
                      rw [hq1e, fixUp_two_red]
                      simp only [not_black]
                      refine ⟨?_, ?_, ?_, ?_, fun _ => rfl⟩
                      · simp only [inorder_node_any] at q1su ⊢
                        simp only [List.append_assoc, List.cons_append] at q1su ⊢
                        exact (((q1su.cons₂ se).append_left lr.inorder).cons₂
                          le).append_left ll.inorder
                      · exact ⟨rfl, by intro hx; simp at hx,
                          ⟨hlrB, hllImp, hNll, hNlr⟩,
                          ⟨hq1rB2, hq1lImp, hNq1l, hNq1r⟩⟩
                      · exact ⟨fun _ => ⟨rfl, rfl⟩,
                          ⟨by intro hx; simp at hx, hRll, hRlr⟩,
                          ⟨by intro hx; simp at hx, hRq1l, hRq1r⟩⟩
                      · refine ⟨hh, ⟨k2, hBll, hBlr, by simp; omega⟩,
                          ⟨kq, hBq1l, hBq1r, by simp; omega⟩, by simp; omega⟩
                    · have hq1b : q1.color = Black := color_black_of_not_red hq1
                      have hfix : (Node.node se (Node.node le ll lr Red) q1 Black).fixUp
                          = Node.node se (Node.node le ll lr Red) q1 Black :=
                        fixUp_id hq1b (fun hx => by
                          have := hx.2
                          simp only [left_node] at this
                          rw [hllB] at this
                          simp at this)
                      rw [hfix]
                      refine ⟨?_, ?_, ?_, ?_, ?_⟩
                      · simp only [inorder_node_any] at q1su ⊢
                        simp only [List.append_assoc, List.cons_append] at q1su ⊢
                        exact ((q1su.cons₂ se).append_left lr.inorder).cons₂ le
                          |>.append_left ll.inorder
                      · exact ⟨hq1b, by intro _; simpa using hllB,
                          ⟨hlrB, hllImp, hNll, hNlr⟩, q1N⟩
                      · exact ⟨by intro hx; simp at hx,
                          ⟨fun _ => ⟨hllB, hlrB⟩, hRll, hRlr⟩, q1R⟩
                      · exact ⟨k2, ⟨k2, hBll, hBlr, by simp⟩,
                          (by rwa [show k2 = k by omega] : Bal q1 k2), by simp; omega⟩
                      · intro hx
                        simp at hx
      · -- right-leaning intermediate
        obtain ⟨re, rl, rr, hre⟩ := ne_nil_of_red (show r.color = Red by simpa using hrr)
        subst hre
        have hccb : c = Black := by simpa using hcb
        subst hccb
        simp only [eq_self_iff_true, if_true] at hhe
        have hlb : l.color = Black := by simpa using hlb
        have hrlb : rl.color = Black := by simpa using hrlb
        replace hNl : NoRR l := hNl
        replace hNr : NoRR (Node.node re rl rr Red) := hNr
        obtain ⟨hrrB, hrlImp, hNrl, hNrr⟩ := hNr
        obtain ⟨_, hRrl, hRrr⟩ := hRr
        obtain ⟨k, hBrl, hBrr, hk⟩ := hBr
        simp only [red_eq_black_iff, if_false] at hk
        have hguard2 : 0 ≤ icmp e se := by simpa using hguard
        have hlt : ¬ icmp e se < 0 := by omega
        rw [if_neg hlt, if_neg (show ¬ l.color = Red from fun hx => by
          rw [hlb] at hx
          simp at hx)]
        simp only [elemOr_node, right_node, left_node]
        rw [if_neg (show ¬ (icmp e se = 0 ∧
            (Node.node re rl rr Red).isNil = true) from fun hx => by
          have := hx.2
          simp at this)]
        simp only [isNil_node, Bool.false_eq_true, if_false]
        rw [if_neg (show ¬ ((Node.node re rl rr Red).color = Black ∧
            rl.color = Black) from fun hx => by
          have := hx.1
          simp at this)]
        simp only [elemOr_node, right_node, withElem_node, withRight_node]
        by_cases h0 : icmp e se = 0
        · rw [if_pos h0]
          have hA := deleteMinA_spec fuel (Node.node re rl rr Red) hh
            (by simp at hs ⊢; omega)
            ⟨hrrB, hrlImp, hNrl, hNrr⟩
            ⟨fun _ => ⟨hrlb, hrrB⟩, hRrl, hRrr⟩
            ⟨k, hBrl, hBrr, by simp; omega⟩
            (Or.inl rfl)
          obtain ⟨q1io, q1N, q1R, q1B, q1c⟩ := hA
          set q1 := (Node.deleteMinA fuel (Node.node re rl rr Red)).1 with hq1def
          set mE := (Node.node re rl rr Red).minN.elemOr se with hmEdef
          have hmc : mE :: (Node.node re rl rr Red).inorder.drop 1
              = (Node.node re rl rr Red).inorder := minN_cons se _ rfl
          by_cases hq1 : q1.color = Red
          · obtain ⟨q1e, q1l, q1r, hq1e⟩ := ne_nil_of_red hq1
            rw [hq1e] at q1io q1N q1R q1B
            obtain ⟨hq1cc, hRq1l, hRq1r⟩ := q1R
            obtain ⟨hq1lB, hq1rB⟩ := hq1cc rfl
            obtain ⟨hq1rB2, hq1lImp, hNq1l, hNq1r⟩ := q1N
            obtain ⟨kq, hBq1l, hBq1r, hkq⟩ := q1B
            simp only [red_eq_black_iff, if_false] at hkq
            rw [hq1e, fixUp_rotL hlb hq1rB]
            refine ⟨?_, ?_, ?_, ?_, ?_⟩
            · simp only [inorder_node_any] at q1io ⊢
              simp only [List.append_assoc, List.cons_append] at q1io ⊢
              have hyy : mE :: (q1l.inorder ++ q1e :: q1r.inorder)
                  = rl.inorder ++ re :: rr.inorder := by
                rw [q1io]
                simpa only [inorder_node_any, List.append_assoc,
                  List.cons_append] using hmc
              rw [show l.inorder ++ mE :: (q1l.inorder ++ q1e :: q1r.inorder)
                  = l.inorder ++ (mE :: (q1l.inorder ++ q1e :: q1r.inorder))
                  from rfl, hyy]
              exact (List.sublist_cons_self se _).append_left l.inorder
            · refine ⟨hq1rB, by intro _; simpa using hlb, ?_, hNq1r⟩
              exact ⟨hq1lB, by intro hx; rw [hlb] at hx; simp at hx, hNl, hNq1l⟩
            · refine ⟨by intro hx; simp at hx, ?_, hRq1r⟩
              exact ⟨fun _ => ⟨hlb, hq1lB⟩, hRl, hRq1l⟩
            · refine ⟨hh, ⟨hh, hBl,
                (by rwa [show hh = kq by omega] : Bal q1l hh), by simp⟩,
                (by rwa [show hh = kq by omega] : Bal q1r hh), by simp; omega⟩
            · intro hx
              simp at hx
          · have hq1b : q1.color = Black := color_black_of_not_red hq1
            have hfix : (Node.node mE l q1 Black).fixUp = Node.node mE l q1 Black :=
              fixUp_id hq1b (fun hx => by
                have := hx.1
                rw [hlb] at this
                simp at this)
            rw [hfix]
            refine ⟨?_, ?_, ?_, ?_, ?_⟩
            · simp only [inorder_node_any] at q1io ⊢
              rw [q1io]
              rw [show l.inorder ++ mE :: List.drop 1 (rl.inorder ++ re :: rr.inorder)
                  = l.inorder ++ (mE :: List.drop 1 (rl.inorder ++ re :: rr.inorder))
                  from rfl,
                show mE :: List.drop 1 (rl.inorder ++ re :: rr.inorder)
                  = rl.inorder ++ re :: rr.inorder by
                    simpa only [inorder_node_any] using hmc]
              exact (List.sublist_cons_self se _).append_left l.inorder
            · exact ⟨hq1b, by intro hx; rw [hlb] at hx; simp at hx, hNl, q1N⟩
            · exact ⟨by intro hx; simp at hx, hRl, q1R⟩
            · exact ⟨hh, hBl, q1B, by simp; omega⟩
            · intro hx
              simp at hx
        · rw [if_neg h0]
          have hsubA : (Node.node re rl rr Red).inorder.Sublist
              (Node.node se l (Node.node re rl rr Red) Black).inorder := by
            simp only [inorder_node_any]
            exact (List.sublist_cons_self se _).trans
              (List.sublist_append_right l.inorder _)
          have hA := ih (Node.node re rl rr Red) hh
            (by simp at hs ⊢; omega)
            ⟨fun _ => ⟨hrlb, hrrB⟩, hRrl, hRrr⟩
            ⟨k, hBrl, hBrr, by simp; omega⟩
            (hso.sublist hsubA)
            (Or.inl ⟨⟨hrrB, hrlImp, hNrl, hNrr⟩, Or.inl rfl⟩)
          obtain ⟨q1su, q1N, q1R, q1B, q1c⟩ := hA
          set q1 := (Node.deleteA (icmp e) fuel (Node.node re rl rr Red)).1 with hq1def
          by_cases hq1 : q1.color = Red
          · obtain ⟨q1e, q1l, q1r, hq1e⟩ := ne_nil_of_red hq1
            rw [hq1e] at q1su q1N q1R q1B
            obtain ⟨hq1cc, hRq1l, hRq1r⟩ := q1R
            obtain ⟨hq1lB, hq1rB⟩ := hq1cc rfl
            obtain ⟨hq1rB2, hq1lImp, hNq1l, hNq1r⟩ := q1N
            obtain ⟨kq, hBq1l, hBq1r, hkq⟩ := q1B
            simp only [red_eq_black_iff, if_false] at hkq
            rw [hq1e, fixUp_rotL hlb hq1rB]
            refine ⟨?_, ?_, ?_, ?_, ?_⟩
            · simp only [inorder_node_any] at q1su ⊢
              simp only [List.append_assoc, List.cons_append] at q1su ⊢
              exact (q1su.cons₂ se).append_left l.inorder
            · refine ⟨hq1rB, by intro _; simpa using hlb, ?_, hNq1r⟩
              exact ⟨hq1lB, by intro hx; rw [hlb] at hx; simp at hx, hNl, hNq1l⟩
            · refine ⟨by intro hx; simp at hx, ?_, hRq1r⟩
              exact ⟨fun _ => ⟨hlb, hq1lB⟩, hRl, hRq1l⟩
            · refine ⟨hh, ⟨hh, hBl,
                (by rwa [show hh = kq by omega] : Bal q1l hh), by simp⟩,
                (by rwa [show hh = kq by omega] : Bal q1r hh), by simp; omega⟩
            · intro hx
              simp at hx
          · have hq1b : q1.color = Black := color_black_of_not_red hq1
            have hfix : (Node.node se l q1 Black).fixUp = Node.node se l q1 Black :=
              fixUp_id hq1b (fun hx => by
                have := hx.1
                rw [hlb] at this
                simp at this)
            rw [hfix]
            refine ⟨?_, ?_, ?_, ?_, ?_⟩
            · simp only [inorder_node_any] at q1su ⊢
              exact (q1su.cons₂ se).append_left l.inorder
            · exact ⟨hq1b, by intro hx; rw [hlb] at hx; simp at hx, hNl, q1N⟩
            · exact ⟨by intro hx; simp at hx, hRl, q1R⟩
            · exact ⟨hh, hBl, q1B, by simp; omega⟩
            · intro hx
              simp at hx

end Llrb

namespace Llrb

/-- `deleteMin` at a black root: the minimum is removed and the shape
invariants survive except that the result may be a red root with a red
left child, repaired by the tree-level blackening. -/
theorem deleteMinA_root (fuel : Nat) (n : Node α) (h : Nat)
    (hs : n.size ≤ fuel) (hN : NoRR n) (hR : RedsOK n) (hB : Bal n h)
    (hc : n.color = Black) (hnn : n.isNil = false) :
    (Node.deleteMinA fuel n).1.inorder = n.inorder.drop 1 ∧
    NoRR (Node.deleteMinA fuel n).1 ∧ ARedsOK (Node.deleteMinA fuel n).1 ∧
    ∃ h2, Bal (Node.deleteMinA fuel n).1 h2 := by
  cases n with
  | nil => simp at hnn
  | node se l r c =>
  have hcb : c = Black := by simpa using hc
  subst hcb
  cases fuel with
  | zero => simp at hs
  | succ fuel =>
  obtain ⟨hrb, himp, hNl, hNr⟩ := hN
  obtain ⟨_, hRl, hRr⟩ := hR
  obtain ⟨hh, hBl, hBr, hhe⟩ := hB
  simp only [eq_self_iff_true, if_true] at hhe
  rw [Node.deleteMinA]
  by_cases hl : l.isNil = true
  · have hle : l = .nil := by
      cases l
      · rfl
      · simp at hl
    subst hle
    have hh0 : hh = 0 := by simpa using hBl
    subst hh0
    have hre : r = .nil := bal_nil_of_zero hNr hBr hrb
    subst hre
    simp only [isNil_nil, if_pos]
    exact ⟨by simp, trivial, Or.inl trivial, 0, rfl⟩
  · by_cases hbb : l.color = Black ∧ l.left.color = Black
    · cases l with
      | nil => simp at hl
      | node le ll lr lc =>
      have hlcb : lc = Black := by simpa using hbb.1
      subst hlcb
      obtain ⟨hh2, hBll, hBlr, hhe2⟩ := hBl
      simp only [eq_self_iff_true, if_true] at hhe2
      have hrf : r.isNil = false := ne_nil_of_bal_pos hh hBr (by omega)
      cases r with
      | nil => simp at hrf
      | node re rl rr rc =>
      have hrcb : rc = Black := by simpa using hrb
      subst hrcb
      obtain ⟨hh3, hBrl, hBrr, hhe3⟩ := hBr
      simp only [eq_self_iff_true, if_true] at hhe3
      obtain ⟨hrrB, hrlImp, hNrl, hNrr⟩ := hNr
      obtain ⟨_, hRrl, hRrr⟩ := hRr
      obtain ⟨hlrB, hllImp, hNll, hNlr⟩ := hNl
      obtain ⟨_, hRll, hRlr⟩ := hRl
      have hllb : ll.color = Black := by simpa using hbb.2
      simp only [hl, Bool.false_eq_true, if_false, if_pos hbb]
      by_cases hrl : rl.color = Red
      · obtain ⟨rle, rll, rlr, hrle⟩ := ne_nil_of_red hrl
        subst hrle
        rw [mrl_red]
        simp only [not_black, left_node, withLeft_node]
        obtain ⟨hh4, hBrll, hBrlr, hhe4⟩ := hBrl
        simp only [red_eq_black_iff, if_false] at hhe4
        have hrllb : rll.color = Black := by simpa using hrlImp hrl
        obtain ⟨hrlrB, _, hNrll, hNrlr⟩ := hNrl
        obtain ⟨_, hRrll, hRrlr⟩ := hRrl
        have hA := deleteMinA_spec fuel (Node.node se (Node.node le ll lr Red) rll Black) hh
          (by simp at hs ⊢; omega)
          ⟨hrllb, by intro _; simpa using hllb, ⟨hlrB, hllImp, hNll, hNlr⟩, hNrll⟩
          ⟨by intro hx; simp at hx, ⟨fun _ => ⟨hllb, hlrB⟩, hRll, hRlr⟩, hRrll⟩
          ⟨hh2, ⟨hh2, hBll, hBlr, by simp⟩,
            (by rwa [show hh2 = hh4 by omega] : Bal rll hh2), by simp; omega⟩
          (Or.inr (by simp))
        obtain ⟨q1io, q1N, q1R, q1B, q1c⟩ := hA
        set q1 := (Node.deleteMinA fuel
          (Node.node se (Node.node le ll lr Red) rll Black)).1 with hq1def
        have hq1b : q1.color = Black :=
          color_black_of_not_red (fun hx => by have := q1c hx; simp at this)
        have hfix : (Node.node rle q1 (Node.node re rlr rr Black) Black).fixUp
            = Node.node rle q1 (Node.node re rlr rr Black) Black :=
          fixUp_id rfl (by
            intro hx
            rw [hq1b] at hx
            simp at hx)
        rw [hfix]
        refine ⟨?_, ?_, ?_, ?_⟩
        · simp only [inorder_node_any]
          simp only [inorder_node_any] at q1io
          have hne : ll.inorder ++ le :: lr.inorder ≠ [] := by simp
          rw [drop_one_append hne]
          rw [q1io, drop_one_append hne]
          simp only [List.append_assoc, List.cons_append]
        · refine ⟨by simp, ?_, q1N,
            ⟨hrrB, by intro hx; rw [hrlrB] at hx; simp at hx, hNrlr, hNrr⟩⟩
          intro hx
          rw [hq1b] at hx
          simp at hx
        · exact Or.inl ⟨by intro hx; simp at hx, q1R,
            ⟨by intro hx; simp at hx, hRrlr, hRrr⟩⟩
        · refine ⟨hh + 1, hh, q1B, ⟨hh2, ?_, ?_, by simp; omega⟩, by simp⟩
          · rwa [show hh2 = hh4 by omega]
          · rwa [show hh2 = hh3 by omega]
      · have hrlb : rl.color = Black := color_black_of_not_red hrl
        rw [mrl_black hrlb]
        simp only [not_black, not_red, left_node, withLeft_node]
        have hA := deleteMinA_spec fuel (Node.node le ll lr Red) hh2
          (by simp at hs ⊢; omega)
          ⟨hlrB, hllImp, hNll, hNlr⟩
          ⟨fun _ => ⟨hllb, hlrB⟩, hRll, hRlr⟩
          ⟨hh2, hBll, hBlr, by simp⟩
          (Or.inl rfl)
        obtain ⟨q1io, q1N, q1R, q1B, q1c⟩ := hA
        set q1 := (Node.deleteMinA fuel (Node.node le ll lr Red)).1 with hq1def
        by_cases hq1 : q1.color = Red
        · obtain ⟨q1e, q1l, q1r, hq1e⟩ := ne_nil_of_red hq1
          rw [hq1e] at q1io q1N q1R q1B
          rw [hq1e, fixUp_two_red]
          simp only [not_red]
          obtain ⟨k2, hBq1l, hBq1r, hk2⟩ := q1B
          simp only [red_eq_black_iff, if_false] at hk2
          obtain ⟨hq1cc, hRq1l, hRq1r⟩ := q1R
          obtain ⟨hq1rB, hq1lImp, hNq1l, hNq1r⟩ := q1N
          refine ⟨?_, ?_, ?_, ?_⟩
          · simp only [inorder_node_any]
            simp only [inorder_node_any] at q1io
            have hne : ll.inorder ++ le :: lr.inorder ≠ [] := by simp
            rw [drop_one_append hne, q1io]
          · exact ⟨by simp, by intro hx; simp at hx,
              ⟨hq1rB, hq1lImp, hNq1l, hNq1r⟩,
              ⟨hrrB, hrlImp, hNrl, hNrr⟩⟩
          · exact Or.inl ⟨by intro hx; simp at hx,
              ⟨by intro hx; simp at hx, hRq1l, hRq1r⟩,
              ⟨by intro hx; simp at hx, hRrl, hRrr⟩⟩
          · refine ⟨hh + 1, hh, ⟨k2, hBq1l, hBq1r, by simp; omega⟩,
              ⟨hh2, (by rwa [show hh2 = hh3 by omega] : Bal rl hh2),
                (by rwa [show hh2 = hh3 by omega] : Bal rr hh2), by simp; omega⟩,
              by simp⟩
        · have hq1b : q1.color = Black := color_black_of_not_red hq1
          rw [fixUp_rotL hq1b hrrB]
          refine ⟨?_, ?_, ?_, ?_⟩
          · simp only [inorder_node_any]
            simp only [inorder_node_any] at q1io
            have hne : ll.inorder ++ le :: lr.inorder ≠ [] := by simp
            rw [drop_one_append hne, q1io]
            simp only [List.append_assoc, List.cons_append]
          · refine ⟨hrrB, by intro _; simpa using hq1b, ?_, hNrr⟩
            exact ⟨hrlb, by intro hx; rw [hq1b] at hx; simp at hx, q1N, hNrl⟩
          · exact Or.inr ⟨rfl, rfl, by simpa using hq1b, by simpa using hrrB,
              ⟨fun _ => ⟨hq1b, hrlb⟩, q1R, hRrl⟩, hRrr⟩
          · refine ⟨hh2, hh2, ⟨hh2, q1B,
              (by rwa [show hh2 = hh3 by omega] : Bal rl hh2), by simp⟩,
              (by rwa [show hh2 = hh3 by omega] : Bal rr hh2), by simp⟩
    · have hlf : l.isNil = false := by simpa using hl
      have hP3 : l.color = Red ∨ l.left.color = Red := by
        by_cases h1 : l.color = Red
        · exact Or.inl h1
        · by_cases h2 : l.left.color = Red
          · exact Or.inr h2
          · exact absurd ⟨color_black_of_not_red h1, color_black_of_not_red h2⟩ hbb
      have hA := deleteMinA_spec fuel l hh (by simp at hs ⊢; omega) hNl hRl hBl hP3
      obtain ⟨q1io, q1N, q1R, q1B, q1c⟩ := hA
      set q1 := (Node.deleteMinA fuel l).1 with hq1def
      simp only [hl, Bool.false_eq_true, if_false, if_neg hbb, withLeft_node]
      have hfix : (Node.node se q1 r Black).fixUp = Node.node se q1 r Black :=
        fixUp_id hrb (by
          intro hx
          have := redsOK_red_left q1R hx.1
          rw [this] at hx
          simp at hx)
      rw [hfix]
      refine ⟨?_, ?_, ?_, ?_⟩
      · simp only [inorder_node_any]
        rw [drop_one_append (inorder_ne_nil hlf), q1io]
      · exact ⟨hrb, fun hx => redsOK_red_left q1R hx, q1N, hNr⟩
      · exact Or.inl ⟨by intro hx; simp at hx, q1R, hRr⟩
      · exact ⟨hh + 1, hh, q1B, hBr, by simp⟩

end Llrb

namespace Llrb

/-- `deleteMax` at a black root: the shape invariants survive except for
a possible red root with a red left child, repaired by blackening. -/
theorem deleteMaxA_root (fuel : Nat) (n : Node α) (h : Nat)
    (hs : n.size ≤ fuel) (hN : NoRR n) (hR : RedsOK n) (hB : Bal n h)
    (hc : n.color = Black) (hnn : n.isNil = false) :
    (Node.deleteMaxA fuel n).1.inorder.Sublist n.inorder ∧
    NoRR (Node.deleteMaxA fuel n).1 ∧ ARedsOK (Node.deleteMaxA fuel n).1 ∧
    ∃ h2, Bal (Node.deleteMaxA fuel n).1 h2 := by
  cases n with
  | nil => simp at hnn
  | node se l r c =>
  have hcb : c = Black := by simpa using hc
  subst hcb
  by_cases hlr : l.color = Red
  · -- a red left child satisfies the traversal precondition outright
    obtain ⟨hsu, hN2, hR2, hB2, _⟩ := deleteMaxA_spec fuel (Node.node se l r Black) h
      hs hR hB (Or.inl ⟨hN, Or.inr (by simpa using hlr)⟩)
    exact ⟨hsu, hN2, Or.inl hR2, h, hB2⟩
  · have hlb : l.color = Black := color_black_of_not_red hlr
    cases fuel with
    | zero => simp at hs
    | succ fuel =>
    obtain ⟨hrb, himp, hNl, hNr⟩ := hN
    obtain ⟨_, hRl, hRr⟩ := hR
    obtain ⟨hh, hBl, hBr, hhe⟩ := hB
    simp only [eq_self_iff_true, if_true] at hhe
    rw [Node.deleteMaxA]
    rw [if_neg (show ¬ (¬ l.isNil = true ∧ l.color = Red) from fun hx => by
      have := hx.2
      rw [hlb] at this
      simp at this)]
    simp only [right_node, left_node]
    by_cases hrn : r.isNil = true
    · have hre : r = .nil := by
        cases r
        · rfl
        · simp at hrn
      subst hre
      have hh0 : hh = 0 := by simpa using hBr
      have hle : l = .nil := bal_nil_of_zero hNl (by rwa [hh0] at hBl) hlb
      subst hle
      simp only [isNil_nil, if_pos]
      exact ⟨by simp, trivial, Or.inl trivial, 0, rfl⟩
    · have hrf : r.isNil = false := by simpa using hrn
      cases r with
      | nil => simp at hrf
      | node re rl rr rc =>
      have hrcb : rc = Black := by simpa using hrb
      subst hrcb
      obtain ⟨k, hBrl, hBrr, hk⟩ := hBr
      simp only [eq_self_iff_true, if_true] at hk
      obtain ⟨hrrB, hrlImp, hNrl, hNrr⟩ := hNr
      obtain ⟨_, hRrl, hRrr⟩ := hRr
      simp only [hrn, Bool.false_eq_true, if_false]
      by_cases hrl : rl.color = Red
      · rw [if_neg (show ¬ ((Node.node re rl rr Black).color = Black ∧
            (Node.node re rl rr Black).left.color = Black) from fun hx => by
          have := hx.2
          simp only [left_node] at this
          rw [hrl] at this
          simp at this)]
        have hA := deleteMaxA_spec fuel (Node.node re rl rr Black) hh
          (by simp at hs ⊢; omega)
          ⟨by intro hx; simp at hx, hRrl, hRrr⟩
          ⟨k, hBrl, hBrr, by simp; omega⟩
          (Or.inl ⟨⟨hrrB, hrlImp, hNrl, hNrr⟩, Or.inr (by simpa using hrl)⟩)
        obtain ⟨q1su, q1N, q1R, q1B, q1c⟩ := hA
        set q1 := (Node.deleteMaxA fuel (Node.node re rl rr Black)).1 with hq1def
        have hq1b : q1.color = Black :=
          color_black_of_not_red (fun hx => by have := q1c hx; simp at this)
        simp only [withRight_node]
        have hfix : (Node.node se l q1 Black).fixUp = Node.node se l q1 Black :=
          fixUp_id hq1b (fun hx => by
            have := hx.1
            rw [hlb] at this
            simp at this)
        rw [hfix]
        refine ⟨?_, ?_, ?_, ?_⟩
        · simp only [inorder_node_any] at q1su ⊢
          exact (q1su.cons₂ se).append_left l.inorder
        · exact ⟨hq1b, by intro hx; rw [hlb] at hx; simp at hx, hNl, q1N⟩
        · exact Or.inl ⟨by intro hx; simp at hx, hRl, q1R⟩
        · exact ⟨hh + 1, hh, hBl, q1B, by simp⟩
      · have hrlb : rl.color = Black := color_black_of_not_red hrl
        rw [if_pos (show (Node.node re rl rr Black).color = Black ∧
            (Node.node re rl rr Black).left.color = Black from
          ⟨rfl, by simpa using hrlb⟩)]
        have hlf : l.isNil = false := by
          cases l with
          | nil =>
            have h0 : hh = 0 := by simpa using hBl
            exact ((by omega : False)).elim
          | node le ll lr lc => rfl
        cases l with
        | nil => simp at hlf
        | node le ll lr lc =>
        have hlcb : lc = Black := by simpa using hlb
        subst hlcb
        obtain ⟨k2, hBll, hBlr, hk2⟩ := hBl
        simp only [eq_self_iff_true, if_true] at hk2
        obtain ⟨hlrB, hllImp, hNll, hNlr⟩ := hNl
        obtain ⟨_, hRll, hRlr⟩ := hRl
        by_cases hll : ll.color = Red
        · obtain ⟨lle, lll, llr, hlle⟩ := ne_nil_of_red hll
          subst hlle
          rw [mrr_red]
          simp only [not_black, right_node, withRight_node]
          obtain ⟨k3, hBlll, hBllr, hk3⟩ := hBll
          simp only [red_eq_black_iff, if_false] at hk3
          obtain ⟨hllrB, hlllImp, hNlll, hNllr⟩ := hNll
          obtain ⟨_, hRlll, hRllr⟩ := hRll
          have hA := deleteMaxA_spec fuel
            (Node.node se lr (Node.node re rl rr Red) Black) hh
            (by simp at hs ⊢; omega)
            ⟨by intro hx; simp at hx, hRlr, ⟨fun _ => ⟨hrlb, hrrB⟩, hRrl, hRrr⟩⟩
            ⟨k2, hBlr, ⟨k, hBrl, hBrr, by simp; omega⟩, by simp; omega⟩
            (Or.inr ⟨rfl, by simpa using hlrB, rfl, by simpa using hrlb,
              hNlr, ⟨hrrB, hrlImp, hNrl, hNrr⟩⟩)
          obtain ⟨q1su, q1N, q1R, q1B, q1c⟩ := hA
          set q1 := (Node.deleteMaxA fuel
            (Node.node se lr (Node.node re rl rr Red) Black)).1 with hq1def
          have hq1b : q1.color = Black :=
            color_black_of_not_red (fun hx => by have := q1c hx; simp at this)
          have hfix : (Node.node le (Node.node lle lll llr Black) q1 Black).fixUp
              = Node.node le (Node.node lle lll llr Black) q1 Black :=
            fixUp_id hq1b (fun hx => by
              have := hx.1
              simp at this)
          rw [hfix]
          refine ⟨?_, ?_, ?_, ?_⟩
          · simp only [inorder_node_any] at q1su ⊢
            simp only [List.append_assoc, List.cons_append] at q1su ⊢
            exact ((((q1su.cons₂ le).append_left llr.inorder).cons₂
              lle).append_left lll.inorder)
          · exact ⟨hq1b, by intro hx; simp at hx,
              ⟨hllrB, hlllImp, hNlll, hNllr⟩, q1N⟩
          · exact Or.inl ⟨by intro hx; simp at hx,
              ⟨by intro hx; simp at hx, hRlll, hRllr⟩, q1R⟩
          · exact ⟨hh + 1, hh, ⟨k3, hBlll, hBllr, by simp; omega⟩, q1B, by simp⟩
        · have hllB : ll.color = Black := color_black_of_not_red hll
          rw [mrr_black hllB]
          simp only [not_black, not_red, right_node, withRight_node]
          have hA := deleteMaxA_spec fuel (Node.node re rl rr Red) k
            (by simp at hs ⊢; omega)
            ⟨fun _ => ⟨hrlb, hrrB⟩, hRrl, hRrr⟩
            ⟨k, hBrl, hBrr, by simp⟩
            (Or.inl ⟨⟨hrrB, hrlImp, hNrl, hNrr⟩, Or.inl rfl⟩)
          obtain ⟨q1su, q1N, q1R, q1B, q1c⟩ := hA
          set q1 := (Node.deleteMaxA fuel (Node.node re rl rr Red)).1 with hq1def
          by_cases hq1 : q1.color = Red
          · obtain ⟨q1e, q1l, q1r, hq1e⟩ := ne_nil_of_red hq1
            rw [hq1e] at q1su q1N q1R q1B
            obtain ⟨hq1cc, hRq1l, hRq1r⟩ := q1R
            obtain ⟨hq1lB, hq1rB⟩ := hq1cc rfl
            obtain ⟨hq1rB2, hq1lImp, hNq1l, hNq1r⟩ := q1N
            obtain ⟨kq, hBq1l, hBq1r, hkq⟩ := q1B
            simp only [red_eq_black_iff, if_false] at hkq
            rw [hq1e, fixUp_two_red]
            simp only [not_red]
            refine ⟨?_, ?_, ?_, ?_⟩
            · simp only [inorder_node_any] at q1su ⊢
              simp only [List.append_assoc, List.cons_append] at q1su ⊢
              exact (((q1su.cons₂ se).append_left lr.inorder).cons₂
                le).append_left ll.inorder
            · exact ⟨rfl, by intro hx; simp at hx,
                ⟨hlrB, hllImp, hNll, hNlr⟩,
                ⟨hq1rB2, hq1lImp, hNq1l, hNq1r⟩⟩
            · exact Or.inl ⟨by intro hx; simp at hx,
                ⟨by intro hx; simp at hx, hRll, hRlr⟩,
                ⟨by intro hx; simp at hx, hRq1l, hRq1r⟩⟩
            · exact ⟨hh + 1, hh, ⟨k2, hBll, hBlr, by simp; omega⟩,
                ⟨kq, hBq1l, hBq1r, by simp; omega⟩, by simp⟩
          · have hq1b : q1.color = Black := color_black_of_not_red hq1
            have hfix : (Node.node se (Node.node le ll lr Red) q1 Red).fixUp
                = Node.node se (Node.node le ll lr Red) q1 Red :=
              fixUp_id hq1b (fun hx => by
                have := hx.2
                simp only [left_node] at this
                rw [hllB] at this
                simp at this)
            rw [hfix]
            refine ⟨?_, ?_, ?_, ?_⟩
            · simp only [inorder_node_any] at q1su ⊢
              simp only [List.append_assoc, List.cons_append] at q1su ⊢
              exact ((q1su.cons₂ se).append_left lr.inorder).cons₂ le
                |>.append_left ll.inorder
            · exact ⟨hq1b, by intro _; simpa using hllB,
                ⟨hlrB, hllImp, hNll, hNlr⟩, q1N⟩
            · exact Or.inr ⟨rfl, rfl, by simpa using hllB, by simpa using hq1b,
                ⟨fun _ => ⟨hllB, hlrB⟩, hRll, hRlr⟩, q1R⟩
            · exact ⟨k2, k2, ⟨k2, hBll, hBlr, by simp⟩,
                (by rwa [show k2 = k by omega] : Bal q1 k2), by simp⟩

end Llrb

namespace Llrb

/-- `delete` at a black root: the element (if present) is removed, and
the shape invariants survive except for a possible red root with a red
left child, repaired by the tree-level blackening. -/
theorem deleteA_root (e : Int) (fuel : Nat) (n : Node Int) (h : Nat)
    (hs : n.size ≤ fuel) (hN : NoRR n) (hR : RedsOK n) (hB : Bal n h)
    (hso : n.inorder.Pairwise (· < ·)) (hc : n.color = Black)
    (hnn : n.isNil = false) :
    (Node.deleteA (icmp e) fuel n).1.inorder.Sublist n.inorder ∧
    NoRR (Node.deleteA (icmp e) fuel n).1 ∧
    ARedsOK (Node.deleteA (icmp e) fuel n).1 ∧
    ∃ h2, Bal (Node.deleteA (icmp e) fuel n).1 h2 := by
  cases n with
  | nil => simp at hnn
  | node se l r c =>
  have hcb : c = Black := by simpa using hc
  subst hcb
  by_cases hlr : l.color = Red
  · -- a red left child satisfies the traversal precondition outright
    obtain ⟨hsu, hN2, hR2, hB2, _⟩ := deleteA_spec e fuel (Node.node se l r Black) h
      hs hR hB hso (Or.inl ⟨hN, Or.inr (by simpa using hlr)⟩)
    exact ⟨hsu, hN2, Or.inl hR2, h, hB2⟩
  · have hlb : l.color = Black := color_black_of_not_red hlr
    cases fuel with
    | zero => simp at hs
    | succ fuel =>
    obtain ⟨hrb, himp, hNl, hNr⟩ := hN
    obtain ⟨_, hRl, hRr⟩ := hR
    obtain ⟨hh, hBl, hBr, hhe⟩ := hB
    simp only [eq_self_iff_true, if_true] at hhe
    rw [Node.deleteA]
    by_cases hlt : icmp e se < 0
    · rw [if_pos hlt]
      by_cases hl : l.isNil = true
      · have hle : l = .nil := by
          cases l
          · rfl
          · simp at hl
        subst hle
        rw [if_pos (show (Node.nil : Node Int).isNil = true from rfl)]
        have hfix : (Node.node se Node.nil r Black).fixUp = Node.node se Node.nil r Black :=
          fixUp_id hrb (fun hx => by have := hx.1; simp at this)
        rw [hfix]
        exact ⟨List.Sublist.refl _, ⟨hrb, himp, trivial, hNr⟩,
          Or.inl ⟨by intro hx; simp at hx, trivial, hRr⟩, h, hh, hBl, hBr,
          by simp; omega⟩
      · by_cases hbb : l.color = Black ∧ l.left.color = Black
        · cases l with
          | nil => simp at hl
          | node le ll lr lc =>
          have hlcb : lc = Black := by simpa using hbb.1
          subst hlcb
          obtain ⟨hh2, hBll, hBlr, hhe2⟩ := hBl
          simp only [eq_self_iff_true, if_true] at hhe2
          have hrf : r.isNil = false := ne_nil_of_bal_pos hh hBr (by omega)
          cases r with
          | nil => simp at hrf
          | node re rl rr rc =>
          have hrcb : rc = Black := by simpa using hrb
          subst hrcb
          obtain ⟨hh3, hBrl, hBrr, hhe3⟩ := hBr
          simp only [eq_self_iff_true, if_true] at hhe3
          obtain ⟨hrrB, hrlImp, hNrl, hNrr⟩ := hNr
          obtain ⟨_, hRrl, hRrr⟩ := hRr
          obtain ⟨hlrB, hllImp, hNll, hNlr⟩ := hNl
          obtain ⟨_, hRll, hRlr⟩ := hRl
          have hllb : ll.color = Black := by simpa using hbb.2
          simp only [hl, Bool.false_eq_true, if_false, if_pos hbb]
          by_cases hrl : rl.color = Red
          · obtain ⟨rle, rll, rlr, hrle⟩ := ne_nil_of_red hrl
            subst hrle
            rw [mrl_red]
            simp only [not_black, left_node, withLeft_node]
            obtain ⟨hh4, hBrll, hBrlr, hhe4⟩ := hBrl
            simp only [red_eq_black_iff, if_false] at hhe4
            have hrllb : rll.color = Black := by simpa using hrlImp hrl
            obtain ⟨hrlrB, _, hNrll, hNrlr⟩ := hNrl
            obtain ⟨_, hRrll, hRrlr⟩ := hRrl
            have hsubA : (Node.node se (Node.node le ll lr Red) rll Black).inorder.Sublist
                (Node.node se (Node.node le ll lr Black)
                  (Node.node re (Node.node rle rll rlr Red) rr Black) Black).inorder := by
              simp only [inorder_node_any, List.append_assoc, List.cons_append]
              exact ((((List.sublist_append_left rll.inorder _).cons₂
                se).append_left lr.inorder).cons₂ le).append_left ll.inorder
            have hA := deleteA_spec e fuel
              (Node.node se (Node.node le ll lr Red) rll Black) hh
              (by simp at hs ⊢; omega)
              ⟨by intro hx; simp at hx, ⟨fun _ => ⟨hllb, hlrB⟩, hRll, hRlr⟩, hRrll⟩
              ⟨hh2, ⟨hh2, hBll, hBlr, by simp⟩,
                (by rwa [show hh2 = hh4 by omega] : Bal rll hh2), by simp; omega⟩
              (hso.sublist hsubA)
              (Or.inl ⟨⟨hrllb, by intro _; simpa using hllb,
                ⟨hlrB, hllImp, hNll, hNlr⟩, hNrll⟩, Or.inr (by simp)⟩)
            obtain ⟨q1su, q1N, q1R, q1B, q1c⟩ := hA
            set q1 := (Node.deleteA (icmp e) fuel
              (Node.node se (Node.node le ll lr Red) rll Black)).1 with hq1def
            have hq1b : q1.color = Black :=
              color_black_of_not_red (fun hx => by have := q1c hx; simp at this)
            have hfix : (Node.node rle q1 (Node.node re rlr rr Black) Black).fixUp
                = Node.node rle q1 (Node.node re rlr rr Black) Black :=
              fixUp_id rfl (by
                intro hx
                rw [hq1b] at hx
                simp at hx)
            rw [hfix]
            refine ⟨?_, ?_, ?_, ?_⟩
            · simp only [inorder_node_any, List.append_assoc, List.cons_append]
                at q1su ⊢
              simpa only [List.append_assoc, List.cons_append] using
                q1su.append (List.Sublist.refl
                  (rle :: (rlr.inorder ++ re :: rr.inorder)))
            · refine ⟨by simp, ?_, q1N,
                ⟨hrrB, by intro hx; rw [hrlrB] at hx; simp at hx, hNrlr, hNrr⟩⟩
              intro hx
              rw [hq1b] at hx
              simp at hx
            · exact Or.inl ⟨by intro hx; simp at hx, q1R,
                ⟨by intro hx; simp at hx, hRrlr, hRrr⟩⟩
            · refine ⟨hh + 1, hh, q1B, ⟨hh2, ?_, ?_, by simp; omega⟩, by simp⟩
              · rwa [show hh2 = hh4 by omega]
              · rwa [show hh2 = hh3 by omega]
          · have hrlb : rl.color = Black := color_black_of_not_red hrl
            rw [mrl_black hrlb]
            simp only [not_black, not_red, left_node, withLeft_node]
            have hsubA : (Node.node le ll lr Red).inorder.Sublist
                (Node.node se (Node.node le ll lr Black)
                  (Node.node re rl rr Black) Black).inorder := by
              simp only [inorder_node_any]
              exact List.sublist_append_left _ _
            have hA := deleteA_spec e fuel (Node.node le ll lr Red) hh2
              (by simp at hs ⊢; omega)
              ⟨fun _ => ⟨hllb, hlrB⟩, hRll, hRlr⟩
              ⟨hh2, hBll, hBlr, by simp⟩
              (hso.sublist hsubA)
              (Or.inl ⟨⟨hlrB, hllImp, hNll, hNlr⟩, Or.inl rfl⟩)
            obtain ⟨q1su, q1N, q1R, q1B, q1c⟩ := hA
            set q1 := (Node.deleteA (icmp e) fuel (Node.node le ll lr Red)).1
              with hq1def
            by_cases hq1 : q1.color = Red
            · obtain ⟨q1e, q1l, q1r, hq1e⟩ := ne_nil_of_red hq1
              rw [hq1e] at q1su q1N q1R q1B
              rw [hq1e, fixUp_two_red]
              simp only [not_red]
              obtain ⟨k2, hBq1l, hBq1r, hk2⟩ := q1B
              simp only [red_eq_black_iff, if_false] at hk2
              obtain ⟨hq1cc, hRq1l, hRq1r⟩ := q1R
              obtain ⟨hq1rB, hq1lImp, hNq1l, hNq1r⟩ := q1N
              refine ⟨?_, ?_, ?_, ?_⟩
              · simp only [inorder_node_any, List.append_assoc, List.cons_append]
                  at q1su ⊢
                simpa only [List.append_assoc, List.cons_append] using
                  q1su.append (List.Sublist.refl
                    (se :: (rl.inorder ++ re :: rr.inorder)))
              · exact ⟨by simp, by intro hx; simp at hx,
                  ⟨hq1rB, hq1lImp, hNq1l, hNq1r⟩,
                  ⟨hrrB, hrlImp, hNrl, hNrr⟩⟩
              · exact Or.inl ⟨by intro hx; simp at hx,
                  ⟨by intro hx; simp at hx, hRq1l, hRq1r⟩,
                  ⟨by intro hx; simp at hx, hRrl, hRrr⟩⟩
              · refine ⟨hh + 1, hh, ⟨k2, hBq1l, hBq1r, by simp; omega⟩,
                  ⟨hh2, (by rwa [show hh2 = hh3 by omega] : Bal rl hh2),
                    (by rwa [show hh2 = hh3 by omega] : Bal rr hh2), by simp; omega⟩,
                  by simp⟩
            · have hq1b : q1.color = Black := color_black_of_not_red hq1
              rw [fixUp_rotL hq1b hrrB]
              refine ⟨?_, ?_, ?_, ?_⟩
              · simp only [inorder_node_any, List.append_assoc, List.cons_append]
                  at q1su ⊢
                simpa only [List.append_assoc, List.cons_append] using
                  q1su.append (List.Sublist.refl
                    (se :: (rl.inorder ++ re :: rr.inorder)))
              · refine ⟨hrrB, by intro _; simpa using hq1b, ?_, hNrr⟩
                exact ⟨hrlb, by intro hx; rw [hq1b] at hx; simp at hx, q1N, hNrl⟩
              · exact Or.inr ⟨rfl, rfl, by simpa using hq1b, by simpa using hrrB,
                  ⟨fun _ => ⟨hq1b, hrlb⟩, q1R, hRrl⟩, hRrr⟩
              · refine ⟨hh2, hh2, ⟨hh2, q1B,
                  (by rwa [show hh2 = hh3 by omega] : Bal rl hh2), by simp⟩,
                  (by rwa [show hh2 = hh3 by omega] : Bal rr hh2), by simp⟩
        · have hlf : l.isNil = false := by simpa using hl
          have hP3 : l.color = Red ∨ l.left.color = Red := by
            by_cases h1 : l.color = Red
            · exact Or.inl h1
            · by_cases h2 : l.left.color = Red
              · exact Or.inr h2
              · exact absurd ⟨color_black_of_not_red h1, color_black_of_not_red h2⟩ hbb
          have hsubA : l.inorder.Sublist (Node.node se l r Black).inorder := by
            simp only [inorder_node_any]
            exact List.sublist_append_left _ _
          have hA := deleteA_spec e fuel l hh (by simp at hs ⊢; omega) hRl hBl
            (hso.sublist hsubA) (Or.inl ⟨hNl, hP3⟩)
          obtain ⟨q1su, q1N, q1R, q1B, q1c⟩ := hA
          set q1 := (Node.deleteA (icmp e) fuel l).1 with hq1def
          simp only [hl, Bool.false_eq_true, if_false, if_neg hbb, withLeft_node]
          have hq1b : q1.color = Black :=
            color_black_of_not_red (fun hx => by
              have := q1c hx
              rw [hlb] at this
              simp at this)
          have hfix : (Node.node se q1 r Black).fixUp = Node.node se q1 r Black :=
            fixUp_id hrb (by
              intro hx
              rw [hq1b] at hx
              simp at hx)
          rw [hfix]
          refine ⟨?_, ?_, ?_, ?_⟩
          · simp only [inorder_node_any]
            exact q1su.append (List.Sublist.refl _)
          · exact ⟨hrb, by intro hx; rw [hq1b] at hx; simp at hx, q1N, hNr⟩
          · exact Or.inl ⟨by intro hx; simp at hx, q1R, hRr⟩
          · exact ⟨hh + 1, hh, q1B, hBr, by simp⟩
    · rw [if_neg hlt, if_neg (show ¬ l.color = Red from hlr)]
      simp only [elemOr_node, right_node, left_node]
      by_cases hrn : r.isNil = true
      · have hre : r = .nil := by
          cases r
          · rfl
          · simp at hrn
        subst hre
        by_cases h0 : icmp e se = 0
        · rw [if_pos ⟨h0, rfl⟩]
          exact ⟨by simp, trivial, Or.inl trivial, 0, rfl⟩
        · rw [if_neg (show ¬ (icmp e se = 0 ∧
              (Node.nil : Node Int).isNil = true) from fun hx => h0 hx.1)]
          rw [if_pos (show (Node.nil : Node Int).isNil = true from rfl)]
          have hfix : (Node.node se l Node.nil Black).fixUp
              = Node.node se l Node.nil Black :=
            fixUp_id rfl (fun hx => by
              have := hx.1
              rw [hlb] at this
              simp at this)
          rw [hfix]
          exact ⟨List.Sublist.refl _, ⟨rfl, himp, hNl, trivial⟩,
            Or.inl ⟨by intro hx; simp at hx, hRl, trivial⟩, h, hh, hBl, hBr,
            by simp; omega⟩
      · have hrf : r.isNil = false := by simpa using hrn
        cases r with
        | nil => simp at hrf
        | node re rl rr rc =>
        have hrcb : rc = Black := by simpa using hrb
        subst hrcb
        obtain ⟨k, hBrl, hBrr, hk⟩ := hBr
        simp only [eq_self_iff_true, if_true] at hk
        obtain ⟨hrrB, hrlImp, hNrl, hNrr⟩ := hNr
        obtain ⟨_, hRrl, hRrr⟩ := hRr
        rw [if_neg (show ¬ (icmp e se = 0 ∧
            (Node.node re rl rr Black).isNil = true) from fun hx => by
          have := hx.2
          simp at this)]
        simp only [hrn, Bool.false_eq_true, if_false]
        by_cases hrl : rl.color = Red
        · rw [if_neg (show ¬ ((Node.node re rl rr Black).color = Black ∧
              (Node.node re rl rr Black).left.color = Black) from fun hx => by
            have := hx.2
            simp only [left_node] at this
            rw [hrl] at this
            simp at this)]
          simp only [elemOr_node, right_node, withElem_node, withRight_node]
          by_cases h0 : icmp e se = 0
          · rw [if_pos h0]
            have hA := deleteMinA_spec fuel (Node.node re rl rr Black) hh
              (by simp at hs ⊢; omega)
              ⟨hrrB, hrlImp, hNrl, hNrr⟩
              ⟨by intro hx; simp at hx, hRrl, hRrr⟩
              ⟨k, hBrl, hBrr, by simp; omega⟩
              (Or.inr (by simpa using hrl))
            obtain ⟨q1io, q1N, q1R, q1B, q1c⟩ := hA
            set q1 := (Node.deleteMinA fuel (Node.node re rl rr Black)).1 with hq1def
            have hq1b : q1.color = Black :=
              color_black_of_not_red (fun hx => by have := q1c hx; simp at this)
            set mE := (Node.node re rl rr Black).minN.elemOr se with hmEdef
            have hmc : mE :: (Node.node re rl rr Black).inorder.drop 1
                = (Node.node re rl rr Black).inorder := minN_cons se _ rfl
            have hfix : (Node.node mE l q1 Black).fixUp = Node.node mE l q1 Black :=
              fixUp_id hq1b (fun hx => by
                have := hx.1
                rw [hlb] at this
                simp at this)
            rw [hfix]
            refine ⟨?_, ?_, ?_, ?_⟩
            · simp only [inorder_node_any] at q1io ⊢
              rw [q1io]
              rw [show l.inorder ++ mE :: List.drop 1
                    (rl.inorder ++ re :: rr.inorder)
                  = l.inorder ++ (mE :: List.drop 1
                    (rl.inorder ++ re :: rr.inorder)) from rfl,
                show mE :: List.drop 1 (rl.inorder ++ re :: rr.inorder)
                  = rl.inorder ++ re :: rr.inorder by
                    simpa only [inorder_node_any] using hmc]
              exact (List.sublist_cons_self se _).append_left l.inorder
            · exact ⟨hq1b, himp, hNl, q1N⟩
            · exact Or.inl ⟨by intro hx; simp at hx, hRl, q1R⟩
            · exact ⟨hh + 1, hh, hBl, q1B, by simp⟩
          · rw [if_neg h0]
            have hsubA : (Node.node re rl rr Black).inorder.Sublist
                (Node.node se l (Node.node re rl rr Black) Black).inorder := by
              simp only [inorder_node_any]
              exact (List.sublist_cons_self se _).trans
                (List.sublist_append_right l.inorder _)
            have hA := deleteA_spec e fuel (Node.node re rl rr Black) hh
              (by simp at hs ⊢; omega)
              ⟨by intro hx; simp at hx, hRrl, hRrr⟩
              ⟨k, hBrl, hBrr, by simp; omega⟩
              (hso.sublist hsubA)
              (Or.inl ⟨⟨hrrB, hrlImp, hNrl, hNrr⟩, Or.inr (by simpa using hrl)⟩)
            obtain ⟨q1su, q1N, q1R, q1B, q1c⟩ := hA
            set q1 := (Node.deleteA (icmp e) fuel (Node.node re rl rr Black)).1
              with hq1def
            have hq1b : q1.color = Black :=
              color_black_of_not_red (fun hx => by have := q1c hx; simp at this)
            have hfix : (Node.node se l q1 Black).fixUp = Node.node se l q1 Black :=
              fixUp_id hq1b (fun hx => by
                have := hx.1
                rw [hlb] at this
                simp at this)
            rw [hfix]
            refine ⟨?_, ?_, ?_, ?_⟩
            · simp only [inorder_node_any] at q1su ⊢
              exact (q1su.cons₂ se).append_left l.inorder
            · exact ⟨hq1b, himp, hNl, q1N⟩
            · exact Or.inl ⟨by intro hx; simp at hx, hRl, q1R⟩
            · exact ⟨hh + 1, hh, hBl, q1B, by simp⟩
        · have hrlb : rl.color = Black := color_black_of_not_red hrl
          rw [if_pos (show (Node.node re rl rr Black).color = Black ∧
              (Node.node re rl rr Black).left.color = Black from
            ⟨rfl, by simpa using hrlb⟩)]
          have hlf : l.isNil = false := by
            cases l with
            | nil =>
              have h0 : hh = 0 := by simpa using hBl
              exact ((by omega : False)).elim
            | node le ll lr lc => rfl
          cases l with
          | nil => simp at hlf
          | node le ll lr lc =>
          have hlcb : lc = Black := by simpa using hlb
          subst hlcb
          obtain ⟨k2, hBll, hBlr, hk2⟩ := hBl
          simp only [eq_self_iff_true, if_true] at hk2
          obtain ⟨hlrB, hllImp, hNll, hNlr⟩ := hNl
          obtain ⟨_, hRll, hRlr⟩ := hRl
          by_cases hll : ll.color = Red
          · obtain ⟨lle, lll, llr, hlle⟩ := ne_nil_of_red hll
            subst hlle
            rw [mrr_red]
            simp only [not_black, elemOr_node, right_node, withElem_node,
              withRight_node]
            have hlese : le < se := by
              have hso2 := hso
              simp only [inorder_node_any] at hso2
              exact (List.pairwise_append.mp hso2).2.2 le (by simp) se (by simp)
            have h0 : ¬ icmp e le = 0 := by
              simp only [icmp] at hlt ⊢
              omega
            rw [if_neg h0]
            obtain ⟨k3, hBlll, hBllr, hk3⟩ := hBll
            simp only [red_eq_black_iff, if_false] at hk3
            obtain ⟨hllrB, hlllImp, hNlll, hNllr⟩ := hNll
            obtain ⟨_, hRlll, hRllr⟩ := hRll
            have hsubA : (Node.node se lr (Node.node re rl rr Red) Black).inorder.Sublist
                (Node.node se (Node.node le (Node.node lle lll llr Red) lr Black)
                  (Node.node re rl rr Black) Black).inorder := by
              simp only [inorder_node_any, List.append_assoc, List.cons_append]
              refine List.Sublist.trans ?_
                (List.sublist_append_right lll.inorder _)
              refine List.Sublist.trans ?_ (List.sublist_cons_self lle _)
              refine List.Sublist.trans ?_
                (List.sublist_append_right llr.inorder _)
              exact (List.Sublist.refl _).cons le
            have hA := deleteA_spec e fuel
              (Node.node se lr (Node.node re rl rr Red) Black) hh
              (by simp at hs ⊢; omega)
              ⟨by intro hx; simp at hx, hRlr,
                ⟨fun _ => ⟨hrlb, hrrB⟩, hRrl, hRrr⟩⟩
              ⟨k2, hBlr, ⟨k, hBrl, hBrr, by simp; omega⟩, by simp; omega⟩
              (hso.sublist hsubA)
              (Or.inr ⟨rfl, by simpa using hlrB, rfl, by simpa using hrlb,
                hNlr, ⟨hrrB, hrlImp, hNrl, hNrr⟩, by
                  simp only [elemOr_node, icmp] at hlt ⊢
                  omega⟩)
            obtain ⟨q1su, q1N, q1R, q1B, q1c⟩ := hA
            set q1 := (Node.deleteA (icmp e) fuel
              (Node.node se lr (Node.node re rl rr Red) Black)).1 with hq1def
            have hq1b : q1.color = Black :=
              color_black_of_not_red (fun hx => by have := q1c hx; simp at this)
            have hfix : (Node.node le (Node.node lle lll llr Black) q1 Black).fixUp
                = Node.node le (Node.node lle lll llr Black) q1 Black :=
              fixUp_id hq1b (fun hx => by
                have := hx.1
                simp at this)
            rw [hfix]
            refine ⟨?_, ?_, ?_, ?_⟩
            · simp only [inorder_node_any, List.append_assoc, List.cons_append]
                at q1su ⊢
              exact ((((q1su.cons₂ le).append_left llr.inorder).cons₂
                lle).append_left lll.inorder)
            · exact ⟨hq1b, by intro hx; simp at hx,
                ⟨hllrB, hlllImp, hNlll, hNllr⟩, q1N⟩
            · exact Or.inl ⟨by intro hx; simp at hx,
                ⟨by intro hx; simp at hx, hRlll, hRllr⟩, q1R⟩
            · exact ⟨hh + 1, hh, ⟨k3, hBlll, hBllr, by simp; omega⟩, q1B, by simp⟩
          · have hllB : ll.color = Black := color_black_of_not_red hll
            rw [mrr_black hllB]
            simp only [not_black, not_red, elemOr_node, right_node,
              withElem_node, withRight_node]
            by_cases h0 : icmp e se = 0
            · rw [if_pos h0]
              have hA := deleteMinA_spec fuel (Node.node re rl rr Red) k
                (by simp at hs ⊢; omega)
                ⟨hrrB, hrlImp, hNrl, hNrr⟩
                ⟨fun _ => ⟨hrlb, hrrB⟩, hRrl, hRrr⟩
                ⟨k, hBrl, hBrr, by simp⟩
                (Or.inl rfl)
              obtain ⟨q1io, q1N, q1R, q1B, q1c⟩ := hA
              set q1 := (Node.deleteMinA fuel (Node.node re rl rr Red)).1
                with hq1def
              set mE := (Node.node re rl rr Red).minN.elemOr se with hmEdef
              have hmc : mE :: (Node.node re rl rr Red).inorder.drop 1
                  = (Node.node re rl rr Red).inorder := minN_cons se _ rfl
              by_cases hq1 : q1.color = Red
              · obtain ⟨q1e, q1l, q1r, hq1e⟩ := ne_nil_of_red hq1
                rw [hq1e] at q1io q1N q1R q1B
                obtain ⟨hq1cc, hRq1l, hRq1r⟩ := q1R
                obtain ⟨hq1lB, hq1rB⟩ := hq1cc rfl
                obtain ⟨hq1rB2, hq1lImp, hNq1l, hNq1r⟩ := q1N
                obtain ⟨kq, hBq1l, hBq1r, hkq⟩ := q1B
                simp only [red_eq_black_iff, if_false] at hkq
                rw [hq1e, fixUp_two_red]
                simp only [not_red]
                refine ⟨?_, ?_, ?_, ?_⟩
                · simp only [inorder_node_any] at q1io ⊢
                  rw [q1io]
                  rw [show (ll.inorder ++ le :: lr.inorder) ++
                        mE :: List.drop 1 (rl.inorder ++ re :: rr.inorder)
                      = (ll.inorder ++ le :: lr.inorder) ++
                        (mE :: List.drop 1 (rl.inorder ++ re :: rr.inorder))
                      from rfl,
                    show mE :: List.drop 1 (rl.inorder ++ re :: rr.inorder)
                      = rl.inorder ++ re :: rr.inorder by
                        simpa only [inorder_node_any] using hmc]
                  exact (List.sublist_cons_self se _).append_left _
                · exact ⟨rfl, by intro hx; simp at hx,
                    ⟨hlrB, hllImp, hNll, hNlr⟩,
                    ⟨hq1rB2, hq1lImp, hNq1l, hNq1r⟩⟩
                · exact Or.inl ⟨by intro hx; simp at hx,
                    ⟨by intro hx; simp at hx, hRll, hRlr⟩,
                    ⟨by intro hx; simp at hx, hRq1l, hRq1r⟩⟩
                · refine ⟨hh + 1, hh, ⟨k2, hBll, hBlr, by simp; omega⟩,
                    ⟨kq, hBq1l, hBq1r, by simp; omega⟩, by simp⟩
              · have hq1b : q1.color = Black := color_black_of_not_red hq1
                have hfix : (Node.node mE (Node.node le ll lr Red) q1 Red).fixUp
                    = Node.node mE (Node.node le ll lr Red) q1 Red :=
                  fixUp_id hq1b (fun hx => by
                    have := hx.2
                    simp only [left_node] at this
                    rw [hllB] at this
                    simp at this)
                rw [hfix]
                refine ⟨?_, ?_, ?_, ?_⟩
                · simp only [inorder_node_any] at q1io ⊢
                  rw [q1io]
                  rw [show (ll.inorder ++ le :: lr.inorder) ++
                        mE :: List.drop 1 (rl.inorder ++ re :: rr.inorder)
                      = (ll.inorder ++ le :: lr.inorder) ++
                        (mE :: List.drop 1 (rl.inorder ++ re :: rr.inorder))
                      from rfl,
                    show mE :: List.drop 1 (rl.inorder ++ re :: rr.inorder)
                      = rl.inorder ++ re :: rr.inorder by
                        simpa only [inorder_node_any] using hmc]
                  exact (List.sublist_cons_self se _).append_left _
                · exact ⟨hq1b, by intro _; simpa using hllB,
                    ⟨hlrB, hllImp, hNll, hNlr⟩, q1N⟩
                · exact Or.inr ⟨rfl, rfl, by simpa using hllB, by simpa using hq1b,
                    ⟨fun _ => ⟨hllB, hlrB⟩, hRll, hRlr⟩, q1R⟩
                · exact ⟨k2, k2, ⟨k2, hBll, hBlr, by simp⟩,
                    (by rwa [show k2 = k by omega] : Bal q1 k2), by simp⟩
            · rw [if_neg h0]
              have hsubA : (Node.node re rl rr Red).inorder.Sublist
                  (Node.node se (Node.node le ll lr Black)
                    (Node.node re rl rr Black) Black).inorder := by
                simp only [inorder_node_any]
                exact (List.sublist_cons_self se _).trans
                  (List.sublist_append_right _ _)
              have hA := deleteA_spec e fuel (Node.node re rl rr Red) k
                (by simp at hs ⊢; omega)
                ⟨fun _ => ⟨hrlb, hrrB⟩, hRrl, hRrr⟩
                ⟨k, hBrl, hBrr, by simp⟩
                (hso.sublist hsubA)
                (Or.inl ⟨⟨hrrB, hrlImp, hNrl, hNrr⟩, Or.inl rfl⟩)
              obtain ⟨q1su, q1N, q1R, q1B, q1c⟩ := hA
              set q1 := (Node.deleteA (icmp e) fuel (Node.node re rl rr Red)).1
                with hq1def
              by_cases hq1 : q1.color = Red
              · obtain ⟨q1e, q1l, q1r, hq1e⟩ := ne_nil_of_red hq1
                rw [hq1e] at q1su q1N q1R q1B
                obtain ⟨hq1cc, hRq1l, hRq1r⟩ := q1R
                obtain ⟨hq1lB, hq1rB⟩ := hq1cc rfl
                obtain ⟨hq1rB2, hq1lImp, hNq1l, hNq1r⟩ := q1N
                obtain ⟨kq, hBq1l, hBq1r, hkq⟩ := q1B
                simp only [red_eq_black_iff, if_false] at hkq
                rw [hq1e, fixUp_two_red]
                simp only [not_red]
                refine ⟨?_, ?_, ?_, ?_⟩
                · simp only [inorder_node_any] at q1su ⊢
                  simp only [List.append_assoc, List.cons_append] at q1su ⊢
                  exact (((q1su.cons₂ se).append_left lr.inorder).cons₂
                    le).append_left ll.inorder
                · exact ⟨rfl, by intro hx; simp at hx,
                    ⟨hlrB, hllImp, hNll, hNlr⟩,
                    ⟨hq1rB2, hq1lImp, hNq1l, hNq1r⟩⟩
                · exact Or.inl ⟨by intro hx; simp at hx,
                    ⟨by intro hx; simp at hx, hRll, hRlr⟩,
                    ⟨by intro hx; simp at hx, hRq1l, hRq1r⟩⟩
                · refine ⟨hh + 1, hh, ⟨k2, hBll, hBlr, by simp; omega⟩,
                    ⟨kq, hBq1l, hBq1r, by simp; omega⟩, by simp⟩
              · have hq1b : q1.color = Black := color_black_of_not_red hq1
                have hfix : (Node.node se (Node.node le ll lr Red) q1 Red).fixUp
                    = Node.node se (Node.node le ll lr Red) q1 Red :=
                  fixUp_id hq1b (fun hx => by
                    have := hx.2
                    simp only [left_node] at this
                    rw [hllB] at this
                    simp at this)
                rw [hfix]
                refine ⟨?_, ?_, ?_, ?_⟩
                · simp only [inorder_node_any] at q1su ⊢
                  simp only [List.append_assoc, List.cons_append] at q1su ⊢
                  exact ((q1su.cons₂ se).append_left lr.inorder).cons₂ le
                    |>.append_left ll.inorder
                · exact ⟨hq1b, by intro _; simpa using hllB,
                    ⟨hlrB, hllImp, hNll, hNlr⟩, q1N⟩
                · exact Or.inr ⟨rfl, rfl, by simpa using hllB, by simpa using hq1b,
                    ⟨fun _ => ⟨hllB, hlrB⟩, hRll, hRlr⟩, q1R⟩
                · exact ⟨k2, k2, ⟨k2, hBll, hBlr, by simp⟩,
                    (by rwa [show k2 = k by omega] : Bal q1 k2), by simp⟩

end Llrb

namespace Llrb

/-- `Tree.DeleteMin` preserves the invariant. -/
theorem DeleteMin_inv (t : Tree Int) (hI : Inv t) : Inv t.DeleteMin := by
  obtain ⟨hBst, hN, hR, hc, h, hB⟩ := hI
  rw [Tree.DeleteMin]
  by_cases hnil : t.Root.isNil = true
  · rw [if_pos hnil]
    exact ⟨hBst, hN, hR, hc, h, hB⟩
  · rw [if_neg hnil]
    obtain ⟨hio, hN2, hA2, h2, hB2⟩ :=
      deleteMinA_root t.Root.size t.Root h (le_refl _) hN hR hB hc
        (by simpa using hnil)
    obtain ⟨bN, bR, bc, bB⟩ := blacken_preserves hN2 hA2 hB2
    refine ⟨?_, bN, bR, bc, bB⟩
    refine isBST_of_sublist ?_ hBst
    rw [Node.deleteMin] at *
    rw [inorder_blacken, hio]
    exact List.drop_sublist 1 _

/-- `Tree.DeleteMax` preserves the invariant. -/
theorem DeleteMax_inv (t : Tree Int) (hI : Inv t) : Inv t.DeleteMax := by
  obtain ⟨hBst, hN, hR, hc, h, hB⟩ := hI
  rw [Tree.DeleteMax]
  by_cases hnil : t.Root.isNil = true
  · rw [if_pos hnil]
    exact ⟨hBst, hN, hR, hc, h, hB⟩
  · rw [if_neg hnil]
    obtain ⟨hsu, hN2, hA2, h2, hB2⟩ :=
      deleteMaxA_root t.Root.size t.Root h (le_refl _) hN hR hB hc
        (by simpa using hnil)
    obtain ⟨bN, bR, bc, bB⟩ := blacken_preserves hN2 hA2 hB2
    refine ⟨?_, bN, bR, bc, bB⟩
    refine isBST_of_sublist ?_ hBst
    rw [Node.deleteMax] at *
    rw [inorder_blacken]
    exact hsu

/-- `Tree.Delete` preserves the invariant. -/
theorem Delete_inv (t : Tree Int) (e : Int) (hI : Inv t) :
    Inv (t.Delete (icmp e)) := by
  obtain ⟨hBst, hN, hR, hc, h, hB⟩ := hI
  rw [Tree.Delete]
  by_cases hnil : t.Root.isNil = true
  · rw [if_pos hnil]
    exact ⟨hBst, hN, hR, hc, h, hB⟩
  · rw [if_neg hnil]
    obtain ⟨hsu, hN2, hA2, h2, hB2⟩ :=
      deleteA_root e t.Root.size t.Root h (le_refl _) hN hR hB
        ((isBST_iff_pairwise t.Root).mp hBst) hc (by simpa using hnil)
    obtain ⟨bN, bR, bc, bB⟩ := blacken_preserves hN2 hA2 hB2
    refine ⟨?_, bN, bR, bc, bB⟩
    refine isBST_of_sublist ?_ hBst
    rw [Node.delete] at *
    rw [inorder_blacken]
    exact hsu

/-- One mutating operation of the claim: insert with replacement, delete
by key, delete-min or delete-max, each through the public `Tree` API with
the integer comparator. -/
inductive Op where
  | ins (e : Int)
  | del (e : Int)
  | delMin
  | delMax
deriving DecidableEq, Repr

/-- Apply one operation to a tree. -/
def applyOp (t : Tree Int) : Op → Tree Int
  | .ins e => t.Insert (icmp e) e
  | .del e => t.Delete (icmp e)
  | .delMin => t.DeleteMin
  | .delMax => t.DeleteMax

/-- Run a whole sequence of operations from the empty tree. -/
def applyOps (ops : List Op) : Tree Int := ops.foldl applyOp {}

theorem applyOp_inv (t : Tree Int) (op : Op) (hI : Inv t) : Inv (applyOp t op) := by
  cases op with
  | ins e => exact Insert_inv t e hI
  | del e => exact Delete_inv t e hI
  | delMin => exact DeleteMin_inv t hI
  | delMax => exact DeleteMax_inv t hI

theorem Inv_empty : Inv ({} : Tree Int) :=
  ⟨trivial, trivial, trivial, rfl, 0, rfl⟩

theorem foldl_inv (ops : List Op) : ∀ t : Tree Int, Inv t →
    Inv (ops.foldl applyOp t) := by
  induction ops with
  | nil => intro t h; exact h
  | cons op ops ih =>
    intro t h
    exact ih (applyOp t op) (applyOp_inv t op h)

end Llrb

namespace Llrb

/-- **C1.**  For every LLRB tree in BU23 mode reached from the empty tree
by any sequence of `Insert`, `Delete`, `DeleteMin` and `DeleteMax`
operations of the public `Tree` API (with the integer comparator), the
tree at rest satisfies all LLRB invariants: it is a binary search tree
with respect to the comparator (`IsBST`); every node's right child is
black — so in particular no node has a red right child while its left
child is black — and no node has a red left child whose own left child is
red (`NoRR`); no red node has a red child (`RedsOK`); every root-to-null
path has the same count of black links (`Bal` at some uniform black
height); and the root is black. -/
theorem llrb_invariants (ops : List Op) :
    IsBST (applyOps ops).Root ∧ NoRR (applyOps ops).Root ∧
    RedsOK (applyOps ops).Root ∧ (applyOps ops).Root.color = Black ∧
    ∃ h, Bal (applyOps ops).Root h :=
  foldl_inv ops {} Inv_empty

end Llrb
